import Mathlib

/-!
Verification development for the wallet address-history / UTXO tracking engine
(`electrum/address_synchronizer.py`).  The engine state and its operations are
shallowly embedded: Python dicts become association lists that keep insertion
order (assignment updates the first matching key in place and otherwise
appends; `pop` removes the entry), Python sets of txids become lists with
add-if-absent insertion, machine integers become `Int`, and fallible paths
return explicit result values.  Mutating methods become state-passing
functions on `WState`.
-/

set_option synthInstance.maxSize 1024

namespace ElectrumSync

/-- Python `d.get(k)` on a dict represented as an insertion-ordered
association list: value of the first entry with the given key. -/
def lookupA {α β : Type} [DecidableEq α] : List (α × β) → α → Option β
  | [], _ => none
  | (a, b) :: t, k => if a = k then some b else lookupA t k

/-- Python `k in d`. -/
def memA {α β : Type} [DecidableEq α] (l : List (α × β)) (k : α) : Bool :=
  (lookupA l k).isSome

/-- Python `d[k] = v`: update the existing entry in place (keeping dict
order), else append a new entry at the end. -/
def setA {α β : Type} [DecidableEq α] : List (α × β) → α → β → List (α × β)
  | [], k, v => [(k, v)]
  | (a, b) :: t, k, v => if a = k then (a, v) :: t else (a, b) :: setA t k v

/-- Python `d.pop(k, None)`: drop the entry with the given key, if any. -/
def popA {α β : Type} [DecidableEq α] : List (α × β) → α → List (α × β)
  | [], _ => []
  | (a, b) :: t, k => if a = k then t else (a, b) :: popA t k

/-- The key list of a dict. -/
def keysA {α β : Type} (l : List (α × β)) : List α := l.map Prod.fst

/-- Python `set.add` on a set represented as a duplicate-free list. -/
def addS {α : Type} [DecidableEq α] (l : List α) (x : α) : List α :=
  if x ∈ l then l else l ++ [x]

-- Height sentinels (`TX_HEIGHT_*` constants of the source).

def TX_HEIGHT_LOCAL : Int := -2
def TX_HEIGHT_UNCONF_PARENT : Int := -1
def TX_HEIGHT_UNCONFIRMED : Int := 0
def COINBASE_MATURITY : Int := 100

-- Transaction model (the engine's view of the external `Transaction` class).

/-- One transaction input: `{type, prevout_hash, prevout_n, address?}`.
`type = "coinbase"` inputs are skipped by the indexing code. -/
structure TxIn where
  typ : String
  prevoutHash : String
  prevoutN : Nat
  address : Option String
deriving DecidableEq

/-- `TYPE_ADDRESS` output kind tag (from the external bitcoin module). -/
def TYPE_ADDRESS : Nat := 0
/-- `TYPE_PUBKEY` output kind tag. -/
def TYPE_PUBKEY : Nat := 1

/-- One transaction output `(type, address, value)`. -/
structure TxOut where
  typ : Nat
  address : String
  value : Int
deriving DecidableEq

/-- A parsed transaction.  `raw` is its serialization (`str(tx)`), `txid` its
hash, `cachedFee` models the `_cached_fee` attribute set by `get_tx_fee`. -/
structure Tx where
  txid : String
  ins : List TxIn
  outs : List TxOut
  raw : String
  isComplete : Bool
  cachedFee : Option Int
deriving DecidableEq

/-- `TxMinedInfo` record: height plus optional verification metadata. -/
structure TxMinedInfo where
  height : Int
  conf : Option Int := none
  timestamp : Option Int := none
  txpos : Option Int := none
  headerHash : Option String := none
deriving DecidableEq

/-- Optional token-overlay record produced by the external omni daemon
(`omni_txdata`); `none` fields model missing dictionary keys. -/
structure OmniRec where
  amount : Option Int
  sender : Option String
  reference : Option String
deriving DecidableEq

/-- The engine state.  The embedding fixes the configuration in which the
optional token overlay is enabled but no daemon URL is set (`omni_host = ''`),
which is the only configuration in which every claimed operation is free of
attribute errors in the source; in it `omni_txdata` never writes `omni_tx`
and `omni_addr_balance` always totals 0.  `spvReleased` is the event log of
`verifier.remove_spv_proof_for_tx` calls, `verifierPresent` the truthiness of
`self.verifier`, and `localHeight` the value of `get_local_height()`. -/
structure WState where
  transactions : List (String × Tx)
  history : List (String × List (String × Int))
  verifiedTx : List (String × TxMinedInfo)
  unverifiedTx : List (String × Int)
  txFees : List (String × Int)
  txi : List (String × List (String × List (String × Int)))
  txo : List (String × List (String × List (Nat × Int × Bool)))
  spentOutpoints : List (String × List (Nat × String))
  historyLocal : List (String × List String)
  omniTx : List (String × OmniRec)
  spvReleased : List String
  verifierPresent : Bool
  localHeight : Int
deriving DecidableEq

-- Core reads.

/-- `is_mine(address)` for a plain address string: a key of `history`. -/
def isMineS (st : WState) (a : String) : Bool := memA st.history a

/-- `is_mine(address)` where the address may be `None` (Python `None in d`
is false). -/
def isMineO (st : WState) (a : Option String) : Bool :=
  match a with
  | none => false
  | some a => isMineS st a

/-- Fallback of `get_txin_address`: scan `txo[prevout_hash]` for the first
address whose output list contains the spent index. -/
def getTxinAddressFallback (st : WState) (txin : TxIn) : Option String :=
  let dd := (lookupA st.txo txin.prevoutHash).getD []
  (dd.find? (fun al => al.2.any (fun e => e.1 = txin.prevoutN))).map Prod.fst

/-- `get_txin_address`: prefer a truthy embedded address that is not the
`"(pubkey)"` placeholder, else resolve through `txo`. -/
def getTxinAddress (st : WState) (txin : TxIn) : Option String :=
  match txin.address with
  | some a =>
    if a ≠ "" ∧ a ≠ "(pubkey)" then some a else getTxinAddressFallback st txin
  | none => getTxinAddressFallback st txin

/-- Modelled from the spec: `bitcoin.public_key_to_p2pkh`, an external crypto
primitive living outside the target file, treated as an opaque injective
encoding of the public key bytes. -/
def publicKeyToP2pkh (s : String) : String := "p2pkh:" ++ s

/-- `get_txout_address`. -/
def getTxoutAddress (o : TxOut) : Option String :=
  if o.typ = TYPE_ADDRESS then some o.address
  else if o.typ = TYPE_PUBKEY then some (publicKeyToP2pkh o.address)
  else none

/-- `get_tx_height`: verified entries get `conf = max(local - height + 1, 0)`,
unverified entries get their pending height with `conf = 0`, everything else
is a local transaction. -/
def getTxHeight (st : WState) (t : String) : TxMinedInfo :=
  match lookupA st.verifiedTx t with
  | some info => { info with conf := some (max (st.localHeight - info.height + 1) 0) }
  | none =>
    match lookupA st.unverifiedTx t with
    | some h => { height := h, conf := some 0 }
    | none => { height := TX_HEIGHT_LOCAL, conf := some 0 }

/-- `get_txpos` sort key.  The source computes `1e9 - height` and `1e9 + 1`
in floats; all values involved are integers below 2^53, so float arithmetic
is exact and the key is embedded over `Int`. -/
def getTxpos (st : WState) (t : String) : Int × Int :=
  match lookupA st.verifiedTx t with
  | some info => (info.height, info.txpos.getD 0)
  | none =>
    match lookupA st.unverifiedTx t with
    | some h => if h > 0 then (h, 0) else (1000000000 - h, 0)
    | none => (1000000001, 0)

/-- `get_address_history`: the txids related to the address in the local
history index, paired with their current heights. -/
def getAddressHistory (st : WState) (a : String) : List (String × Int) :=
  ((lookupA st.historyLocal a).getD []).map (fun t => (t, (getTxHeight st t).height))

/-- `get_tx_delta`: subtract the address's inputs of the tx, add its
outputs; missing maps default to empty. -/
def getTxDelta (st : WState) (t a : String) : Int :=
  let d1 := ((lookupA ((lookupA st.txi t).getD []) a).getD []).foldl
    (fun s e => s - e.2) (0 : Int)
  ((lookupA ((lookupA st.txo t).getD []) a).getD []).foldl (fun s e => s + e.2.1) d1

/-- `get_omni_delta`: signed token effect of the recorded overlay data. -/
def getOmniDelta (st : WState) (t a : String) : Int :=
  match lookupA st.omniTx t with
  | none => 0
  | some r =>
    match r.amount, r.sender, r.reference with
    | some v, some snd, some ref => if snd = a then -v else if ref = a then v else 0
    | _, _, _ => 0

-- Local history index (C3 primitives).

/-- `_add_tx_to_local_history`: for every address key of `txi[txid]` or
`txo[txid]`, add `txid` to that address's local-history set.  (The
edge-triggered change events carry no state and are not modelled.) -/
def hlAddStep (t : String) (hl : List (String × List String)) (a : String) :
    List (String × List String) :=
  setA hl a (addS ((lookupA hl a).getD []) t)

def addTxToLocalHistory (st : WState) (t : String) : WState :=
  let addrs := keysA ((lookupA st.txi t).getD []) ++ keysA ((lookupA st.txo t).getD [])
  { st with historyLocal := addrs.foldl (hlAddStep t) st.historyLocal }

/-- `_remove_tx_from_local_history`: symmetric removal; a missing address
entry raises `KeyError` on the fresh empty set, which is swallowed without
storing anything. -/
def hlRemoveStep (t : String) (hl : List (String × List String)) (a : String) :
    List (String × List String) :=
  match lookupA hl a with
  | none => hl
  | some cur => setA hl a (cur.erase t)

def removeTxFromLocalHistory (st : WState) (t : String) : WState :=
  let addrs := keysA ((lookupA st.txi t).getD []) ++ keysA ((lookupA st.txo t).getD [])
  { st with historyLocal := addrs.foldl (hlRemoveStep t) st.historyLocal }

-- Spent-outpoints defaultdict access.

/-- `self.spent_outpoints[h]` on the `defaultdict(dict)`: reading a missing
key inserts (and returns) a fresh empty submap. -/
def soGet (so : List (String × List (Nat × String))) (h : String) :
    List (String × List (Nat × String)) × List (Nat × String) :=
  match lookupA so h with
  | some d => (so, d)
  | none => (so ++ [(h, [])], [])

-- Conflict detection.

/-- Loop body of `get_conflicting_transactions`: walk the inputs, collecting
the distinct recorded spenders of their outpoints; `none` as the second
component models the failed `assert spending_tx_hash in self.transactions`.
The `defaultdict` reads thread the (possibly extended) spent-outpoints map. -/
def getConflictingLoop (trans : List (String × Tx)) :
    List TxIn → List (String × List (Nat × String)) → List String →
    List (String × List (Nat × String)) × Option (List String)
  | [], so, acc => (so, some acc)
  | txin :: rest, so, acc =>
    if txin.typ = "coinbase" then getConflictingLoop trans rest so acc
    else
      let p := soGet so txin.prevoutHash
      match lookupA p.2 txin.prevoutN with
      | none => getConflictingLoop trans rest p.1 acc
      | some s =>
        if memA trans s then getConflictingLoop trans rest p.1 (addS acc s)
        else (p.1, none)

/-- `get_conflicting_transactions(tx_hash, tx)`.  The result is `none` when
the source raises (failed assert, or the tx conflicts with itself alongside
other spenders); otherwise the list of conflicting txids, excluding
`tx_hash` itself. -/
def getConflicting (st : WState) (txHash : String) (tx : Tx) :
    WState × Option (List String) :=
  let p := getConflictingLoop st.transactions tx.ins st.spentOutpoints []
  let st1 := { st with spentOutpoints := p.1 }
  match p.2 with
  | none => (st1, none)
  | some cs =>
    if txHash ∈ cs then
      if cs.length > 1 then (st1, none) else (st1, some (cs.erase txHash))
    else (st1, some cs)

/-- `get_depending_transactions`: all (grand-)children of a txid through
`spent_outpoints`.  The source recurses without bound (the spender graph is
acyclic, so the depth is at most the number of keys); the embedding takes
explicit fuel.  The source's `defaultdict` read creates a transient empty
submap for each visited txid; every visited txid is subsequently passed to
`remove_transaction`, whose final cleanup pops exactly such empty submaps,
so the embedding reads without mutating. -/
def dependingTxs (so : List (String × List (Nat × String))) : Nat → String → List String
  | 0, _ => []
  | fuel + 1, t =>
    ((lookupA so t).getD []).foldl (fun acc e =>
      (dependingTxs so fuel e.2).foldl addS (addS acc e.2)) []

-- Removal.

/-- One input of `remove_transaction`'s fast spent-outpoints cleanup: pop
the outpoint and drop the submap if it became empty. -/
def removeSOStep (so : List (String × List (Nat × String))) (txin : TxIn) :
    List (String × List (Nat × String)) :=
  if txin.typ = "coinbase" then so
  else
    let p := soGet so txin.prevoutHash
    let sub := popA p.2 txin.prevoutN
    let so := setA p.1 txin.prevoutHash sub
    if sub.isEmpty then popA so txin.prevoutHash else so

/-- Fast branch of `remove_transaction`'s spent-outpoints cleanup, used when
the tx body is known: pop each non-coinbase input's outpoint and drop
submaps that become empty. -/
def removeSpentOutpointsKnown (so : List (String × List (Nat × String)))
    (ins : List TxIn) : List (String × List (Nat × String)) :=
  ins.foldl removeSOStep so

/-- Fallback branch scanning all entries for the removed spender.  (The
embedding snapshots each submap; CPython would additionally raise if a
submap shrank during its own iteration.  The branch is reachable only for
txids without a stored body, which no claim exercises.) -/
def removeSpentOutpointsScan (so : List (String × List (Nat × String)))
    (txHash : String) : List (String × List (Nat × String)) :=
  so.foldl (fun acc hd =>
    hd.2.foldl (fun acc nd =>
      if nd.2 = txHash then
        let sub := popA ((lookupA acc hd.1).getD []) nd.1
        let acc := setA acc hd.1 sub
        if sub.isEmpty then popA acc hd.1 else acc
      else acc) acc) so

/-- `remove_transaction(tx_hash)`: pop the tx, undo its spends, drop its
(possibly empty) own spent-outpoints submap, remove it from the local
history index and pop its `txi`/`txo` rows. -/
def removeTransaction (st : WState) (txHash : String) : WState :=
  let tx? := lookupA st.transactions txHash
  let st := { st with transactions := popA st.transactions txHash }
  let so :=
    match tx? with
    | some tx => removeSpentOutpointsKnown st.spentOutpoints tx.ins
    | none => removeSpentOutpointsScan st.spentOutpoints txHash
  let p := soGet so txHash
  let so := if p.2.isEmpty then popA p.1 txHash else p.1
  let st := { st with spentOutpoints := so }
  let st := removeTxFromLocalHistory st txHash
  { st with txi := popA st.txi txHash, txo := popA st.txo txHash }

-- Ingest.

/-- First wallet-owned match for `add_value_from_prev_output`: scan
`txo[prevout_hash]` address by address and return the first `(addr, value)`
whose output list contains the spent index. -/
def findPrevOutputValue (dd : List (String × List (Nat × Int × Bool))) (pn : Nat) :
    Option (String × Int) :=
  match dd.find? (fun al => al.2.any (fun e => e.1 = pn)) with
  | none => none
  | some al =>
    match al.2.find? (fun e => e.1 = pn) with
    | none => none
    | some e => some (al.1, e.2.1)

/-- `add_value_from_prev_output()`: if the first matching previous output
belongs to a truthy wallet-owned address, record `(ser, value)` under that
address in `txi[tx_hash]` (a set, so duplicates are not re-added). -/
def addValueFromPrevOutput (st : WState) (txHash ser ph : String) (pn : Nat) : WState :=
  match findPrevOutputValue ((lookupA st.txo ph).getD []) pn with
  | none => st
  | some av =>
    if av.1 ≠ "" ∧ isMineS st av.1 then
      let d := (lookupA st.txi txHash).getD []
      let d := setA d av.1 (addS ((lookupA d av.1).getD []) (ser, av.2))
      { st with txi := setA st.txi txHash d }
    else st

/-- One input of the indexing loop of `add_transaction`: record the spend in
`spent_outpoints` and credit the previous output. -/
def addInputStep (txHash : String) (st : WState) (txin : TxIn) : WState :=
  if txin.typ = "coinbase" then st
  else
    let ph := txin.prevoutHash
    let pn := txin.prevoutN
    let ser := ph ++ ":" ++ toString pn
    let p := soGet st.spentOutpoints ph
    let st := { st with spentOutpoints := setA p.1 ph (setA p.2 pn txHash) }
    addValueFromPrevOutput st txHash ser ph pn

/-- Input-indexing loop of `add_transaction`. -/
def addInputsLoop (st : WState) (txHash : String) (ins : List TxIn) : WState :=
  ins.foldl (addInputStep txHash) st

/-- One step of the output-indexing loop: if output `n` pays a truthy
wallet-owned address, append it to `txo[tx_hash]`, and if a spender of this
outpoint is already recorded, reciprocally credit its `txi` row (the source
mutates a temporary dict that is lost when the spender has no `txi` row)
and refresh the spender's local history. -/
def addOneOutput (st : WState) (txHash : String) (isCb : Bool) (n : Nat) (o : TxOut) :
    WState :=
  let v := o.value
  let ser := txHash ++ ":" ++ toString n
  match getTxoutAddress o with
  | none => st
  | some addr =>
    if addr ≠ "" ∧ isMineS st addr then
      let d := (lookupA st.txo txHash).getD []
      let d := setA d addr (((lookupA d addr).getD []) ++ [(n, v, isCb)])
      let st := { st with txo := setA st.txo txHash d }
      let p := soGet st.spentOutpoints txHash
      let st := { st with spentOutpoints := p.1 }
      match lookupA p.2 n with
      | none => st
      | some nextTx =>
        let st :=
          match lookupA st.txi nextTx with
          | none => st
          | some dd =>
            let dd := setA dd addr (addS ((lookupA dd addr).getD []) (ser, v))
            { st with txi := setA st.txi nextTx dd }
        addTxToLocalHistory st nextTx
    else st

/-- Indexing phase of `add_transaction`, entered once any conflict has been
resolved: rebuild `txi[tx_hash]` and `txo[tx_hash]`, update the local
history and store the tx.  (With `omni_host = ''` no overlay record is
written.) -/
def addOutputStep (txHash : String) (isCb : Bool) (st : WState) (p : Nat × TxOut) :
    WState :=
  addOneOutput st txHash isCb p.1 p.2

def addIndexPhase (st : WState) (txHash : String) (tx : Tx) (isCb : Bool) : WState :=
  let st := { st with txi := setA st.txi txHash [] }
  let st := addInputsLoop st txHash tx.ins
  let st := { st with txo := setA st.txo txHash [] }
  let st := tx.outs.enum.foldl (addOutputStep txHash isCb) st
  let st := addTxToLocalHistory st txHash
  { st with transactions := setA st.transactions txHash tx }

/-- Result of `add_transaction`: the raised `UnrelatedTransaction`, a fatal
internal error (failed assert or self-conflict alongside other spenders),
or the boolean return value. -/
inductive AddTxRes where
  | unrelated
  | fatal
  | done (b : Bool)
deriving DecidableEq

/-- `to_remove`: the conflicting transactions together with all their
dependents computed through `spent_outpoints`. -/
def evictionSet (st : WState) (conflicts : List String) : List String :=
  conflicts.foldl (fun acc c =>
    (dependingTxs st.spentOutpoints (st.spentOutpoints.length + 1) c).foldl addS acc)
    conflicts

/-- Conflict-resolution tail of `add_transaction`: drop the new tx when a
confirmed conflict beats a non-confirmed newcomer or a mempool conflict
beats a local newcomer; otherwise evict the conflicts and all their
dependents and proceed to indexing. -/
def addTransactionResolved (st : WState) (txHash : String) (tx : Tx) (isCb : Bool)
    (txHeight : Int) (conflicts : List String) : WState × AddTxRes :=
  if conflicts.isEmpty then (addIndexPhase st txHash tx isCb, .done true)
  else
    let existingMempool := conflicts.any (fun t2 =>
      (getTxHeight st t2).height = TX_HEIGHT_UNCONFIRMED ∨
      (getTxHeight st t2).height = TX_HEIGHT_UNCONF_PARENT)
    let existingConfirmed := conflicts.any (fun t2 => (getTxHeight st t2).height > 0)
    if existingConfirmed ∧ txHeight ≤ 0 then (st, .done false)
    else if existingMempool ∧ txHeight = TX_HEIGHT_LOCAL then (st, .done false)
    else
      let st := (evictionSet st conflicts).foldl removeTransaction st
      (addIndexPhase st txHash tx isCb, .done true)

/-- `add_transaction(tx_hash, tx, allow_unrelated)`.  The leading asserts
(`tx.is_complete()`, a first input to classify as coinbase) are modelled as
fatal results; the relatedness check precedes every mutation. -/
def addTransaction (st : WState) (txHash : String) (tx : Tx)
    (allowUnrelated : Bool) : WState × AddTxRes :=
  if ¬ tx.isComplete then (st, .fatal)
  else
    match tx.ins with
    | [] => (st, .fatal)
    | txin0 :: _ =>
      let isCb := txin0.typ = "coinbase"
      let txHeight := (getTxHeight st txHash).height
      if ¬ allowUnrelated ∧
         ¬ tx.ins.any (fun i => isMineO st (getTxinAddress st i)) ∧
         ¬ tx.outs.any (fun o => isMineO st (getTxoutAddress o)) then
        (st, .unrelated)
      else
        match getConflicting st txHash tx with
        | (st1, none) => (st1, .fatal)
        | (st1, some conflicts) => addTransactionResolved st1 txHash tx isCb txHeight conflicts

-- Verification coordinator (C6 of the spec).

/-- `if self.verifier: self.verifier.remove_spv_proof_for_tx(t)` — the
release is recorded in the event log. -/
def releaseProof (st : WState) (t : String) : WState :=
  if st.verifierPresent then { st with spvReleased := st.spvReleased ++ [t] } else st

/-- `add_unverified_tx(tx_hash, tx_height)`: demote a verified tx on a
mempool height (releasing its SPV proof when a verifier is attached),
otherwise record the pending height. -/
def addUnverifiedTx (st : WState) (t : String) (h : Int) : WState :=
  if memA st.verifiedTx t then
    if h = TX_HEIGHT_UNCONFIRMED ∨ h = TX_HEIGHT_UNCONF_PARENT then
      releaseProof { st with verifiedTx := popA st.verifiedTx t } t
    else st
  else { st with unverifiedTx := setA st.unverifiedTx t h }

/-- `remove_unverified_tx`: compare-and-swap removal. -/
def removeUnverifiedTx (st : WState) (t : String) (h : Int) : WState :=
  if lookupA st.unverifiedTx t = some h then
    { st with unverifiedTx := popA st.unverifiedTx t }
  else st

/-- `add_verified_tx(tx_hash, info)`: move from unverified to verified.
(The `verified` network callback carries no engine state.) -/
def addVerifiedTx (st : WState) (t : String) (info : TxMinedInfo) : WState :=
  { st with unverifiedTx := popA st.unverifiedTx t,
            verifiedTx := setA st.verifiedTx t info }

/-- The re-read check of `undo_verifications`:
`not header or hash_header(header) != info.header_hash`. -/
def headerMismatch {H : Type} (readHeader : Int → Option H) (hashHeader : H → String)
    (info : TxMinedInfo) : Bool :=
  match readHeader info.height with
  | none => true
  | some hd => some (hashHeader hd) ≠ info.headerHash

/-- One snapshot entry of `undo_verifications`: demote the tx when its
recorded block is at or above the reorg height and the re-read header is
absent or hashes differently. -/
def undoVerStep {H : Type} (readHeader : Int → Option H) (hashHeader : H → String)
    (height : Int) (acc : WState × List String) (e : String × TxMinedInfo) :
    WState × List String :=
  if e.2.height ≥ height then
    if headerMismatch readHeader hashHeader e.2 then
      ({ acc.1 with verifiedTx := popA acc.1.verifiedTx e.1,
                    unverifiedTx := setA acc.1.unverifiedTx e.1 e.2.height },
       addS acc.2 e.1)
    else acc
  else acc

/-- `undo_verifications(blockchain, height)`: walk a snapshot of
`verified_tx`; every entry at a block at or above the reorg height whose
header no longer matches is demoted to unverified at its old height.  The
chain collaborator is the pair `readHeader`/`hashHeader` (a header returned
by `read_header` is assumed non-falsy, i.e. a populated dict). -/
def undoVerifications {H : Type} (readHeader : Int → Option H)
    (hashHeader : H → String) (st : WState) (height : Int) : WState × List String :=
  st.verifiedTx.foldl (undoVerStep readHeader hashHeader height) (st, ([] : List String))

-- Server-history ingestion.

/-- One retraction step of the locked phase of `receive_history_callback`:
a pair absent from the new history is dropped from both verification maps
and its SPV proof released when a verifier is attached. -/
def phase1Step (hist : List (String × Int)) (st : WState) (th : String × Int) : WState :=
  if th ∉ hist then
    releaseProof { st with unverifiedTx := popA st.unverifiedTx th.1,
                           verifiedTx := popA st.verifiedTx th.1 } th.1
  else st

/-- Locked first phase of `receive_history_callback`: diff the address's
local history (with current heights) against the new server history, drop
retracted pairs from both verification maps, release their SPV proofs, and
store the new server history. -/
def receiveHistoryPhase1 (st : WState) (addr : String)
    (hist : List (String × Int)) : WState :=
  let st := (getAddressHistory st addr).foldl (phase1Step hist) st
  { st with history := setA st.history addr hist }

/-- One new-history entry of `receive_history_callback`: enqueue the pair as
unverified and re-ingest its cached body (if any) with
`allow_unrelated=True`; a false flag records a propagating exception and
freezes the remaining iterations. -/
def phase2Step (acc : WState × Bool) (th : String × Int) : WState × Bool :=
  if ¬ acc.2 then acc
  else
    let st := addUnverifiedTx acc.1 th.1 th.2
    match lookupA st.transactions th.1 with
    | none => (st, true)
    | some tx =>
      match addTransaction st th.1 tx true with
      | (st, .done _) => (st, true)
      | (st, _) => (st, false)

/-- `receive_history_callback(addr, hist, tx_fees)`.  After the locked diff,
each new pair is enqueued as unverified and its cached body (if any) is
re-ingested with `allow_unrelated=True`; finally the fee map is merged.  The
boolean is false when a re-ingest raised, aborting the remaining work as the
propagating exception does. -/
def receiveHistoryCallback (st : WState) (addr : String)
    (hist : List (String × Int)) (fees : List (String × Int)) : WState × Bool :=
  let st := receiveHistoryPhase1 st addr hist
  let acc := hist.foldl phase2Step (st, true)
  if acc.2 then
    ({ acc.1 with txFees := fees.foldl (fun f kv => setA f kv.1 kv.2) acc.1.txFees }, true)
  else acc

/-- `clear_history`: reset the primary and derived maps.  The source leaves
`_history_local` and `unverified_tx` untouched. -/
def clearHistory (st : WState) : WState :=
  { st with txi := [], txo := [], txFees := [], spentOutpoints := [],
            history := [], verifiedTx := [], transactions := [] }

-- Query engine.

/-- The value of the previous output spent by an input, looked up in
`txo[prevout_hash][addr]` (the `for ... break / else` of
`get_wallet_delta`). -/
def txinPrevValue (st : WState) (txin : TxIn) (addr : String) : Option Int :=
  (((lookupA ((lookupA st.txo txin.prevoutHash).getD []) addr).getD []).find?
    (fun e => e.1 = txin.prevoutN)).map (fun e => e.2.1)

/-- The wallet-owned, value-resolved view of an input used by
`get_wallet_delta`: its resolved address must be mine and its previous
output's value known. -/
def walletInputValue (st : WState) (txin : TxIn) : Option Int :=
  match getTxinAddress st txin with
  | none => none
  | some a => if isMineS st a then txinPrevValue st txin a else none

/-- Input step of `get_wallet_delta`, accumulating
`(is_relevant, is_mine, is_pruned, is_partial, v_in)`. -/
def walletDeltaInStep (st : WState) (acc : Bool × Bool × Bool × Bool × Int)
    (txin : TxIn) : Bool × Bool × Bool × Bool × Int :=
  let addr := getTxinAddress st txin
  if isMineO st addr then
    match addr with
    | none => acc
    | some a =>
      match txinPrevValue st txin a with
      | none => (true, true, true, acc.2.2.2.1, acc.2.2.2.2)
      | some value => (true, true, acc.2.2.1, acc.2.2.2.1, acc.2.2.2.2 + value)
  else (acc.1, acc.2.1, acc.2.2.1, true, acc.2.2.2.2)

/-- Output step of `get_wallet_delta`, accumulating
`(v_out, v_out_mine, is_relevant)`. -/
def walletDeltaOutStep (st : WState) (out : Int × Int × Bool) (o : TxOut) :
    Int × Int × Bool :=
  let vOut := out.1 + o.value
  if isMineS st o.address then (vOut, out.2.1 + o.value, true)
  else (vOut, out.2.1, out.2.2)

/-- `get_wallet_delta(tx) -> (is_relevant, is_mine, v, fee)`. -/
def getWalletDelta (st : WState) (tx : Tx) : Bool × Bool × Int × Option Int :=
  let acc := tx.ins.foldl (walletDeltaInStep st) (false, false, false, false, (0 : Int))
  let isMine := acc.2.1
  let isPruned := acc.2.2.1
  let isPartial := if ¬ isMine then false else acc.2.2.2.1
  let vIn := acc.2.2.2.2
  let out := tx.outs.foldl (walletDeltaOutStep st) ((0 : Int), (0 : Int), acc.1)
  let vOut := out.1
  let vOutMine := out.2.1
  let isRel := out.2.2
  if isPruned then
    (isRel, isMine, if isMine then vOutMine - vOut else vOutMine, none)
  else
    let fee := if isPartial then none else some (vIn - vOut)
    (isRel, isMine, vOutMine - vIn, if ¬ isMine then none else fee)

/-- `get_tx_fee(tx)`: cached fee, else the wallet-delta fee, else the
server-reported fee; non-`None` results are cached on the tx. -/
def getTxFee (st : WState) (tx : Tx) : Option Int × Tx :=
  match tx.cachedFee with
  | some f => (some f, tx)
  | none =>
    let fee := (getWalletDelta st tx).2.2.2
    let fee :=
      match fee with
      | some f => some f
      | none => lookupA st.txFees tx.txid
    match fee with
    | some f => (some f, { tx with cachedFee := some f })
    | none => (none, tx)

/-- `get_addr_io(address) -> (received, sent)`. -/
def getAddrIO (st : WState) (address : String) :
    List (String × (Int × Int × Bool)) × List (String × Int) :=
  let h := getAddressHistory st address
  let received := h.foldl (fun recv th =>
    (((lookupA st.txo th.1).getD []).foldl (fun recv al =>
      if al.1 = address then
        al.2.foldl (fun recv e =>
          setA recv (th.1 ++ ":" ++ toString e.1) (th.2, e.2.1, e.2.2)) recv
      else recv) recv)) ([] : List (String × (Int × Int × Bool)))
  let sent := h.foldl (fun snt th =>
    (((lookupA st.txi th.1).getD []).foldl (fun snt al =>
      if al.1 = address then al.2.foldl (fun snt e => setA snt e.1 th.2) snt
      else snt) snt)) ([] : List (String × Int))
  (received, sent)

/-- `get_addr_balance(address) -> (confirmed, unconfirmed, immature)`. -/
def getAddrBalance (st : WState) (address : String) : Int × Int × Int :=
  let io := getAddrIO st address
  io.1.foldl (fun (acc : Int × Int × Int) (e : String × (Int × Int × Bool)) =>
    let cux :=
      if e.2.2.2 ∧ e.2.1 + COINBASE_MATURITY > st.localHeight then
        (acc.1, acc.2.1, acc.2.2 + e.2.2.1)
      else if e.2.1 > 0 then (acc.1 + e.2.2.1, acc.2.1, acc.2.2)
      else (acc.1, acc.2.1 + e.2.2.1, acc.2.2)
    match lookupA io.2 e.1 with
    | none => cux
    | some sh =>
      if sh > 0 then (cux.1 - e.2.2.1, cux.2.1, cux.2.2)
      else (cux.1, cux.2.1 - e.2.2.1, cux.2.2)) ((0 : Int), (0 : Int), (0 : Int))

/-- `get_balance(domain)`: per-address sums.  (`set(domain)` is modelled by
deduplication preserving first occurrences.) -/
def getBalance (st : WState) (domain : List String) : Int × Int × Int :=
  domain.dedup.foldl (fun acc a =>
    let b := getAddrBalance st a
    (acc.1 + b.1, acc.2.1 + b.2.1, acc.2.2 + b.2.2)) (0, 0, 0)

-- `get_history` pipeline.

/-- Step 1 of `get_history`: fold the per-address deltas into `tx_deltas`
(the `defaultdict(int)` read inserts 0 before `+=`) and the token deltas
into `omni_deltas`. -/
def historyDeltas (st : WState) (domain : List String) :
    List (String × Int) × List (String × Int) :=
  domain.foldl (fun acc a =>
    (getAddressHistory st a).foldl (fun acc th =>
      let td := setA acc.1 th.1 ((lookupA acc.1 th.1).getD 0 + getTxDelta st th.1 a)
      let od := getOmniDelta st th.1 a
      if od ≠ 0 then (td, setA acc.2 th.1 ((lookupA acc.2 th.1).getD 0 + od))
      else (td, acc.2)) acc) (([], []) : List (String × Int) × List (String × Int))

/-- Lexicographic order on `get_txpos` keys (Python tuple comparison). -/
def posLe (p q : Int × Int) : Prop := p.1 < q.1 ∨ (p.1 = q.1 ∧ p.2 ≤ q.2)

instance (p q : Int × Int) : Decidable (posLe p q) := by
  unfold posLe
  infer_instance

/-- Descending comparison on `get_txpos` keys: `x` may stay before `y`
exactly when `y`'s key is at most `x`'s, which reproduces the stable
`sort(key=get_txpos, reverse=True)`. -/
def txposGe (st : WState) (x y : String × TxMinedInfo × Int × Int) : Bool :=
  decide (posLe (getTxpos st y.1) (getTxpos st x.1))

/-- Stable insertion into a run sorted by `le` (insertion after all entries
`le`-before the new one, preserving the original order of equals). -/
def orderedInsert {α : Type} (le : α → α → Bool) (x : α) : List α → List α
  | [] => [x]
  | y :: ys => if le y x then y :: orderedInsert le x ys else x :: y :: ys

/-- Stable insertion sort; any stable sort computes the same list as
CPython's stable `list.sort`. -/
def stableSort {α : Type} (le : α → α → Bool) : List α → List α
  | [] => []
  | x :: xs => orderedInsert le x (stableSort le xs)

/-- Step 2 of `get_history`: attach mined status and token delta to each
accumulated tx and sort by descending `get_txpos`. -/
def historySorted (st : WState) (domain : List String) :
    List (String × TxMinedInfo × Int × Int) :=
  let p := historyDeltas st domain
  stableSort (txposGe st)
    (p.1.map (fun kv => (kv.1, getTxHeight st kv.1, kv.2, (lookupA p.2 kv.1).getD 0)))

/-- One row of the final history view `(tx_hash, tx_mined_status, delta,
balance, omni_delta, omni_balance)`. -/
structure HistRow where
  txHash : String
  status : TxMinedInfo
  delta : Int
  balance : Int
  omniDelta : Int
  omniBalance : Int
deriving DecidableEq

/-- Step 3 of `get_history`: walk the sorted rows attaching the running
balance (starting from the domain's total balance and subtracting each delta
after attaching it; the token balance starts at 0, the daemon being absent
in the modelled configuration).  Returns the reverse-chronological rows and
the leftover balance checked at the end. -/
def walkStep (acc : List HistRow × Int × Int) (row : String × TxMinedInfo × Int × Int) :
    List HistRow × Int × Int :=
  let h2 := acc.1 ++ [⟨row.1, row.2.1, row.2.2.1, acc.2.1, row.2.2.2, acc.2.2⟩]
  let balance := acc.2.1 - row.2.2.1
  let ob := if row.2.2.2 ≠ 0 then acc.2.2 - row.2.2.2 else acc.2.2
  (h2, balance, ob)

def historyWalk (st : WState) (domain : List String) : List HistRow × Int :=
  let hist := historySorted st domain
  let b := getBalance st domain
  let acc := hist.foldl walkStep (([] : List HistRow), b.1 + b.2.1 + b.2.2, (0 : Int))
  (acc.1, acc.2.1)

/-- `get_history(domain)`: the chronological rows, or the empty list when
the leftover balance exposes an inconsistent view.  (`domain = set(domain)`
is modelled by first-occurrence deduplication; all deltas are total
integers, so the source's `None` poisoning never fires and the leftover
balance is an integer.) -/
def getHistory (st : WState) (domain : List String) : List HistRow :=
  let d := domain.dedup
  let p := historyWalk st d
  if p.2 = 0 then p.1.reverse else []

-- Persistence snapshot.

/-- The blobs written by `save_transactions` that the claims compare:
`transactions` serialized via `str(tx)`, the index maps, fees, the server
histories and the spent-outpoints map. -/
structure SerializedState where
  transactions : List (String × String)
  txi : List (String × List (String × List (String × Int)))
  txo : List (String × List (String × List (Nat × Int × Bool)))
  txFees : List (String × Int)
  addrHistory : List (String × List (String × Int))
  spentOutpoints : List (String × List (Nat × String))
deriving DecidableEq

/-- Snapshot of the persisted engine state. -/
def serializedState (st : WState) : SerializedState :=
  { transactions := st.transactions.map (fun kv => (kv.1, kv.2.raw)),
    txi := st.txi, txo := st.txo, txFees := st.txFees,
    addrHistory := st.history, spentOutpoints := st.spentOutpoints }

-- Concrete states used to witness the theorems below.

/-- A fresh wallet owning the single address `"A"`. -/
def egBase : WState :=
  { transactions := [], history := [("A", [])], verifiedTx := [], unverifiedTx := [],
    txFees := [], txi := [], txo := [], spentOutpoints := [], historyLocal := [],
    omniTx := [], spvReleased := [], verifierPresent := false, localHeight := 100 }

/-- Fee-scenario state: a previous tx `P` paid 1000 to the owned `A`. -/
def egC5St : WState := { egBase with txo := [("P", [("A", [(0, 1000, false)])])] }

/-- Fee-scenario tx: spends the 1000 and pays 800 to a foreign address plus
100 change to `A`. -/
def egC5Tx : Tx :=
  { txid := "T", ins := [⟨"in", "P", 0, some "A"⟩],
    outs := [⟨TYPE_ADDRESS, "B", 800⟩, ⟨TYPE_ADDRESS, "A", 100⟩],
    raw := "rawT", isComplete := true, cachedFee := none }

/-- A tx paying the owned address (used to populate the local history). -/
def egTx1 : Tx :=
  { txid := "t1", ins := [⟨"in", "p", 0, none⟩],
    outs := [⟨TYPE_ADDRESS, "A", 5⟩], raw := "raw1", isComplete := true, cachedFee := none }

/-- State after ingesting `egTx1` and then clearing the history. -/
def egClearSt : WState := clearHistory (addTransaction egBase "t1" egTx1 false).1

/-- A coinbase tx `X` paying 1000 to `A`; ingesting it leaves the empty
spent-outpoints submap `X -> {}` behind (created by the spender lookup). -/
def egTxX : Tx :=
  { txid := "X", ins := [⟨"coinbase", "", 0, none⟩],
    outs := [⟨TYPE_ADDRESS, "A", 1000⟩], raw := "rawX", isComplete := true, cachedFee := none }

/-- The wallet after ingesting `egTxX`. -/
def egStX : WState := (addTransaction egBase "X" egTxX false).1

/-- An isolated-in-the-claimed-sense tx spending the outpoint `X:0` (which
is not recorded in `spent_outpoints`, whose entry for `X` is empty). -/
def egTxT : Tx :=
  { txid := "T2", ins := [⟨"in", "X", 0, some "A"⟩],
    outs := [⟨TYPE_ADDRESS, "B", 900⟩, ⟨TYPE_ADDRESS, "A", 50⟩],
    raw := "rawT2", isComplete := true, cachedFee := none }

/-- `egStX` after adding and then removing `egTxT`. -/
def egRoundSt : WState := removeTransaction (addTransaction egStX "T2" egTxT false).1 "T2"

/-- Retraction scenario: the server history for `A` records `(T,5)` while the
local index knows nothing about `T`, which is verified. -/
def egC3St : WState :=
  { egBase with history := [("A", [("T", 5)])],
                verifiedTx := [("T", { height := 5, headerHash := some "H" })] }

/-- Retraction scenario for the amended claim: `T` is known to the local
index of `A` and verified at height 5. -/
def egC3bSt : WState :=
  { egBase with historyLocal := [("A", ["T"])],
                verifiedTx := [("T", { height := 5, headerHash := some "H" })] }

/-- A mempool tx `T5` spending `Xo:0`. -/
def egT5Tx : Tx :=
  { txid := "T5", ins := [⟨"in", "Xo", 0, none⟩],
    outs := [⟨TYPE_ADDRESS, "A", 50⟩], raw := "raw5", isComplete := true, cachedFee := none }

/-- Wallet holding the mempool conflict `T5` and the verification record of
the incoming confirmed `T6`. -/
def egT6St : WState :=
  let st := { egBase with unverifiedTx := [("T5", 0)] }
  { (addTransaction st "T5" egT5Tx false).1 with verifiedTx := [("T6", { height := 300 })] }

/-- A confirmed tx `T6` double-spending `Xo:0`. -/
def egT6Tx : Tx :=
  { txid := "T6", ins := [⟨"in", "Xo", 0, none⟩],
    outs := [⟨TYPE_ADDRESS, "A", 70⟩], raw := "raw6", isComplete := true, cachedFee := none }

/-- Reorg scenario: `T7` verified at height 700 under header hash `"H"`. -/
def egC4St : WState :=
  { egBase with verifiedTx :=
      [("T7", { height := 700, timestamp := some 11, txpos := some 2, headerHash := some "H" })] }

/-- A transaction unrelated to the `egBase` wallet. -/
def egUnrelTx : Tx :=
  { txid := "U", ins := [⟨"in", "zz", 1, some "Z"⟩],
    outs := [⟨TYPE_ADDRESS, "Z2", 7⟩], raw := "rawU", isComplete := true, cachedFee := none }

/-- Disjointness scenario: one verified and one unverified tx. -/
def egC7St : WState :=
  { egBase with verifiedTx := [("V1", { height := 10, headerHash := some "H" })],
                unverifiedTx := [("U1", 0)] }

-- Machinery for the add/remove roundtrip claim (spec P5).

/-- The spent-outpoints effect of one `defaultdict` read performed by
`get_conflicting_transactions` for an input: a missing prevout hash gains a
fresh empty submap. -/
def soTouchStep (so : List (String × List (Nat × String))) (i : TxIn) :
    List (String × List (Nat × String)) :=
  if i.typ = "coinbase" then so else (soGet so i.prevoutHash).1

/-- The spent-outpoints effect of one input of the indexing loop:
`self.spent_outpoints[prevout_hash][prevout_n] = tx_hash`. -/
def soSetStep (txHash : String) (so : List (String × List (Nat × String)))
    (i : TxIn) : List (String × List (Nat × String)) :=
  if i.typ = "coinbase" then so
  else setA (soGet so i.prevoutHash).1 i.prevoutHash
    (setA (soGet so i.prevoutHash).2 i.prevoutN txHash)

/-- The `(prevout_n, tx_hash)` records that the input loop of
`add_transaction` files under a given prevout hash, in input order. -/
def addsFor (txHash : String) (ins : List TxIn) (h : String) :
    List (Nat × String) :=
  (ins.filter fun i => decide (¬ i.typ = "coinbase" ∧ i.prevoutHash = h)).map
    fun i => (i.prevoutN, txHash)

/-- Pointwise extension of a spent-outpoints map by the input records of a
new transaction. -/
def mapAdds (txHash : String) (ins : List TxIn)
    (m : List (String × List (Nat × String))) :
    List (String × List (Nat × String)) :=
  m.map fun hs => (hs.1, hs.2 ++ addsFor txHash ins hs.1)

/-- The non-coinbase outpoints spent by an input list. -/
def outpointKeys (ins : List TxIn) : List (String × Nat) :=
  (ins.filter fun i => decide (¬ i.typ = "coinbase")).map
    fun i => (i.prevoutHash, i.prevoutN)

/-- Whether a spent-outpoints entry survives the removal cleanup: it does
unless it is empty and the removed transaction filed records under it. -/
def soKeep (txHash : String) (ins : List TxIn)
    (hs : String × List (Nat × String)) : Bool :=
  !hs.2.isEmpty || (addsFor txHash ins hs.1).isEmpty

/-- Isolation of a new transaction, strengthened as the remove-after-add
roundtrip needs it: no input outpoint is recorded in `spent_outpoints`,
every input's prevout hash is absent from `spent_outpoints` or has a
non-empty submap (an existing *empty* submap would be popped by the
removal cleanup), no input spends the new txid itself, the spent outpoints
are pairwise distinct, no spender of the new txid is recorded, the txid is
new to `transactions`, `txi` and `txo`, and the spent-outpoints keys are
duplicate-free. -/
def isolatedTx (st : WState) (txHash : String) (tx : Tx) : Prop :=
  (∀ i ∈ tx.ins, ¬ i.typ = "coinbase" →
    lookupA ((lookupA st.spentOutpoints i.prevoutHash).getD []) i.prevoutN = none ∧
    (lookupA st.spentOutpoints i.prevoutHash = none ∨
      ¬ (lookupA st.spentOutpoints i.prevoutHash).getD [] = []) ∧
    ¬ i.prevoutHash = txHash) ∧
  (outpointKeys tx.ins).Nodup ∧
  lookupA st.spentOutpoints txHash = none ∧
  lookupA st.transactions txHash = none ∧
  lookupA st.txi txHash = none ∧
  lookupA st.txo txHash = none ∧
  (keysA st.spentOutpoints).Nodup

/-- A genuinely isolated tx for the fresh wallet: it spends `Q:0`, which the
wallet has never seen, and pays the owned address. -/
def egC6Tx : Tx :=
  { txid := "T8", ins := [⟨"in", "Q", 0, some "A"⟩],
    outs := [⟨TYPE_ADDRESS, "A", 10⟩], raw := "raw8", isComplete := true,
    cachedFee := none }

/-- The containment half of invariant P2: every address key of a
transaction's `txi`/`txo` rows already sees the txid in its local history.
(The reverse containment fails: `clear_history` resets `txi`/`txo` but not
`history_local`, and re-adds can leave stale entries.) -/
def localHistOK (st : WState) : Prop :=
  ∀ t a, (a ∈ keysA ((lookupA st.txi t).getD []) ∨
      a ∈ keysA ((lookupA st.txo t).getD [])) →
    t ∈ (lookupA st.historyLocal a).getD []

/-- `localHistOK` away from one txid, used while `add_transaction` rebuilds
that txid's rows before refreshing its local history. -/
def almostOK (st : WState) (skip : String) : Prop :=
  ∀ t a, t ≠ skip → (a ∈ keysA ((lookupA st.txi t).getD []) ∨
      a ∈ keysA ((lookupA st.txo t).getD [])) →
    t ∈ (lookupA st.historyLocal a).getD []

/-- Well-formedness of the index maps: duplicate-free dict keys plus the
local-history containment. -/
def idxOK (st : WState) : Prop :=
  (keysA st.txi).Nodup ∧ (keysA st.txo).Nodup ∧ localHistOK st

/-- The demotion record carried through the `undo_verifications` fold. -/
def demotedAt (t : String) (ht : Int) (acc : WState × List String) : Prop :=
  lookupA acc.1.verifiedTx t = none ∧ lookupA acc.1.unverifiedTx t = some ht ∧ t ∈ acc.2

/-- The fields of the state that `add_transaction` / `remove_transaction`
never write. -/
def ingestFrame (st : WState) :
    List (String × List (String × Int)) × List (String × TxMinedInfo) ×
      List (String × Int) × List String × Bool :=
  (st.history, st.verifiedTx, st.unverifiedTx, st.spvReleased, st.verifierPresent)

/-- The retraction record for a txid: gone from both verification maps, its
SPV proof released whenever a verifier is attached. -/
def retracted (t : String) (st : WState) : Prop :=
  lookupA st.verifiedTx t = none ∧ lookupA st.unverifiedTx t = none ∧
    (st.verifierPresent = true → t ∈ st.spvReleased)

/-- Well-formedness of the verification maps: duplicate-free dict keys and
the claimed disjointness `verified_tx ∩ unverified_tx = ∅`. -/
def vuOK (st : WState) : Prop :=
  (keysA st.verifiedTx).Nodup ∧ (keysA st.unverifiedTx).Nodup ∧
    ∀ t, memA st.verifiedTx t = true → memA st.unverifiedTx t = false

-- Association-list lemmas.

theorem lookupA_setA_self {α β : Type} [DecidableEq α] (l : List (α × β)) (k : α) (v : β) :
    lookupA (setA l k v) k = some v := by
  induction l with
  | nil => simp [setA, lookupA]
  | cons e t ih =>
    obtain ⟨a, b⟩ := e
    by_cases h : a = k <;> simp [setA, lookupA, h, ih]

theorem lookupA_setA_ne {α β : Type} [DecidableEq α] (l : List (α × β)) (k k' : α) (v : β)
    (h : k' ≠ k) : lookupA (setA l k v) k' = lookupA l k' := by
  induction l with
  | nil => simp [setA, lookupA, h.symm]
  | cons e t ih =>
    obtain ⟨a, b⟩ := e
    by_cases he : a = k
    · subst he
      simp [setA, lookupA, h.symm]
    · by_cases he' : a = k'
      · subst he'
        simp [setA, lookupA, he]
      · simp [setA, lookupA, he, he', ih]

theorem lookupA_popA_ne {α β : Type} [DecidableEq α] (l : List (α × β)) (k k' : α)
    (h : k' ≠ k) : lookupA (popA l k) k' = lookupA l k' := by
  induction l with
  | nil => simp [popA]
  | cons e t ih =>
    obtain ⟨a, b⟩ := e
    by_cases he : a = k
    · subst he
      simp [popA, lookupA, h.symm]
    · by_cases he' : a = k'
      · subst he'
        simp [popA, lookupA, he]
      · simp [popA, lookupA, he, he', ih]

theorem lookupA_none_popA {α β : Type} [DecidableEq α] (l : List (α × β)) (k k' : α)
    (h : lookupA l k' = none) : lookupA (popA l k) k' = none := by
  by_cases hk : k' = k
  · subst hk
    induction l with
    | nil => simp [popA, lookupA]
    | cons e t ih =>
      obtain ⟨a, b⟩ := e
      by_cases he : a = k' <;> simp [lookupA, popA, he] at h ⊢ <;> simp [ih h]
  · rw [lookupA_popA_ne l k k' hk]
    exact h

theorem popA_lookup_none {α β : Type} [DecidableEq α] (l : List (α × β)) (k : α)
    (h : lookupA l k = none) : popA l k = l := by
  induction l with
  | nil => simp [popA]
  | cons e t ih =>
    obtain ⟨a, b⟩ := e
    by_cases he : a = k
    · subst he; simp [lookupA] at h
    · simp only [lookupA, he, if_false, if_neg he] at h
      simp [popA, he, ih h]

theorem setA_lookup_none {α β : Type} [DecidableEq α] (l : List (α × β)) (k : α) (v : β)
    (h : lookupA l k = none) : setA l k v = l ++ [(k, v)] := by
  induction l with
  | nil => simp [setA]
  | cons e t ih =>
    obtain ⟨a, b⟩ := e
    by_cases he : a = k
    · subst he; simp [lookupA] at h
    · simp only [lookupA, if_neg he] at h
      simp [setA, he, ih h]

theorem popA_append_last {α β : Type} [DecidableEq α] (l : List (α × β)) (k : α) (v : β)
    (h : lookupA l k = none) : popA (l ++ [(k, v)]) k = l := by
  induction l with
  | nil => simp [popA]
  | cons e t ih =>
    obtain ⟨a, b⟩ := e
    by_cases he : a = k
    · subst he; simp [lookupA] at h
    · simp only [lookupA, if_neg he] at h
      simp [popA, he, ih h]

theorem setA_lookup_some_self {α β : Type} [DecidableEq α] (l : List (α × β)) (k : α) (v : β)
    (h : lookupA l k = some v) : setA l k v = l := by
  induction l with
  | nil => simp [lookupA] at h
  | cons e t ih =>
    obtain ⟨a, b⟩ := e
    by_cases he : a = k
    · subst he
      simp only [lookupA, if_pos rfl] at h
      simp only [eq_self_iff_true, if_true, Option.some.injEq] at h
      subst h
      simp [setA]
    · simp only [lookupA, if_neg he] at h
      simp [setA, he, ih h]

theorem lookupA_isSome_iff_mem_keysA {α β : Type} [DecidableEq α] (l : List (α × β)) (k : α) :
    (lookupA l k).isSome ↔ k ∈ keysA l := by
  induction l with
  | nil => simp [lookupA, keysA]
  | cons e t ih =>
    obtain ⟨a, b⟩ := e
    by_cases he : a = k
    · simp [lookupA, keysA, he]
    · simp [lookupA, keysA, he, ih, Ne.symm he]

theorem lookupA_none_iff_not_mem_keysA {α β : Type} [DecidableEq α]
    (l : List (α × β)) (k : α) : lookupA l k = none ↔ k ∉ keysA l := by
  rw [← lookupA_isSome_iff_mem_keysA]
  cases lookupA l k <;> simp

theorem keysA_popA_sublist {α β : Type} [DecidableEq α] (l : List (α × β)) (k : α) :
    (keysA (popA l k)).Sublist (keysA l) := by
  induction l with
  | nil => simp [popA]
  | cons e t ih =>
    obtain ⟨a, b⟩ := e
    by_cases he : a = k
    · simp only [popA, if_pos he, keysA, List.map_cons]
      exact (List.sublist_cons_self a (keysA t)).trans (by simp [keysA])
    · simp only [popA, if_neg he, keysA, List.map_cons]
      exact (ih : (keysA (popA t k)).Sublist (keysA t)).cons₂ a

theorem keysA_popA_nodup {α β : Type} [DecidableEq α] (l : List (α × β)) (k : α)
    (h : (keysA l).Nodup) : (keysA (popA l k)).Nodup :=
  (keysA_popA_sublist l k).nodup h

theorem keysA_setA {α β : Type} [DecidableEq α] (l : List (α × β)) (k : α) (v : β) :
    keysA (setA l k v) = if k ∈ keysA l then keysA l else keysA l ++ [k] := by
  induction l with
  | nil => simp [setA, keysA]
  | cons e t ih =>
    obtain ⟨a, b⟩ := e
    by_cases he : a = k
    · subst he; simp [setA, keysA]
    · by_cases hm : k ∈ keysA t
      · simp only [keysA] at ih hm ⊢
        simp [setA, if_neg he, ih, hm, Ne.symm he]
      · simp only [keysA] at ih hm ⊢
        simp [setA, if_neg he, ih, hm, Ne.symm he]

theorem keysA_setA_nodup {α β : Type} [DecidableEq α] (l : List (α × β)) (k : α) (v : β)
    (h : (keysA l).Nodup) : (keysA (setA l k v)).Nodup := by
  rw [keysA_setA]
  split
  · exact h
  · simpa [List.nodup_append] using ⟨h, by assumption⟩

theorem lookupA_popA_self_of_nodup {α β : Type} [DecidableEq α] (l : List (α × β)) (k : α)
    (h : (keysA l).Nodup) : lookupA (popA l k) k = none := by
  induction l with
  | nil => simp [popA, lookupA]
  | cons e t ih =>
    obtain ⟨a, b⟩ := e
    simp only [keysA, List.map_cons, List.nodup_cons] at h
    by_cases he : a = k
    · subst he
      rw [lookupA_none_iff_not_mem_keysA]
      simpa [popA, keysA] using h.1
    · simp [popA, lookupA, he, ih h.2]

theorem foldl_preserve {σ α : Type} (P : σ → Prop) (f : σ → α → σ) (l : List α) (s : σ)
    (hstep : ∀ s a, a ∈ l → P s → P (f s a)) (h : P s) : P (l.foldl f s) := by
  induction l generalizing s with
  | nil => simpa
  | cons x xs ih =>
    exact ih (f s x) (fun s a ha hp => hstep s a (List.mem_cons_of_mem _ ha) hp)
      (hstep s x (List.mem_cons_self _ _) h)

-- Arithmetic fold helpers.

theorem foldl_sub_snd (l : List (String × Int)) (i : Int) :
    l.foldl (fun s e => s - e.2) i = i - (l.map (fun e => e.2)).sum := by
  induction l generalizing i with
  | nil => simp
  | cons x xs ih =>
    simp only [List.foldl_cons, List.map_cons, List.sum_cons, ih]
    ring

theorem foldl_add_outval (l : List (Nat × Int × Bool)) (i : Int) :
    l.foldl (fun s e => s + e.2.1) i = i + (l.map (fun e => e.2.1)).sum := by
  induction l generalizing i with
  | nil => simp
  | cons x xs ih =>
    simp only [List.foldl_cons, List.map_cons, List.sum_cons, ih]
    ring

/-- **C10.** `get_tx_delta` is total: for every tx hash and address it
returns the integer difference between the address's recorded outputs and
inputs of that tx, with missing `txi`/`txo` rows defaulting to empty; in
particular an unindexed transaction contributes delta 0, never an absent
value. -/
theorem getTxDelta_total (st : WState) (t a : String) :
    getTxDelta st t a =
      (((lookupA ((lookupA st.txo t).getD []) a).getD []).map (fun e => e.2.1)).sum -
        (((lookupA ((lookupA st.txi t).getD []) a).getD []).map (fun e => e.2)).sum ∧
    (lookupA st.txi t = none → lookupA st.txo t = none → getTxDelta st t a = 0) := by
  constructor
  · simp only [getTxDelta]
    rw [foldl_sub_snd, foldl_add_outval]
    ring
  · intro h1 h2
    simp only [getTxDelta]
    rw [h1, h2]
    simp [lookupA]

/-- Witness for C10 at a transaction absent from both index maps. -/
theorem getTxDelta_total_witness : getTxDelta egBase "nope" "A" = 0 :=
  (getTxDelta_total egBase "nope" "A").2 rfl rfl

-- C9: the unrelated-transaction guard.

theorem addTransactionResolved_ne_unrelated (st : WState) (txHash : String) (tx : Tx)
    (isCb : Bool) (h : Int) (cs : List String) :
    (addTransactionResolved st txHash tx isCb h cs).2 ≠ AddTxRes.unrelated := by
  by_cases h1 : cs.isEmpty
  · simp [addTransactionResolved, h1]
  · simp only [addTransactionResolved, h1, if_false, Bool.false_eq_true]
    split
    · simp
    · split <;> simp

/-- **C9.** With `allow_unrelated=false`, `add_transaction` raises
`UnrelatedTransaction` exactly when no input resolves to a wallet-owned
address and no output pays one; the raising call leaves the state
unchanged (the returned state is the argument state). -/
theorem addTransaction_unrelated_iff (st : WState) (txHash : String) (tx : Tx)
    (hc : tx.isComplete = true) (hne : tx.ins ≠ []) :
    addTransaction st txHash tx false = (st, AddTxRes.unrelated) ↔
      ((∀ i ∈ tx.ins, isMineO st (getTxinAddress st i) = false) ∧
       (∀ o ∈ tx.outs, isMineO st (getTxoutAddress o) = false)) := by
  unfold addTransaction
  rw [if_neg (by simp [hc])]
  split
  · next heq => exact absurd heq hne
  · next txin0 rest heq =>
    by_cases hin : (tx.ins.any fun i => isMineO st (getTxinAddress st i)) = true
    · rw [if_neg (by simp [hin])]
      constructor
      · intro hres
        exfalso
        rcases hgc : getConflicting st txHash tx with ⟨st1, cs?⟩
        rw [hgc] at hres
        cases cs? with
        | none => simpa using congrArg Prod.snd hres
        | some cs =>
          exact addTransactionResolved_ne_unrelated st1 txHash tx _ _ cs
            (congrArg Prod.snd hres)
      · rintro ⟨hins, -⟩
        exfalso
        rcases List.any_eq_true.mp hin with ⟨i, hi, hmi⟩
        rw [hins i hi] at hmi
        exact Bool.false_ne_true hmi
    · by_cases hout : (tx.outs.any fun o => isMineO st (getTxoutAddress o)) = true
      · rw [if_neg (by simp [hout])]
        constructor
        · intro hres
          exfalso
          rcases hgc : getConflicting st txHash tx with ⟨st1, cs?⟩
          rw [hgc] at hres
          cases cs? with
          | none => simpa using congrArg Prod.snd hres
          | some cs =>
            exact addTransactionResolved_ne_unrelated st1 txHash tx _ _ cs
              (congrArg Prod.snd hres)
        · rintro ⟨-, houts⟩
          exfalso
          rcases List.any_eq_true.mp hout with ⟨o, ho, hmo⟩
          rw [houts o ho] at hmo
          exact Bool.false_ne_true hmo
      · rw [if_pos ⟨by simp, by simpa using hin, by simpa using hout⟩]
        simp only [true_iff, eq_self_iff_true, iff_true]
        refine ⟨fun i hi => ?_, fun o ho => ?_⟩
        · by_contra hmi
          exact hin (List.any_eq_true.mpr ⟨i, hi, by simpa using hmi⟩)
        · by_contra hmo
          exact hout (List.any_eq_true.mpr ⟨o, ho, by simpa using hmo⟩)

/-- Witness for C9 on a wallet owning only `"A"` and a transaction touching
neither a wallet input nor output. -/
theorem addTransaction_unrelated_iff_witness :
    addTransaction egBase "U" egUnrelTx false = (egBase, AddTxRes.unrelated) :=
  (addTransaction_unrelated_iff egBase "U" egUnrelTx rfl (by decide)).mpr
    ⟨by decide, by decide⟩

-- C5: the fee-via-delta scenario.

theorem walletDeltaInStep_resolved (st : WState) (i : TxIn) (v : Int)
    (h : walletInputValue st i = some v) (acc : Bool × Bool × Bool × Bool × Int) :
    walletDeltaInStep st acc i = (true, true, acc.2.2.1, acc.2.2.2.1, acc.2.2.2.2 + v) := by
  unfold walletInputValue at h
  cases ha : getTxinAddress st i with
  | none =>
    rw [ha] at h
    exact absurd h (by simp)
  | some a =>
    rw [ha] at h
    dsimp only at h
    by_cases hm : isMineS st a
    · rw [if_pos hm] at h
      simp [walletDeltaInStep, ha, isMineO, hm, h]
    · rw [if_neg hm] at h
      exact absurd h (by simp)

theorem walletDelta_ins_fold (st : WState) (l : List TxIn)
    (h : ∀ i ∈ l, (walletInputValue st i).isSome)
    (acc : Bool × Bool × Bool × Bool × Int) :
    l.foldl (walletDeltaInStep st) acc =
      ((acc.1 || !l.isEmpty), (acc.2.1 || !l.isEmpty), acc.2.2.1, acc.2.2.2.1,
        acc.2.2.2.2 + (l.map fun i => (walletInputValue st i).getD 0).sum) := by
  induction l generalizing acc with
  | nil => simp
  | cons i t ih =>
    have hi := h i (List.mem_cons_self _ _)
    rcases Option.isSome_iff_exists.mp hi with ⟨v, hv⟩
    rw [List.foldl_cons, walletDeltaInStep_resolved st i v hv acc,
      ih (fun j hj => h j (List.mem_cons_of_mem _ hj))]
    simp [hv]
    ring

theorem walletDelta_outs_fold (st : WState) (l : List TxOut) (acc : Int × Int × Bool) :
    l.foldl (walletDeltaOutStep st) acc =
      (acc.1 + (l.map TxOut.value).sum,
        acc.2.1 + ((l.filter fun o => isMineS st o.address).map TxOut.value).sum,
        (acc.2.2 || l.any fun o => isMineS st o.address)) := by
  induction l generalizing acc with
  | nil => simp
  | cons o t ih =>
    by_cases hm : isMineS st o.address
    · simp only [List.foldl_cons, walletDeltaOutStep, hm, if_pos, List.map_cons,
        List.sum_cons, List.filter_cons, List.any_cons, ih]
      simp [hm]
      constructor
      · ring
      · ring
    · simp only [List.foldl_cons, walletDeltaOutStep, hm, if_neg, List.map_cons,
        List.sum_cons, List.filter_cons, List.any_cons, ih]
      simp [hm]
      ring

/-- Counterexample to **C5** as stated: at the literal scenario (all inputs
wallet-owned with known values summing 1000, outputs summing 900 of which
100 pays the wallet) `get_wallet_delta` does not return `v = -800`. -/
theorem getWalletDelta_scenario_counterexample :
    (egC5Tx.ins.all fun i => (walletInputValue egC5St i).isSome) = true ∧
    (egC5Tx.ins.map fun i => (walletInputValue egC5St i).getD 0).sum = 1000 ∧
    (egC5Tx.outs.map TxOut.value).sum = 900 ∧
    ((egC5Tx.outs.filter fun o => isMineS egC5St o.address).map TxOut.value).sum = 100 ∧
    getWalletDelta egC5St egC5Tx ≠ (true, true, -800, some 100) := by
  decide

/-- **C5 (amended).** In the scenario of C5 the wallet delta is
`(is_relevant=true, is_mine=true, v=-900, fee=100)` — the net effect on the
wallet is `v_out_mine - v_in = 100 - 1000 = -900`, not `-800` — and
`get_tx_fee` returns 100 and caches it on the transaction. -/
theorem getWalletDelta_fee_scenario (st : WState) (tx : Tx)
    (h1 : ∀ i ∈ tx.ins, (walletInputValue st i).isSome)
    (h2 : (tx.ins.map fun i => (walletInputValue st i).getD 0).sum = 1000)
    (h3 : (tx.outs.map TxOut.value).sum = 900)
    (h4 : ((tx.outs.filter fun o => isMineS st o.address).map TxOut.value).sum = 100) :
    getWalletDelta st tx = (true, true, -900, some 100) ∧
    (tx.cachedFee = none →
      getTxFee st tx = (some 100, { tx with cachedFee := some 100 })) := by
  have hne : tx.ins ≠ [] := by
    intro h
    rw [h] at h2
    simp at h2
  have hemp : tx.ins.isEmpty = false := by
    cases h : tx.ins with
    | nil => exact absurd h hne
    | cons a t => simp [List.isEmpty]
  have hmain : getWalletDelta st tx = (true, true, -900, some 100) := by
    simp only [getWalletDelta]
    rw [walletDelta_ins_fold st tx.ins h1]
    dsimp only
    rw [walletDelta_outs_fold]
    simp only [hemp, Bool.not_false, Bool.or_true, Bool.true_or, h2, h3, h4, zero_add]
    norm_num
  refine ⟨hmain, fun hcf => ?_⟩
  unfold getTxFee
  rw [hcf]
  simp only [hmain]

/-- Witness for the amended C5 at the literal scenario state. -/
theorem getWalletDelta_fee_scenario_witness :
    getWalletDelta egC5St egC5Tx = (true, true, -900, some 100) ∧
    getTxFee egC5St egC5Tx = (some 100, { egC5Tx with cachedFee := some 100 }) := by
  have h := getWalletDelta_fee_scenario egC5St egC5Tx (by decide) (by decide)
    (by decide) (by decide)
  exact ⟨h.1, h.2 rfl⟩

-- C4: reorg demotion.

theorem mem_addS_self {α : Type} [DecidableEq α] (l : List α) (x : α) : x ∈ addS l x := by
  by_cases h : x ∈ l <;> simp [addS, h]

theorem mem_addS_mono {α : Type} [DecidableEq α] (l : List α) (x y : α) (h : y ∈ l) :
    y ∈ addS l x := by
  by_cases hx : x ∈ l <;> simp [addS, hx, h]

theorem entry_unique_of_keys_nodup {α β : Type} (l : List (α × β))
    (hnd : (keysA l).Nodup) {e1 e2 : α × β} (h1 : e1 ∈ l) (h2 : e2 ∈ l)
    (hk : e1.1 = e2.1) : e1 = e2 := by
  induction l with
  | nil => cases h1
  | cons a rest ih =>
    have hnd' : a.1 ∉ List.map Prod.fst rest ∧ (List.map Prod.fst rest).Nodup := by
      simpa [keysA] using hnd
    rcases List.mem_cons.mp h1 with h1e | h1r
    · rcases List.mem_cons.mp h2 with h2e | h2r
      · rw [h1e, h2e]
      · exfalso
        apply hnd'.1
        rw [h1e] at hk
        rw [hk]
        exact List.mem_map_of_mem Prod.fst h2r
    · rcases List.mem_cons.mp h2 with h2e | h2r
      · exfalso
        apply hnd'.1
        rw [h2e] at hk
        rw [← hk]
        exact List.mem_map_of_mem Prod.fst h1r
      · exact ih hnd'.2 h1r h2r

theorem undoVerStep_verified_nodup {H : Type} (readHeader : Int → Option H)
    (hashHeader : H → String) (height : Int) (acc : WState × List String)
    (e : String × TxMinedInfo) (hnd : (keysA acc.1.verifiedTx).Nodup) :
    (keysA (undoVerStep readHeader hashHeader height acc e).1.verifiedTx).Nodup := by
  unfold undoVerStep
  split
  · split
    · exact keysA_popA_nodup _ _ hnd
    · exact hnd
  · exact hnd

theorem undoVerStep_preserves_demoted {H : Type} (readHeader : Int → Option H)
    (hashHeader : H → String) (height : Int) (t : String) (ht : Int)
    (acc : WState × List String) (e : String × TxMinedInfo)
    (hkt : e.1 = t → e.2.height = ht) (hP : demotedAt t ht acc) :
    demotedAt t ht (undoVerStep readHeader hashHeader height acc e) := by
  obtain ⟨hv, hu, hm⟩ := hP
  unfold undoVerStep
  split
  · split
    · by_cases het : e.1 = t
      · refine ⟨?_, ?_, mem_addS_mono _ _ _ hm⟩
        · rw [het]
          exact lookupA_none_popA _ _ _ hv
        · rw [het, hkt het]
          exact lookupA_setA_self _ _ _
      · refine ⟨?_, ?_, mem_addS_mono _ _ _ hm⟩
        · rw [lookupA_popA_ne _ _ _ (fun h => het h.symm)]
          exact hv
        · rw [lookupA_setA_ne _ _ _ _ (fun h => het h.symm)]
          exact hu
    · exact ⟨hv, hu, hm⟩
  · exact ⟨hv, hu, hm⟩

theorem undo_fold_demotes {H : Type} (readHeader : Int → Option H)
    (hashHeader : H → String) (height : Int) (t : String) (info : TxMinedInfo)
    (hh : info.height ≥ height)
    (hdem : ∀ hd, readHeader info.height = some hd →
      some (hashHeader hd) ≠ info.headerHash) :
    ∀ (l : List (String × TxMinedInfo)) (acc : WState × List String),
    (keysA acc.1.verifiedTx).Nodup →
    (∀ e ∈ l, e.1 = t → e.2.height = info.height) →
    ((t, info) ∈ l ∨ demotedAt t info.height acc) →
    demotedAt t info.height
      (l.foldl (undoVerStep readHeader hashHeader height) acc) := by
  intro l
  induction l with
  | nil =>
    intro acc _ _ hd
    rcases hd with hd | hd
    · cases hd
    · simpa using hd
  | cons e rest ih =>
    intro acc hnd hkt hd
    rw [List.foldl_cons]
    refine ih (undoVerStep readHeader hashHeader height acc e)
      (undoVerStep_verified_nodup _ _ _ _ _ hnd)
      (fun e' he' => hkt e' (List.mem_cons_of_mem _ he')) ?_
    rcases hd with hd | hd
    · rcases List.mem_cons.mp hd with hd | hd
      · right
        have he : e = (t, info) := hd.symm
        subst he
        have hdemote : headerMismatch readHeader hashHeader info = true := by
          unfold headerMismatch
          cases hr : readHeader info.height with
          | none => rfl
          | some hdr => simpa using hdem hdr hr
        unfold undoVerStep
        rw [if_pos hh, if_pos hdemote]
        exact ⟨lookupA_popA_self_of_nodup _ _ hnd, lookupA_setA_self _ _ _,
          mem_addS_self _ _⟩
      · left
        exact hd
    · right
      exact undoVerStep_preserves_demoted _ _ _ _ _ acc e
        (fun h => hkt e (List.mem_cons_self _ _) h) hd

/-- **C4.** `undo_verifications(chain, height)` demotes every verified tx
whose recorded block is at or above the reorg height and whose re-read
header is absent or hashes differently: it leaves `verified_tx`, enters
`unverified_tx` at its old height, is reported in the returned set, and
`get_tx_height` subsequently answers that height with `conf = 0`. -/
theorem undoVerifications_demotes {H : Type} (readHeader : Int → Option H)
    (hashHeader : H → String) (st : WState) (height : Int)
    (hnd : (keysA st.verifiedTx).Nodup) (t : String) (info : TxMinedInfo)
    (hmem : (t, info) ∈ st.verifiedTx) (hh : info.height ≥ height)
    (hdem : ∀ hd, readHeader info.height = some hd →
      some (hashHeader hd) ≠ info.headerHash) :
    lookupA (undoVerifications readHeader hashHeader st height).1.verifiedTx t = none ∧
    lookupA (undoVerifications readHeader hashHeader st height).1.unverifiedTx t =
      some info.height ∧
    getTxHeight (undoVerifications readHeader hashHeader st height).1 t =
      { height := info.height, conf := some 0 } ∧
    t ∈ (undoVerifications readHeader hashHeader st height).2 := by
  have hkt : ∀ e ∈ st.verifiedTx, e.1 = t → e.2.height = info.height := by
    intro e he hk
    have : e = (t, info) :=
      entry_unique_of_keys_nodup st.verifiedTx hnd he hmem (by simpa using hk)
    rw [this]
  have h := undo_fold_demotes readHeader hashHeader height t info hh hdem
    st.verifiedTx (st, []) hnd hkt (Or.inl hmem)
  obtain ⟨h1, h2, h3⟩ := h
  refine ⟨h1, h2, ?_, h3⟩
  unfold getTxHeight undoVerifications
  rw [h1, h2]

/-- Witness for C4: the literal reorg scenario with `T7` at height 700 and a
fork header hashing to `"Hp" ≠ "H"`. -/
theorem undoVerifications_demotes_witness :
    lookupA (undoVerifications (fun _ : Int => some "hdr") (fun _ : String => "Hp")
      egC4St 700).1.verifiedTx "T7" = none ∧
    lookupA (undoVerifications (fun _ : Int => some "hdr") (fun _ : String => "Hp")
      egC4St 700).1.unverifiedTx "T7" = some 700 ∧
    getTxHeight (undoVerifications (fun _ : Int => some "hdr") (fun _ : String => "Hp")
      egC4St 700).1 "T7" = { height := 700, conf := some 0 } ∧
    "T7" ∈ (undoVerifications (fun _ : Int => some "hdr") (fun _ : String => "Hp")
      egC4St 700).2 :=
  undoVerifications_demotes (fun _ => some "hdr") (fun _ => "Hp") egC4St 700
    (by decide) "T7"
    { height := 700, timestamp := some 11, txpos := some 2, headerHash := some "H" }
    (by decide) (by decide) (fun hd h => by simp)

-- Frame preservation: the verification-side fields are untouched by the
-- ingest engine.

theorem frame_history {s s' : WState} (h : ingestFrame s = ingestFrame s') :
    s.history = s'.history := congrArg Prod.fst h

theorem frame_verified {s s' : WState} (h : ingestFrame s = ingestFrame s') :
    s.verifiedTx = s'.verifiedTx := congrArg (fun x => x.2.1) h

theorem frame_unverified {s s' : WState} (h : ingestFrame s = ingestFrame s') :
    s.unverifiedTx = s'.unverifiedTx := congrArg (fun x => x.2.2.1) h

theorem addValueFromPrevOutput_frame (st : WState) (t ser ph : String) (pn : Nat) :
    ingestFrame (addValueFromPrevOutput st t ser ph pn) = ingestFrame st := by
  simp only [addValueFromPrevOutput]
  repeat' split
  all_goals rfl

theorem addInputStep_frame (t : String) (st : WState) (i : TxIn) :
    ingestFrame (addInputStep t st i) = ingestFrame st := by
  simp only [addInputStep]
  split
  · rfl
  · rw [addValueFromPrevOutput_frame]
    rfl

theorem addTxToLocalHistory_frame (st : WState) (t : String) :
    ingestFrame (addTxToLocalHistory st t) = ingestFrame st := rfl

theorem addOneOutput_frame (st : WState) (t : String) (cb : Bool) (n : Nat) (o : TxOut) :
    ingestFrame (addOneOutput st t cb n o) = ingestFrame st := by
  simp only [addOneOutput]
  repeat' split
  all_goals first
    | rfl
    | (rw [addTxToLocalHistory_frame]; rfl)

theorem addInputsLoop_frame (st : WState) (t : String) (ins : List TxIn) :
    ingestFrame (addInputsLoop st t ins) = ingestFrame st := by
  unfold addInputsLoop
  exact foldl_preserve (fun s => ingestFrame s = ingestFrame st) (addInputStep t) ins st
    (fun s i _ hp => by dsimp only; rw [addInputStep_frame]; exact hp) rfl

theorem addOutputsFold_frame (st : WState) (t : String) (cb : Bool)
    (l : List (Nat × TxOut)) :
    ingestFrame (l.foldl (addOutputStep t cb) st) = ingestFrame st := by
  exact foldl_preserve (fun s => ingestFrame s = ingestFrame st) (addOutputStep t cb) l st
    (fun s p _ hp => by
      dsimp only [addOutputStep]
      rw [addOneOutput_frame]
      exact hp) rfl

theorem addIndexPhase_frame (st : WState) (t : String) (tx : Tx) (cb : Bool) :
    ingestFrame (addIndexPhase st t tx cb) = ingestFrame st := by
  simp only [addIndexPhase]
  rw [show ∀ (s : WState) (x), ingestFrame { s with transactions := x } = ingestFrame s
    from fun _ _ => rfl]
  rw [addTxToLocalHistory_frame, addOutputsFold_frame]
  rw [show ∀ (s : WState) (x), ingestFrame { s with txo := x } = ingestFrame s
    from fun _ _ => rfl]
  rw [addInputsLoop_frame]
  rfl

theorem removeTransaction_frame (st : WState) (t : String) :
    ingestFrame (removeTransaction st t) = ingestFrame st := rfl

theorem getConflicting_frame (st : WState) (t : String) (tx : Tx) :
    ingestFrame (getConflicting st t tx).1 = ingestFrame st := by
  simp only [getConflicting]
  repeat' split
  all_goals rfl

theorem addTransactionResolved_frame (st : WState) (t : String) (tx : Tx) (cb : Bool)
    (h : Int) (cs : List String) :
    ingestFrame (addTransactionResolved st t tx cb h cs).1 = ingestFrame st := by
  by_cases h1 : cs.isEmpty
  · simp only [addTransactionResolved, h1, if_true]
    rw [addIndexPhase_frame]
  · simp only [addTransactionResolved, h1, if_false, Bool.false_eq_true]
    split
    · rfl
    · split
      · rfl
      · rw [addIndexPhase_frame]
        exact foldl_preserve (fun s => ingestFrame s = ingestFrame st) removeTransaction _ st
          (fun s u _ hp => by dsimp only; rw [removeTransaction_frame]; exact hp) rfl

theorem addTransaction_frame (st : WState) (t : String) (tx : Tx) (au : Bool) :
    ingestFrame (addTransaction st t tx au).1 = ingestFrame st := by
  unfold addTransaction
  split
  · rfl
  · split
    · rfl
    · dsimp only
      split
      · rfl
      · rcases hgc : getConflicting st t tx with ⟨st1, r⟩
        have hfr : ingestFrame st1 = ingestFrame st := by
          rw [show st1 = (getConflicting st t tx).1 from by rw [hgc]]
          exact getConflicting_frame st t tx
        cases r with
        | none => exact hfr
        | some cs =>
          dsimp only
          rw [addTransactionResolved_frame]
          exact hfr

-- `releaseProof` projections.

theorem releaseProof_verified (st : WState) (t : String) :
    (releaseProof st t).verifiedTx = st.verifiedTx := by
  unfold releaseProof
  split <;> rfl

theorem releaseProof_unverified (st : WState) (t : String) :
    (releaseProof st t).unverifiedTx = st.unverifiedTx := by
  unfold releaseProof
  split <;> rfl

theorem releaseProof_history (st : WState) (t : String) :
    (releaseProof st t).history = st.history := by
  unfold releaseProof
  split <;> rfl

theorem releaseProof_verifier (st : WState) (t : String) :
    (releaseProof st t).verifierPresent = st.verifierPresent := by
  unfold releaseProof
  split <;> rfl

theorem releaseProof_released_mono (st : WState) (t x : String)
    (h : x ∈ st.spvReleased) : x ∈ (releaseProof st t).spvReleased := by
  unfold releaseProof
  split
  · exact List.mem_append_left _ h
  · exact h

theorem releaseProof_released_self (st : WState) (t : String)
    (hv : st.verifierPresent = true) : t ∈ (releaseProof st t).spvReleased := by
  unfold releaseProof
  rw [if_pos hv]
  simp

-- C3: retraction semantics of `receive_history_callback`.

theorem phase1Step_verifier (hist : List (String × Int)) (st : WState)
    (th : String × Int) : (phase1Step hist st th).verifierPresent = st.verifierPresent := by
  unfold phase1Step
  split
  · rw [releaseProof_verifier]
  · rfl

theorem phase1Step_preserves_retracted (hist : List (String × Int)) (st : WState)
    (th : String × Int) (t : String) (h : retracted t st) :
    retracted t (phase1Step hist st th) := by
  obtain ⟨h1, h2, h3⟩ := h
  unfold phase1Step
  split
  · refine ⟨?_, ?_, ?_⟩
    · rw [releaseProof_verified]
      exact lookupA_none_popA _ _ _ h1
    · rw [releaseProof_unverified]
      exact lookupA_none_popA _ _ _ h2
    · intro hv
      rw [releaseProof_verifier] at hv
      exact releaseProof_released_mono _ _ _ (h3 hv)
  · exact ⟨h1, h2, h3⟩

theorem phase1Step_nodups (hist : List (String × Int)) (st : WState) (th : String × Int)
    (hv : (keysA st.verifiedTx).Nodup) (hu : (keysA st.unverifiedTx).Nodup) :
    (keysA (phase1Step hist st th).verifiedTx).Nodup ∧
    (keysA (phase1Step hist st th).unverifiedTx).Nodup := by
  unfold phase1Step
  split
  · rw [releaseProof_verified, releaseProof_unverified]
    exact ⟨keysA_popA_nodup _ _ hv, keysA_popA_nodup _ _ hu⟩
  · exact ⟨hv, hu⟩

theorem phase1Step_establish (hist : List (String × Int)) (st : WState)
    (th : String × Int) (hnot : th ∉ hist)
    (hv : (keysA st.verifiedTx).Nodup) (hu : (keysA st.unverifiedTx).Nodup) :
    retracted th.1 (phase1Step hist st th) := by
  unfold phase1Step
  rw [if_pos hnot]
  refine ⟨?_, ?_, ?_⟩
  · rw [releaseProof_verified]
    exact lookupA_popA_self_of_nodup _ _ hv
  · rw [releaseProof_unverified]
    exact lookupA_popA_self_of_nodup _ _ hu
  · intro hvp
    rw [releaseProof_verifier] at hvp
    exact releaseProof_released_self _ _ hvp

theorem phase1_fold_retracts (hist : List (String × Int)) (th : String × Int)
    (hnot : th ∉ hist) :
    ∀ (l : List (String × Int)) (st : WState),
    (keysA st.verifiedTx).Nodup → (keysA st.unverifiedTx).Nodup →
    (th ∈ l ∨ retracted th.1 st) →
    retracted th.1 (l.foldl (phase1Step hist) st) := by
  intro l
  induction l with
  | nil =>
    intro st _ _ hd
    rcases hd with hd | hd
    · cases hd
    · simpa using hd
  | cons e rest ih =>
    intro st hv hu hd
    rw [List.foldl_cons]
    obtain ⟨hv', hu'⟩ := phase1Step_nodups hist st e hv hu
    refine ih (phase1Step hist st e) hv' hu' ?_
    rcases hd with hd | hd
    · rcases List.mem_cons.mp hd with hd | hd
      · right
        subst hd
        exact phase1Step_establish hist st th hnot hv hu
      · left
        exact hd
    · right
      exact phase1Step_preserves_retracted hist st e th.1 hd

theorem phase1_fold_verifier (hist : List (String × Int)) (l : List (String × Int))
    (st : WState) :
    (l.foldl (phase1Step hist) st).verifierPresent = st.verifierPresent := by
  exact foldl_preserve (fun s => s.verifierPresent = st.verifierPresent)
    (phase1Step hist) l st
    (fun s e _ hp => by dsimp only; rw [phase1Step_verifier]; exact hp) rfl

theorem addUnverifiedTx_history (st : WState) (t : String) (h : Int) :
    (addUnverifiedTx st t h).history = st.history := by
  unfold addUnverifiedTx
  split
  · split
    · rw [releaseProof_history]
    · rfl
  · rfl

theorem phase2Step_history (acc : WState × Bool) (th : String × Int) :
    (phase2Step acc th).1.history = acc.1.history := by
  simp only [phase2Step]
  split
  · rfl
  · split
    · exact addUnverifiedTx_history acc.1 th.1 th.2
    · next tx heq =>
      split
      · next st2 b heq2 =>
        have : (addTransaction (addUnverifiedTx acc.1 th.1 th.2) th.1 tx true).1 = st2 :=
          congrArg Prod.fst heq2
        rw [← this, frame_history (addTransaction_frame _ _ _ _),
          addUnverifiedTx_history]
      · next st2 r _ heq2 =>
        have : (addTransaction (addUnverifiedTx acc.1 th.1 th.2) th.1 tx true).1 = st2 :=
          congrArg Prod.fst heq2
        rw [← this, frame_history (addTransaction_frame _ _ _ _),
          addUnverifiedTx_history]

/-- Counterexample to **C3** as stated: the old history is not read from the
stored server history.  Here `history["A"]` records `(T,5)`, the pair is
absent from the new (empty) history, yet after the call `T` is still in
`verified_tx`, because the code diffs against the local-index history
(`_history_local`), which is empty. -/
theorem receiveHistoryCallback_counterexample :
    lookupA egC3St.history "A" = some [("T", 5)] ∧
    (("T", 5) ∈ ([] : List (String × Int))) = False ∧
    lookupA (receiveHistoryCallback egC3St "A" [] []).1.verifiedTx "T" =
      some { height := 5, headerHash := some "H" } := by
  refine ⟨rfl, by simp, ?_⟩
  rfl

/-- **C3 (amended).** `receive_history_callback(addr, new_hist, tx_fees)`
computes the old history from the local history index
(`get_address_history(addr)`: the txids of `history_local[addr]` with their
current heights), not from the stored `history[addr]`; each such pair
missing from `new_hist` is removed from `verified_tx` and `unverified_tx`
and its SPV proof is released when a verifier is attached, all within the
locked first phase, which then replaces `history[addr]` with `new_hist`;
the full call leaves `history[addr] = new_hist`. -/
theorem receiveHistoryCallback_spec (st : WState) (addr : String)
    (hist fees : List (String × Int))
    (hndv : (keysA st.verifiedTx).Nodup) (hndu : (keysA st.unverifiedTx).Nodup) :
    (∀ th ∈ getAddressHistory st addr, th ∉ hist →
      retracted th.1 (receiveHistoryPhase1 st addr hist)) ∧
    lookupA (receiveHistoryPhase1 st addr hist).history addr = some hist ∧
    lookupA (receiveHistoryCallback st addr hist fees).1.history addr = some hist := by
  have hph1 : ∀ th ∈ getAddressHistory st addr, th ∉ hist →
      retracted th.1 (receiveHistoryPhase1 st addr hist) := by
    intro th hmem hnot
    unfold receiveHistoryPhase1
    have h := phase1_fold_retracts hist th hnot (getAddressHistory st addr) st
      hndv hndu (Or.inl hmem)
    exact ⟨h.1, h.2.1, h.2.2⟩
  have hhist1 : lookupA (receiveHistoryPhase1 st addr hist).history addr = some hist := by
    unfold receiveHistoryPhase1
    exact lookupA_setA_self _ _ _
  refine ⟨hph1, hhist1, ?_⟩
  simp only [receiveHistoryCallback]
  have hfold : (hist.foldl phase2Step (receiveHistoryPhase1 st addr hist, true)).1.history
      = (receiveHistoryPhase1 st addr hist).history := by
    exact foldl_preserve
      (fun s => s.1.history = (receiveHistoryPhase1 st addr hist).history)
      phase2Step hist (receiveHistoryPhase1 st addr hist, true)
      (fun s e _ hp => by dsimp only; rw [phase2Step_history]; exact hp) rfl
  split
  · rw [show ∀ (s : WState) (x), ({ s with txFees := x } : WState).history = s.history
      from fun _ _ => rfl]
    rw [hfold]
    exact hhist1
  · rw [hfold]
    exact hhist1

/-- Witness for the amended C3: a verified `T` known to the local index for
`"A"` is retracted by an empty server history. -/
theorem receiveHistoryCallback_spec_witness :
    lookupA (receiveHistoryPhase1 egC3bSt "A" []).verifiedTx "T" = none ∧
    lookupA (receiveHistoryPhase1 egC3bSt "A" []).unverifiedTx "T" = none ∧
    lookupA (receiveHistoryCallback egC3bSt "A" [] []).1.history "A" = some [] := by
  have h := receiveHistoryCallback_spec egC3bSt "A" [] [] (by decide) (by decide)
  have h1 := h.1 ("T", 5) (by decide) (by decide)
  exact ⟨h1.1, h1.2.1, h.2.2⟩

-- C7: disjointness of the verification maps.

theorem memA_setA_iff {α β : Type} [DecidableEq α] (l : List (α × β)) (k u : α) (v : β) :
    memA (setA l k v) u = true ↔ (u = k ∨ memA l u = true) := by
  rw [memA, memA, lookupA_isSome_iff_mem_keysA, lookupA_isSome_iff_mem_keysA, keysA_setA]
  split
  · constructor
    · exact Or.inr
    · rintro (rfl | h)
      · assumption
      · exact h
  · simp [or_comm]

theorem memA_popA_mono {α β : Type} [DecidableEq α] (l : List (α × β)) (k u : α)
    (h : memA (popA l k) u = true) : memA l u = true := by
  rw [memA, lookupA_isSome_iff_mem_keysA] at h ⊢
  exact (keysA_popA_sublist l k).mem h

theorem memA_eq_false_iff {α β : Type} [DecidableEq α] (l : List (α × β)) (k : α) :
    memA l k = false ↔ lookupA l k = none := by
  cases h : lookupA l k <;> simp [memA, h]

theorem memA_popA_false {α β : Type} [DecidableEq α] (l : List (α × β)) (k u : α)
    (h : memA l u = false) : memA (popA l k) u = false := by
  rw [memA_eq_false_iff] at h ⊢
  exact lookupA_none_popA _ _ _ h

theorem memA_popA_self_of_nodup {α β : Type} [DecidableEq α] (l : List (α × β)) (k : α)
    (h : (keysA l).Nodup) : memA (popA l k) k = false := by
  rw [memA_eq_false_iff]
  exact lookupA_popA_self_of_nodup _ _ h

theorem vuOK_of_frame {s s' : WState} (h : ingestFrame s' = ingestFrame s)
    (hok : vuOK s) : vuOK s' := by
  obtain ⟨h1, h2, h3⟩ := hok
  refine ⟨?_, ?_, ?_⟩
  · rw [frame_verified h]; exact h1
  · rw [frame_unverified h]; exact h2
  · intro t
    rw [frame_verified h, frame_unverified h]
    exact h3 t

theorem releaseProof_vuOK (st : WState) (t : String) (h : vuOK st) :
    vuOK (releaseProof st t) := by
  obtain ⟨h1, h2, h3⟩ := h
  refine ⟨?_, ?_, ?_⟩
  · rw [releaseProof_verified]; exact h1
  · rw [releaseProof_unverified]; exact h2
  · intro u
    rw [releaseProof_verified, releaseProof_unverified]
    exact h3 u

theorem addUnverifiedTx_vuOK (st : WState) (t : String) (h : Int) (hok : vuOK st) :
    vuOK (addUnverifiedTx st t h) := by
  obtain ⟨h1, h2, h3⟩ := hok
  unfold addUnverifiedTx
  split
  · split
    · refine releaseProof_vuOK _ _ ⟨keysA_popA_nodup _ _ h1, h2, ?_⟩
      intro u hu
      exact h3 u (memA_popA_mono _ _ _ hu)
    · exact ⟨h1, h2, h3⟩
  · next hmem =>
    refine ⟨h1, keysA_setA_nodup _ _ _ h2, ?_⟩
    intro u hu
    by_cases hut : u = t
    · subst hut
      exact absurd hu (by simpa using hmem)
    · rw [memA, lookupA_setA_ne _ _ _ _ hut]
      exact h3 u hu

theorem addVerifiedTx_vuOK (st : WState) (t : String) (info : TxMinedInfo)
    (hok : vuOK st) : vuOK (addVerifiedTx st t info) := by
  obtain ⟨h1, h2, h3⟩ := hok
  unfold addVerifiedTx
  refine ⟨keysA_setA_nodup _ _ _ h1, keysA_popA_nodup _ _ h2, ?_⟩
  intro u hu
  rcases (memA_setA_iff _ _ _ _).mp hu with rfl | hu'
  · exact memA_popA_self_of_nodup _ _ h2
  · by_cases hut : u = t
    · subst hut
      exact memA_popA_self_of_nodup _ _ h2
    · rw [memA, lookupA_popA_ne _ _ _ hut]
      exact h3 u hu'

theorem undoVerStep_vuOK {H : Type} (readHeader : Int → Option H)
    (hashHeader : H → String) (height : Int) (acc : WState × List String)
    (e : String × TxMinedInfo) (hok : vuOK acc.1) :
    vuOK (undoVerStep readHeader hashHeader height acc e).1 := by
  obtain ⟨h1, h2, h3⟩ := hok
  unfold undoVerStep
  split
  · split
    · refine ⟨keysA_popA_nodup _ _ h1, keysA_setA_nodup _ _ _ h2, ?_⟩
      intro u hu
      by_cases hue : u = e.1
      · subst hue
        have hu' : memA (popA acc.1.verifiedTx e.1) e.1 = true := hu
        rw [memA_popA_self_of_nodup _ _ h1] at hu'
        exact absurd hu' (by simp)
      · rw [memA, lookupA_setA_ne _ _ _ _ hue]
        exact h3 u (memA_popA_mono _ _ _ hu)
    · exact ⟨h1, h2, h3⟩
  · exact ⟨h1, h2, h3⟩

theorem phase1Step_vuOK (hist : List (String × Int)) (st : WState) (th : String × Int)
    (hok : vuOK st) : vuOK (phase1Step hist st th) := by
  obtain ⟨h1, h2, h3⟩ := hok
  unfold phase1Step
  split
  · refine releaseProof_vuOK _ _ ⟨keysA_popA_nodup _ _ h1, keysA_popA_nodup _ _ h2, ?_⟩
    intro u hu
    exact memA_popA_false _ _ _ (h3 u (memA_popA_mono _ _ _ hu))
  · exact ⟨h1, h2, h3⟩

theorem phase2Step_vuOK (acc : WState × Bool) (th : String × Int)
    (hok : vuOK acc.1) : vuOK (phase2Step acc th).1 := by
  simp only [phase2Step]
  split
  · exact hok
  · split
    · exact addUnverifiedTx_vuOK _ _ _ hok
    · next tx heq =>
      split
      · next st2 b heq2 =>
        have h21 : (addTransaction (addUnverifiedTx acc.1 th.1 th.2) th.1 tx true).1 = st2 :=
          congrArg Prod.fst heq2
        refine vuOK_of_frame ?_ (addUnverifiedTx_vuOK acc.1 th.1 th.2 hok)
        rw [← h21]
        exact addTransaction_frame _ _ _ _
      · next st2 r _ heq2 =>
        have h21 : (addTransaction (addUnverifiedTx acc.1 th.1 th.2) th.1 tx true).1 = st2 :=
          congrArg Prod.fst heq2
        refine vuOK_of_frame ?_ (addUnverifiedTx_vuOK acc.1 th.1 th.2 hok)
        rw [← h21]
        exact addTransaction_frame _ _ _ _

theorem receiveHistoryCallback_vuOK (st : WState) (addr : String)
    (hist fees : List (String × Int)) (hok : vuOK st) :
    vuOK (receiveHistoryCallback st addr hist fees).1 := by
  have hp1 : vuOK (receiveHistoryPhase1 st addr hist) := by
    unfold receiveHistoryPhase1
    have hf : vuOK ((getAddressHistory st addr).foldl (phase1Step hist) st) :=
      foldl_preserve (fun s => vuOK s) (phase1Step hist) _ st
        (fun s e _ hp => phase1Step_vuOK hist s e hp) hok
    exact ⟨hf.1, hf.2.1, hf.2.2⟩
  have hf2 : vuOK (hist.foldl phase2Step (receiveHistoryPhase1 st addr hist, true)).1 :=
    foldl_preserve (fun s => vuOK s.1) phase2Step hist _
      (fun s e _ hp => phase2Step_vuOK s e hp) hp1
  simp only [receiveHistoryCallback]
  split
  · exact ⟨hf2.1, hf2.2.1, hf2.2.2⟩
  · exact hf2

/-- **C7.** `verified_tx` and `unverified_tx` have disjoint key sets, and
each of `add_unverified_tx`, `add_verified_tx`, `undo_verifications` and
`receive_history_callback` preserves this disjointness (together with the
duplicate-freeness of the underlying dict keys). -/
theorem verified_unverified_disjoint_preserved (st : WState) (hok : vuOK st) :
    (∀ t h, vuOK (addUnverifiedTx st t h)) ∧
    (∀ t info, vuOK (addVerifiedTx st t info)) ∧
    (∀ (H : Type) (readHeader : Int → Option H) (hashHeader : H → String) (height : Int),
      vuOK (undoVerifications readHeader hashHeader st height).1) ∧
    (∀ addr hist fees, vuOK (receiveHistoryCallback st addr hist fees).1) := by
  refine ⟨fun t h => addUnverifiedTx_vuOK st t h hok,
    fun t info => addVerifiedTx_vuOK st t info hok,
    fun H readHeader hashHeader height => ?_,
    fun addr hist fees => receiveHistoryCallback_vuOK st addr hist fees hok⟩
  unfold undoVerifications
  exact foldl_preserve (fun s => vuOK s.1)
    (undoVerStep readHeader hashHeader height) st.verifiedTx (st, [])
    (fun s e _ hp => undoVerStep_vuOK readHeader hashHeader height s e hp) hok

theorem vuOK_of_check (st : WState)
    (h1 : (keysA st.verifiedTx).Nodup) (h2 : (keysA st.unverifiedTx).Nodup)
    (h3 : ∀ k ∈ keysA st.verifiedTx, memA st.unverifiedTx k = false) : vuOK st := by
  refine ⟨h1, h2, fun t ht => ?_⟩
  rw [memA, lookupA_isSome_iff_mem_keysA] at ht
  exact h3 t ht

/-- Witness for C7: after promoting `U1` from unverified to verified in the
two-entry state, `U1` is no longer in `unverified_tx`. -/
theorem verified_unverified_disjoint_witness :
    memA (addVerifiedTx egC7St "U1" { height := 9 }).unverifiedTx "U1" = false :=
  ((verified_unverified_disjoint_preserved egC7St
    (vuOK_of_check egC7St (by decide) (by decide) (by decide))).2.1 "U1"
    { height := 9 }).2.2 "U1" (by decide)

-- C8: consistency check and ordering of `get_history`.

theorem mem_orderedInsert {α : Type} (le : α → α → Bool) (x : α) (l : List α) (z : α) :
    z ∈ orderedInsert le x l ↔ z = x ∨ z ∈ l := by
  induction l with
  | nil => simp [orderedInsert]
  | cons y ys ih =>
    unfold orderedInsert
    split
    · simp only [List.mem_cons, ih]
      tauto
    · simp [List.mem_cons]

theorem orderedInsert_pairwise {α : Type} (le : α → α → Bool)
    (htot : ∀ a b, le a b = true ∨ le b a = true)
    (htrans : ∀ a b c, le a b = true → le b c = true → le a c = true)
    (x : α) (l : List α) (hl : l.Pairwise (fun a b => le a b = true)) :
    (orderedInsert le x l).Pairwise (fun a b => le a b = true) := by
  induction l with
  | nil => simp [orderedInsert]
  | cons y ys ih =>
    rcases List.pairwise_cons.mp hl with ⟨hy, hys⟩
    unfold orderedInsert
    split
    · next hle =>
      rw [List.pairwise_cons]
      refine ⟨?_, ih hys⟩
      intro z hz
      rcases (mem_orderedInsert le x ys z).mp hz with rfl | hz'
      · exact hle
      · exact hy z hz'
    · next hle =>
      have hxy : le x y = true := by
        rcases htot x y with h | h
        · exact h
        · exact absurd h hle
      rw [List.pairwise_cons]
      refine ⟨?_, hl⟩
      intro z hz
      rcases List.mem_cons.mp hz with rfl | hz'
      · exact hxy
      · exact htrans x y z hxy (hy z hz')

theorem stableSort_pairwise {α : Type} (le : α → α → Bool)
    (htot : ∀ a b, le a b = true ∨ le b a = true)
    (htrans : ∀ a b c, le a b = true → le b c = true → le a c = true)
    (l : List α) : (stableSort le l).Pairwise (fun a b => le a b = true) := by
  induction l with
  | nil => simp [stableSort]
  | cons x xs ih => exact orderedInsert_pairwise le htot htrans x _ ih

theorem txposGe_total (st : WState) (x y : String × TxMinedInfo × Int × Int) :
    txposGe st x y = true ∨ txposGe st y x = true := by
  simp only [txposGe, posLe, decide_eq_true_eq]
  omega

theorem txposGe_trans (st : WState) (x y z : String × TxMinedInfo × Int × Int)
    (h1 : txposGe st x y = true) (h2 : txposGe st y z = true) : txposGe st x z = true := by
  simp only [txposGe, posLe, decide_eq_true_eq] at h1 h2 ⊢
  omega

theorem walk_fold_txHash (l : List (String × TxMinedInfo × Int × Int))
    (acc : List HistRow × Int × Int) :
    ((l.foldl walkStep acc).1).map HistRow.txHash =
      acc.1.map HistRow.txHash ++ l.map (fun r => r.1) := by
  induction l generalizing acc with
  | nil => simp
  | cons r rs ih =>
    rw [List.foldl_cons, ih]
    simp [walkStep]

/-- **C8.** `get_history`: when the running-balance walk ends with a
non-zero leftover balance the engine returns the empty list (after
logging), and otherwise it returns the walked rows reversed into
chronological order — each row's `get_txpos` key is lexicographically at
most the next row's.  The embedded function is total, so the path never
raises; the poisoned-`None` branch of the source is dead because
`get_tx_delta` always returns an integer. -/
theorem getHistory_consistency (st : WState) (domain : List String) :
    getHistory st domain =
      (if (historyWalk st domain.dedup).2 = 0
        then (historyWalk st domain.dedup).1.reverse else []) ∧
    (getHistory st domain).Pairwise
      (fun r1 r2 => posLe (getTxpos st r1.txHash) (getTxpos st r2.txHash)) := by
  refine ⟨rfl, ?_⟩
  have hs : (historySorted st domain.dedup).Pairwise
      (fun a b => txposGe st a b = true) := by
    simp only [historySorted]
    exact stableSort_pairwise (txposGe st) (txposGe_total st) (txposGe_trans st) _
  have hs' : (historySorted st domain.dedup).Pairwise
      (fun a b => posLe (getTxpos st b.1) (getTxpos st a.1)) := by
    refine hs.imp ?_
    intro a b h
    simpa [txposGe] using h
  have hsm : ((historySorted st domain.dedup).map (fun r => r.1)).Pairwise
      (fun a b => posLe (getTxpos st b) (getTxpos st a)) :=
    List.pairwise_map.mpr hs'
  have hmap : ((historyWalk st domain.dedup).1).map HistRow.txHash =
      (historySorted st domain.dedup).map (fun r => r.1) := by
    simp only [historyWalk]
    rw [walk_fold_txHash]
    simp
  rw [← hmap] at hsm
  have hpw : (historyWalk st domain.dedup).1.Pairwise
      (fun r1 r2 => posLe (getTxpos st r2.txHash) (getTxpos st r1.txHash)) :=
    List.pairwise_map.mp hsm
  show (getHistory st domain).Pairwise _
  simp only [getHistory]
  split
  · rw [List.pairwise_reverse]
    exact hpw
  · exact List.Pairwise.nil

-- C1: conflict resolution of `add_transaction`.

theorem subset_evictionSet (st : WState) (conflicts : List String) :
    conflicts ⊆ evictionSet st conflicts := by
  intro x hx
  unfold evictionSet
  exact foldl_preserve (fun s => x ∈ s) _ conflicts conflicts
    (fun s c _ hp =>
      foldl_preserve (fun s2 => x ∈ s2) addS _ s (fun s2 d _ hp2 => mem_addS_mono _ _ _ hp2) hp)
    hx

theorem removeTransaction_transactions (st : WState) (t : String) :
    (removeTransaction st t).transactions = popA st.transactions t := rfl

theorem transactions_foldl_remove (L : List String) (st : WState) :
    (L.foldl removeTransaction st).transactions = L.foldl popA st.transactions := by
  induction L generalizing st with
  | nil => rfl
  | cons u L' ih =>
    rw [List.foldl_cons, List.foldl_cons, ih, removeTransaction_transactions]

theorem lookupA_foldl_popA_none {α β : Type} [DecidableEq α] (L : List α)
    (m : List (α × β)) (hnd : (keysA m).Nodup) (u : α) (hu : u ∈ L) :
    lookupA (L.foldl popA m) u = none := by
  induction L generalizing m with
  | nil => cases hu
  | cons v L' ih =>
    rw [List.foldl_cons]
    rcases List.mem_cons.mp hu with rfl | hu'
    · exact foldl_preserve (fun s => lookupA s u = none) popA L' (popA m u)
        (fun s a _ hp => lookupA_none_popA _ _ _ hp)
        (lookupA_popA_self_of_nodup _ _ hnd)
    · exact ih (popA m v) (keysA_popA_nodup _ _ hnd) hu'

theorem txns_addValueFromPrevOutput (st : WState) (t ser ph : String) (pn : Nat) :
    (addValueFromPrevOutput st t ser ph pn).transactions = st.transactions := by
  simp only [addValueFromPrevOutput]
  repeat' split
  all_goals rfl

theorem txns_addInputStep (t : String) (st : WState) (i : TxIn) :
    (addInputStep t st i).transactions = st.transactions := by
  simp only [addInputStep]
  split
  · rfl
  · rw [txns_addValueFromPrevOutput]

theorem txns_addInputsLoop (st : WState) (t : String) (ins : List TxIn) :
    (addInputsLoop st t ins).transactions = st.transactions := by
  unfold addInputsLoop
  exact foldl_preserve (fun s => s.transactions = st.transactions) (addInputStep t) ins st
    (fun s i _ hp => by dsimp only; rw [txns_addInputStep]; exact hp) rfl

theorem txns_addOneOutput (st : WState) (t : String) (cb : Bool) (n : Nat) (o : TxOut) :
    (addOneOutput st t cb n o).transactions = st.transactions := by
  simp only [addOneOutput]
  repeat' split
  all_goals rfl

theorem txns_outsFold (st : WState) (t : String) (cb : Bool) (l : List (Nat × TxOut)) :
    (l.foldl (addOutputStep t cb) st).transactions = st.transactions := by
  exact foldl_preserve (fun s => s.transactions = st.transactions) (addOutputStep t cb) l st
    (fun s p _ hp => by dsimp only [addOutputStep]; rw [txns_addOneOutput]; exact hp) rfl

theorem addIndexPhase_transactions (st : WState) (t : String) (tx : Tx) (cb : Bool) :
    (addIndexPhase st t tx cb).transactions = setA st.transactions t tx := by
  simp only [addIndexPhase]
  rw [show ∀ (s : WState) (u : String), (addTxToLocalHistory s u).transactions =
    s.transactions from fun _ _ => rfl]
  rw [txns_outsFold]
  rw [show ∀ (s : WState) (x), ({ s with txo := x } : WState).transactions =
    s.transactions from fun _ _ => rfl]
  rw [txns_addInputsLoop]

theorem getConflicting_transactions (st : WState) (t : String) (tx : Tx) :
    (getConflicting st t tx).1.transactions = st.transactions := by
  simp only [getConflicting]
  repeat' split
  all_goals rfl

theorem getConflicting_localHeight (st : WState) (t : String) (tx : Tx) :
    (getConflicting st t tx).1.localHeight = st.localHeight := by
  simp only [getConflicting]
  repeat' split
  all_goals rfl

theorem getTxHeight_getConflicting (st : WState) (t : String) (tx : Tx) (u : String) :
    getTxHeight (getConflicting st t tx).1 u = getTxHeight st u := by
  unfold getTxHeight
  rw [frame_verified (getConflicting_frame st t tx),
    frame_unverified (getConflicting_frame st t tx), getConflicting_localHeight]

theorem addTransactionResolved_spec (st1 : WState) (txHash : String) (tx : Tx)
    (isCb : Bool) (th : Int) (conflicts : List String) (hcne : conflicts ≠ [])
    (hnd : (keysA st1.transactions).Nodup) :
    ((∃ t2 ∈ conflicts, (getTxHeight st1 t2).height > 0) → th ≤ 0 →
      addTransactionResolved st1 txHash tx isCb th conflicts = (st1, AddTxRes.done false)) ∧
    ((∃ t2 ∈ conflicts, (getTxHeight st1 t2).height = TX_HEIGHT_UNCONFIRMED ∨
        (getTxHeight st1 t2).height = TX_HEIGHT_UNCONF_PARENT) →
      (∀ t2 ∈ conflicts, ¬ (getTxHeight st1 t2).height > 0) → th = TX_HEIGHT_LOCAL →
      addTransactionResolved st1 txHash tx isCb th conflicts = (st1, AddTxRes.done false)) ∧
    ((¬ ((∃ t2 ∈ conflicts, (getTxHeight st1 t2).height > 0) ∧ th ≤ 0)) →
      (¬ ((∃ t2 ∈ conflicts, (getTxHeight st1 t2).height = TX_HEIGHT_UNCONFIRMED ∨
          (getTxHeight st1 t2).height = TX_HEIGHT_UNCONF_PARENT) ∧ th = TX_HEIGHT_LOCAL)) →
      (addTransactionResolved st1 txHash tx isCb th conflicts).2 = AddTxRes.done true ∧
      lookupA (addTransactionResolved st1 txHash tx isCb th conflicts).1.transactions
        txHash = some tx ∧
      (∀ u ∈ evictionSet st1 conflicts, u ≠ txHash →
        lookupA (addTransactionResolved st1 txHash tx isCb th conflicts).1.transactions
          u = none)) := by
  have hie : conflicts.isEmpty = false := by
    cases conflicts with
    | nil => exact absurd rfl hcne
    | cons c cs => rfl
  have hecIff : (conflicts.any fun t2 => decide ((getTxHeight st1 t2).height > 0)) = true ↔
      ∃ t2 ∈ conflicts, (getTxHeight st1 t2).height > 0 := by
    rw [List.any_eq_true]
    simp
  have hemIff : (conflicts.any fun t2 =>
      decide ((getTxHeight st1 t2).height = TX_HEIGHT_UNCONFIRMED ∨
        (getTxHeight st1 t2).height = TX_HEIGHT_UNCONF_PARENT)) = true ↔
      ∃ t2 ∈ conflicts, (getTxHeight st1 t2).height = TX_HEIGHT_UNCONFIRMED ∨
        (getTxHeight st1 t2).height = TX_HEIGHT_UNCONF_PARENT := by
    rw [List.any_eq_true]
    simp
  refine ⟨?_, ?_, ?_⟩
  · intro hec hth
    simp only [addTransactionResolved, hie, if_false, Bool.false_eq_true]
    rw [if_pos ⟨hecIff.mpr hec, hth⟩]
  · intro hem hnec hth
    simp only [addTransactionResolved, hie, if_false, Bool.false_eq_true]
    rw [if_neg, if_pos ⟨hemIff.mpr hem, hth⟩]
    rintro ⟨hany, -⟩
    rcases hecIff.mp hany with ⟨t2, ht2, hgt⟩
    exact hnec t2 ht2 hgt
  · intro hn1 hn2
    simp only [addTransactionResolved, hie, if_false, Bool.false_eq_true]
    rw [if_neg (fun h => hn1 ⟨hecIff.mp h.1, h.2⟩),
      if_neg (fun h => hn2 ⟨hemIff.mp h.1, h.2⟩)]
    refine ⟨rfl, ?_, ?_⟩
    · rw [addIndexPhase_transactions, lookupA_setA_self]
    · intro u hu hne
      rw [addIndexPhase_transactions, lookupA_setA_ne _ _ _ _ hne,
        transactions_foldl_remove]
      exact lookupA_foldl_popA_none _ _ hnd u hu

/-- **C1.** When `add_transaction(txid, T)` finds a non-empty set `C` of
conflicting transactions: a confirmed conflict drops a non-confirmed
newcomer (returns false), a mempool conflict with no confirmed conflict
drops a local newcomer (returns false), and otherwise every member of
`C ∪ descendants(C)` (the `to_remove` set computed through
`spent_outpoints`) other than `txid` itself is evicted from `transactions`
via `remove_transaction`, after which `T` is indexed and the call returns
true. -/
theorem addTransaction_conflict_resolution (st : WState) (txHash : String) (tx : Tx)
    (au : Bool) (hc : tx.isComplete = true) (txin0 : TxIn) (rest : List TxIn)
    (hins : tx.ins = txin0 :: rest)
    (hguard : au = true ∨ (tx.ins.any fun i => isMineO st (getTxinAddress st i)) = true ∨
      (tx.outs.any fun o => isMineO st (getTxoutAddress o)) = true)
    (st1 : WState) (conflicts : List String)
    (hgc : getConflicting st txHash tx = (st1, some conflicts)) (hcne : conflicts ≠ [])
    (hnd : (keysA st.transactions).Nodup) :
    ((∃ t2 ∈ conflicts, (getTxHeight st t2).height > 0) →
      (getTxHeight st txHash).height ≤ 0 →
      addTransaction st txHash tx au = (st1, AddTxRes.done false)) ∧
    ((∃ t2 ∈ conflicts, (getTxHeight st t2).height = TX_HEIGHT_UNCONFIRMED ∨
        (getTxHeight st t2).height = TX_HEIGHT_UNCONF_PARENT) →
      (∀ t2 ∈ conflicts, ¬ (getTxHeight st t2).height > 0) →
      (getTxHeight st txHash).height = TX_HEIGHT_LOCAL →
      addTransaction st txHash tx au = (st1, AddTxRes.done false)) ∧
    ((¬ ((∃ t2 ∈ conflicts, (getTxHeight st t2).height > 0) ∧
        (getTxHeight st txHash).height ≤ 0)) →
      (¬ ((∃ t2 ∈ conflicts, (getTxHeight st t2).height = TX_HEIGHT_UNCONFIRMED ∨
          (getTxHeight st t2).height = TX_HEIGHT_UNCONF_PARENT) ∧
        (getTxHeight st txHash).height = TX_HEIGHT_LOCAL)) →
      (addTransaction st txHash tx au).2 = AddTxRes.done true ∧
      lookupA (addTransaction st txHash tx au).1.transactions txHash = some tx ∧
      conflicts ⊆ evictionSet st1 conflicts ∧
      (∀ u ∈ evictionSet st1 conflicts, u ≠ txHash →
        lookupA (addTransaction st txHash tx au).1.transactions u = none)) := by
  have hst1 : (getConflicting st txHash tx).1 = st1 := congrArg Prod.fst hgc
  have hheights : ∀ u, getTxHeight st1 u = getTxHeight st u := by
    intro u
    rw [← hst1, getTxHeight_getConflicting]
  have hnd1 : (keysA st1.transactions).Nodup := by
    rw [← hst1, getConflicting_transactions]
    exact hnd
  have hmain : addTransaction st txHash tx au =
      addTransactionResolved st1 txHash tx (decide (txin0.typ = "coinbase"))
        ((getTxHeight st txHash).height) conflicts := by
    unfold addTransaction
    rw [if_neg (by simp [hc])]
    rw [hins] at hguard ⊢
    dsimp only
    rw [if_neg (by
      rintro ⟨hau, hin, hout⟩
      rcases hguard with h | h | h
      · simp [h] at hau
      · exact hin h
      · exact hout h)]
    rw [hgc]
  have hspec := addTransactionResolved_spec st1 txHash tx
    (decide (txin0.typ = "coinbase")) ((getTxHeight st txHash).height) conflicts hcne hnd1
  simp only [hheights] at hspec
  rw [hmain]
  exact ⟨hspec.1, hspec.2.1, fun h1 h2 =>
    ⟨(hspec.2.2 h1 h2).1, (hspec.2.2 h1 h2).2.1, subset_evictionSet st1 conflicts,
      (hspec.2.2 h1 h2).2.2⟩⟩

/-- Witness for C1 at the eviction scenario: a confirmed `T6` double-spends
the outpoint held by the mempool `T5`, so `T5` is evicted and `T6` indexed. -/
theorem addTransaction_conflict_resolution_witness :
    (addTransaction egT6St "T6" egT6Tx false).2 = AddTxRes.done true ∧
    lookupA (addTransaction egT6St "T6" egT6Tx false).1.transactions "T6" = some egT6Tx ∧
    lookupA (addTransaction egT6St "T6" egT6Tx false).1.transactions "T5" = none := by
  have h := addTransaction_conflict_resolution egT6St "T6" egT6Tx false rfl
    ⟨"in", "Xo", 0, none⟩ [] rfl (Or.inr (Or.inr (by decide)))
    egT6St ["T5"] (by decide) (by decide) (by decide)
  have h3 := h.2.2 (by decide) (by decide)
  exact ⟨h3.1, h3.2.1, h3.2.2.2 "T5" (by decide) (by decide)⟩

-- C2: the local-history containment invariant.

theorem hlAddStep_mono (t : String) (hl : List (String × List String)) (a t' a' : String)
    (h : t' ∈ (lookupA hl a').getD []) :
    t' ∈ (lookupA (hlAddStep t hl a) a').getD [] := by
  unfold hlAddStep
  by_cases ha : a' = a
  · subst ha
    simp only [lookupA_setA_self, Option.getD_some]
    exact mem_addS_mono _ _ _ h
  · rw [lookupA_setA_ne _ _ _ _ ha]
    exact h

theorem hlAdd_fold_mono (t : String) (addrs : List String)
    (hl : List (String × List String)) (t' a' : String)
    (h : t' ∈ (lookupA hl a').getD []) :
    t' ∈ (lookupA (addrs.foldl (hlAddStep t) hl) a').getD [] :=
  foldl_preserve (fun l => t' ∈ (lookupA l a').getD []) (hlAddStep t) addrs hl
    (fun l a _ hp => hlAddStep_mono t l a t' a' hp) h

theorem hlAdd_fold_covers (t : String) (addrs : List String)
    (hl : List (String × List String)) (a : String) (ha : a ∈ addrs) :
    t ∈ (lookupA (addrs.foldl (hlAddStep t) hl) a).getD [] := by
  induction addrs generalizing hl with
  | nil => cases ha
  | cons b bs ih =>
    rw [List.foldl_cons]
    rcases List.mem_cons.mp ha with rfl | ha'
    · refine hlAdd_fold_mono t bs (hlAddStep t hl a) t a ?_
      unfold hlAddStep
      simp only [lookupA_setA_self, Option.getD_some]
      exact mem_addS_self _ _
    · exact ih (hlAddStep t hl b) ha'

theorem hlRemoveStep_pres (t : String) (hl : List (String × List String)) (a t' a' : String)
    (hne : t' ≠ t) (h : t' ∈ (lookupA hl a').getD []) :
    t' ∈ (lookupA (hlRemoveStep t hl a) a').getD [] := by
  unfold hlRemoveStep
  cases hcur : lookupA hl a with
  | none => exact h
  | some cur =>
    by_cases ha : a' = a
    · subst ha
      simp only [lookupA_setA_self, Option.getD_some]
      rw [hcur] at h
      simp only [Option.getD_some] at h
      exact (List.mem_erase_of_ne hne).mpr h
    · rw [lookupA_setA_ne _ _ _ _ ha]
      exact h

theorem hlRemove_fold_pres (t : String) (addrs : List String)
    (hl : List (String × List String)) (t' a' : String) (hne : t' ≠ t)
    (h : t' ∈ (lookupA hl a').getD []) :
    t' ∈ (lookupA (addrs.foldl (hlRemoveStep t) hl) a').getD [] :=
  foldl_preserve (fun l => t' ∈ (lookupA l a').getD []) (hlRemoveStep t) addrs hl
    (fun l a _ hp => hlRemoveStep_pres t l a t' a' hne hp) h

theorem addTxToLocalHistory_mono (st : WState) (t t' a' : String)
    (h : t' ∈ (lookupA st.historyLocal a').getD []) :
    t' ∈ (lookupA (addTxToLocalHistory st t).historyLocal a').getD [] :=
  hlAdd_fold_mono t _ st.historyLocal t' a' h

theorem addTxToLocalHistory_covers (st : WState) (t a : String)
    (ha : a ∈ keysA ((lookupA st.txi t).getD []) ++ keysA ((lookupA st.txo t).getD [])) :
    t ∈ (lookupA (addTxToLocalHistory st t).historyLocal a).getD [] :=
  hlAdd_fold_covers t _ st.historyLocal a ha

theorem removeTransaction_idxOK (st : WState) (t : String) (h : idxOK st) :
    idxOK (removeTransaction st t) := by
  obtain ⟨h1, h2, h3⟩ := h
  have htxi : (removeTransaction st t).txi = popA st.txi t := rfl
  have htxo : (removeTransaction st t).txo = popA st.txo t := rfl
  have hhl : (removeTransaction st t).historyLocal =
      (keysA ((lookupA st.txi t).getD []) ++
        keysA ((lookupA st.txo t).getD [])).foldl (hlRemoveStep t) st.historyLocal := rfl
  refine ⟨?_, ?_, ?_⟩
  · rw [htxi]
    exact keysA_popA_nodup _ _ h1
  · rw [htxo]
    exact keysA_popA_nodup _ _ h2
  · intro t' a' hant
    rw [htxi, htxo] at hant
    by_cases hne : t' = t
    · subst hne
      rw [lookupA_popA_self_of_nodup _ _ h1, lookupA_popA_self_of_nodup _ _ h2] at hant
      simp [keysA] at hant
    · rw [lookupA_popA_ne _ _ _ hne, lookupA_popA_ne _ _ _ hne] at hant
      rw [hhl]
      exact hlRemove_fold_pres t _ st.historyLocal t' a' hne (h3 t' a' hant)

theorem almostOK_of_localHistOK (st : WState) (skip : String) (h : localHistOK st) :
    almostOK st skip := fun t a _ hant => h t a hant

theorem addValueFromPrevOutput_almostOK (st : WState) (skip ser ph : String) (pn : Nat)
    (h : almostOK st skip) : almostOK (addValueFromPrevOutput st skip ser ph pn) skip := by
  simp only [addValueFromPrevOutput]
  split
  · exact h
  · split
    · intro t a hn hant
      refine h t a hn ?_
      rwa [lookupA_setA_ne st.txi skip t _ hn] at hant
    · exact h

theorem addInputStep_almostOK (skip : String) (st : WState) (i : TxIn)
    (h : almostOK st skip) : almostOK (addInputStep skip st i) skip := by
  simp only [addInputStep]
  split
  · exact h
  · exact addValueFromPrevOutput_almostOK _ skip _ _ _ h

theorem addInputsLoop_almostOK (st : WState) (skip : String) (ins : List TxIn)
    (h : almostOK st skip) : almostOK (addInputsLoop st skip ins) skip := by
  unfold addInputsLoop
  exact foldl_preserve (fun s => almostOK s skip) (addInputStep skip) ins st
    (fun s i _ hp => addInputStep_almostOK skip s i hp) h

theorem addTxToLocalHistory_txi (st : WState) (t : String) :
    (addTxToLocalHistory st t).txi = st.txi := rfl

theorem addTxToLocalHistory_txo (st : WState) (t : String) :
    (addTxToLocalHistory st t).txo = st.txo := rfl

theorem addOneOutput_almostOK (st : WState) (skip : String) (cb : Bool) (n : Nat)
    (o : TxOut) (h : almostOK st skip) : almostOK (addOneOutput st skip cb n o) skip := by
  simp only [addOneOutput]
  split
  · exact h
  · split
    · split
      · intro t a hn hant
        dsimp only at hant ⊢
        refine h t a hn ?_
        rwa [lookupA_setA_ne st.txo skip t _ hn] at hant
      · next nextTx heqn =>
        split
        · intro t a hn hant
          rw [addTxToLocalHistory_txi, addTxToLocalHistory_txo] at hant
          dsimp only at hant
          by_cases htn : t = nextTx
          · subst htn
            refine addTxToLocalHistory_covers _ t a ?_
            rw [List.mem_append]
            dsimp only
            exact hant
          · refine addTxToLocalHistory_mono _ nextTx t a ?_
            dsimp only
            refine h t a hn ?_
            rwa [lookupA_setA_ne st.txo skip t _ hn] at hant
        · next dd heqdd =>
          intro t a hn hant
          rw [addTxToLocalHistory_txi, addTxToLocalHistory_txo] at hant
          dsimp only at hant
          by_cases htn : t = nextTx
          · subst htn
            refine addTxToLocalHistory_covers _ t a ?_
            rw [List.mem_append]
            dsimp only
            exact hant
          · refine addTxToLocalHistory_mono _ nextTx t a ?_
            dsimp only
            refine h t a hn ?_
            rw [lookupA_setA_ne _ nextTx t _ htn] at hant
            rwa [lookupA_setA_ne st.txo skip t _ hn] at hant
    · exact h

theorem nodups_addValueFromPrevOutput (st : WState) (skip ser ph : String) (pn : Nat)
    (h1 : (keysA st.txi).Nodup) (h2 : (keysA st.txo).Nodup) :
    (keysA (addValueFromPrevOutput st skip ser ph pn).txi).Nodup ∧
    (keysA (addValueFromPrevOutput st skip ser ph pn).txo).Nodup := by
  simp only [addValueFromPrevOutput]
  split
  · exact ⟨h1, h2⟩
  · split
    · exact ⟨keysA_setA_nodup _ _ _ h1, h2⟩
    · exact ⟨h1, h2⟩

theorem nodups_addInputStep (skip : String) (st : WState) (i : TxIn)
    (h1 : (keysA st.txi).Nodup) (h2 : (keysA st.txo).Nodup) :
    (keysA (addInputStep skip st i).txi).Nodup ∧
    (keysA (addInputStep skip st i).txo).Nodup := by
  simp only [addInputStep]
  split
  · exact ⟨h1, h2⟩
  · exact nodups_addValueFromPrevOutput _ skip _ _ _ h1 h2

theorem nodups_addInputsLoop (st : WState) (skip : String) (ins : List TxIn)
    (h1 : (keysA st.txi).Nodup) (h2 : (keysA st.txo).Nodup) :
    (keysA (addInputsLoop st skip ins).txi).Nodup ∧
    (keysA (addInputsLoop st skip ins).txo).Nodup := by
  unfold addInputsLoop
  exact foldl_preserve (fun s => (keysA s.txi).Nodup ∧ (keysA s.txo).Nodup)
    (addInputStep skip) ins st
    (fun s i _ hp => nodups_addInputStep skip s i hp.1 hp.2) ⟨h1, h2⟩

theorem nodups_addOneOutput (st : WState) (skip : String) (cb : Bool) (n : Nat)
    (o : TxOut) (h1 : (keysA st.txi).Nodup) (h2 : (keysA st.txo).Nodup) :
    (keysA (addOneOutput st skip cb n o).txi).Nodup ∧
    (keysA (addOneOutput st skip cb n o).txo).Nodup := by
  simp only [addOneOutput]
  split
  · exact ⟨h1, h2⟩
  · split
    · split
      · exact ⟨h1, keysA_setA_nodup _ _ _ h2⟩
      · split
        · exact ⟨h1, keysA_setA_nodup _ _ _ h2⟩
        · exact ⟨keysA_setA_nodup _ _ _ h1, keysA_setA_nodup _ _ _ h2⟩
    · exact ⟨h1, h2⟩

theorem nodups_outsFold (st : WState) (skip : String) (cb : Bool)
    (l : List (Nat × TxOut)) (h1 : (keysA st.txi).Nodup) (h2 : (keysA st.txo).Nodup) :
    (keysA (l.foldl (addOutputStep skip cb) st).txi).Nodup ∧
    (keysA (l.foldl (addOutputStep skip cb) st).txo).Nodup := by
  exact foldl_preserve (fun s => (keysA s.txi).Nodup ∧ (keysA s.txo).Nodup)
    (addOutputStep skip cb) l st
    (fun s p _ hp => nodups_addOneOutput s skip cb p.1 p.2 hp.1 hp.2) ⟨h1, h2⟩

theorem almostOK_reset_txi (st : WState) (skip : String) (h : localHistOK st) :
    almostOK { st with txi := setA st.txi skip [] } skip := by
  intro t a hn hant
  dsimp only at hant
  rw [lookupA_setA_ne st.txi skip t _ hn] at hant
  exact h t a hant

theorem almostOK_reset_txo (st : WState) (skip : String) (h : almostOK st skip) :
    almostOK { st with txo := setA st.txo skip [] } skip := by
  intro t a hn hant
  dsimp only at hant
  rw [lookupA_setA_ne st.txo skip t _ hn] at hant
  exact h t a hn hant

theorem addIndexPhase_idxOK (st : WState) (skip : String) (tx : Tx) (cb : Bool)
    (h : idxOK st) : idxOK (addIndexPhase st skip tx cb) := by
  obtain ⟨h1, h2, h3⟩ := h
  simp only [addIndexPhase]
  set S1 := ({ st with txi := setA st.txi skip [] } : WState) with hS1
  set S2 := addInputsLoop S1 skip tx.ins with hS2
  set S3 := ({ S2 with txo := setA S2.txo skip [] } : WState) with hS3
  set S4 := tx.outs.enum.foldl (addOutputStep skip cb) S3 with hS4
  have hA : almostOK S1 skip := by
    rw [hS1]
    exact almostOK_reset_txi st skip h3
  have hN1 : (keysA S1.txi).Nodup ∧ (keysA S1.txo).Nodup := by
    rw [hS1]
    exact ⟨keysA_setA_nodup _ _ _ h1, h2⟩
  have hB : almostOK S2 skip := by
    rw [hS2]
    exact addInputsLoop_almostOK S1 skip tx.ins hA
  have hN2 : (keysA S2.txi).Nodup ∧ (keysA S2.txo).Nodup := by
    rw [hS2]
    exact nodups_addInputsLoop S1 skip tx.ins hN1.1 hN1.2
  have hC : almostOK S3 skip := by
    rw [hS3]
    exact almostOK_reset_txo S2 skip hB
  have hN3 : (keysA S3.txi).Nodup ∧ (keysA S3.txo).Nodup := by
    rw [hS3]
    exact ⟨hN2.1, keysA_setA_nodup _ _ _ hN2.2⟩
  have hD : almostOK S4 skip := by
    rw [hS4]
    exact foldl_preserve (fun s => almostOK s skip) (addOutputStep skip cb) _ S3
      (fun s p _ hp => addOneOutput_almostOK s skip cb p.1 p.2 hp) hC
  have hN4 : (keysA S4.txi).Nodup ∧ (keysA S4.txo).Nodup := by
    rw [hS4]
    exact nodups_outsFold S3 skip cb _ hN3.1 hN3.2
  refine ⟨?_, ?_, ?_⟩
  · show (keysA S4.txi).Nodup
    exact hN4.1
  · show (keysA S4.txo).Nodup
    exact hN4.2
  · intro t a hant
    have hant' : a ∈ keysA ((lookupA S4.txi t).getD []) ∨
        a ∈ keysA ((lookupA S4.txo t).getD []) := hant
    show t ∈ (lookupA (addTxToLocalHistory S4 skip).historyLocal a).getD []
    by_cases htn : t = skip
    · subst htn
      exact addTxToLocalHistory_covers S4 t a (List.mem_append.mpr hant')
    · exact addTxToLocalHistory_mono S4 skip t a (hD t a htn hant')

theorem idxOK_congr {s s' : WState} (hi : s'.txi = s.txi) (ho : s'.txo = s.txo)
    (hh : s'.historyLocal = s.historyLocal) (h : idxOK s) : idxOK s' := by
  obtain ⟨h1, h2, h3⟩ := h
  refine ⟨by rw [hi]; exact h1, by rw [ho]; exact h2, ?_⟩
  intro t a hant
  rw [hi, ho] at hant
  rw [hh]
  exact h3 t a hant

theorem getConflicting_txi (st : WState) (t : String) (tx : Tx) :
    (getConflicting st t tx).1.txi = st.txi := by
  simp only [getConflicting]
  repeat' split
  all_goals rfl

theorem getConflicting_txo (st : WState) (t : String) (tx : Tx) :
    (getConflicting st t tx).1.txo = st.txo := by
  simp only [getConflicting]
  repeat' split
  all_goals rfl

theorem getConflicting_historyLocal (st : WState) (t : String) (tx : Tx) :
    (getConflicting st t tx).1.historyLocal = st.historyLocal := by
  simp only [getConflicting]
  repeat' split
  all_goals rfl

theorem addTransactionResolved_idxOK (st1 : WState) (txHash : String) (tx : Tx)
    (cb : Bool) (th : Int) (cs : List String) (h : idxOK st1) :
    idxOK (addTransactionResolved st1 txHash tx cb th cs).1 := by
  by_cases h1 : cs.isEmpty
  · simp only [addTransactionResolved, h1, if_true]
    exact addIndexPhase_idxOK st1 txHash tx cb h
  · simp only [addTransactionResolved, h1, if_false, Bool.false_eq_true]
    split
    · exact h
    · split
      · exact h
      · refine addIndexPhase_idxOK _ txHash tx cb ?_
        exact foldl_preserve (fun s => idxOK s) removeTransaction _ st1
          (fun s u _ hp => removeTransaction_idxOK s u hp) h

theorem addTransaction_idxOK (st : WState) (t : String) (tx : Tx) (au : Bool)
    (h : idxOK st) : idxOK (addTransaction st t tx au).1 := by
  unfold addTransaction
  split
  · exact h
  · split
    · exact h
    · dsimp only
      split
      · exact h
      · rcases hgc : getConflicting st t tx with ⟨st1, r⟩
        have hok1 : idxOK st1 := by
          refine idxOK_congr ?_ ?_ ?_ h
          · rw [show st1 = (getConflicting st t tx).1 from by rw [hgc]]
            exact getConflicting_txi st t tx
          · rw [show st1 = (getConflicting st t tx).1 from by rw [hgc]]
            exact getConflicting_txo st t tx
          · rw [show st1 = (getConflicting st t tx).1 from by rw [hgc]]
            exact getConflicting_historyLocal st t tx
        cases r with
        | none => exact hok1
        | some cs =>
          dsimp only
          exact addTransactionResolved_idxOK st1 t tx _ _ cs hok1

theorem releaseProof_txi (st : WState) (t : String) :
    (releaseProof st t).txi = st.txi := by
  unfold releaseProof
  split <;> rfl

theorem releaseProof_txo (st : WState) (t : String) :
    (releaseProof st t).txo = st.txo := by
  unfold releaseProof
  split <;> rfl

theorem releaseProof_historyLocal (st : WState) (t : String) :
    (releaseProof st t).historyLocal = st.historyLocal := by
  unfold releaseProof
  split <;> rfl

theorem addUnverifiedTx_idxOK (st : WState) (t : String) (hh : Int) (h : idxOK st) :
    idxOK (addUnverifiedTx st t hh) := by
  unfold addUnverifiedTx
  split
  · split
    · exact idxOK_congr (releaseProof_txi _ _) (releaseProof_txo _ _)
        (releaseProof_historyLocal _ _) h
    · exact h
  · exact idxOK_congr rfl rfl rfl h

theorem phase1Step_idxOK (hist : List (String × Int)) (st : WState) (th : String × Int)
    (h : idxOK st) : idxOK (phase1Step hist st th) := by
  unfold phase1Step
  split
  · exact idxOK_congr (releaseProof_txi _ _) (releaseProof_txo _ _)
      (releaseProof_historyLocal _ _) h
  · exact h

theorem phase2Step_idxOK (acc : WState × Bool) (th : String × Int) (h : idxOK acc.1) :
    idxOK (phase2Step acc th).1 := by
  simp only [phase2Step]
  split
  · exact h
  · split
    · exact addUnverifiedTx_idxOK _ _ _ h
    · next tx heq =>
      split
      · next st2 b heq2 =>
        have h21 : (addTransaction (addUnverifiedTx acc.1 th.1 th.2) th.1 tx true).1 = st2 :=
          congrArg Prod.fst heq2
        rw [← h21]
        exact addTransaction_idxOK _ _ _ _ (addUnverifiedTx_idxOK _ _ _ h)
      · next st2 r _ heq2 =>
        have h21 : (addTransaction (addUnverifiedTx acc.1 th.1 th.2) th.1 tx true).1 = st2 :=
          congrArg Prod.fst heq2
        rw [← h21]
        exact addTransaction_idxOK _ _ _ _ (addUnverifiedTx_idxOK _ _ _ h)

theorem receiveHistoryCallback_idxOK (st : WState) (addr : String)
    (hist fees : List (String × Int)) (h : idxOK st) :
    idxOK (receiveHistoryCallback st addr hist fees).1 := by
  have hp1 : idxOK (receiveHistoryPhase1 st addr hist) := by
    unfold receiveHistoryPhase1
    refine idxOK_congr rfl rfl rfl ?_
    exact foldl_preserve (fun s => idxOK s) (phase1Step hist) _ st
      (fun s e _ hp => phase1Step_idxOK hist s e hp) h
  have hf2 : idxOK (hist.foldl phase2Step (receiveHistoryPhase1 st addr hist, true)).1 :=
    foldl_preserve (fun s => idxOK s.1) phase2Step hist _
      (fun s e _ hp => phase2Step_idxOK s e hp) hp1
  simp only [receiveHistoryCallback]
  split
  · exact idxOK_congr rfl rfl rfl hf2
  · exact hf2

theorem clearHistory_idxOK (st : WState) : idxOK (clearHistory st) := by
  refine ⟨by simp [clearHistory, keysA], by simp [clearHistory, keysA], ?_⟩
  intro t a hant
  simp [clearHistory, lookupA, keysA] at hant

theorem lookupA_mem {α β : Type} [DecidableEq α] (l : List (α × β)) (k : α) (v : β)
    (h : lookupA l k = some v) : (k, v) ∈ l := by
  induction l with
  | nil => simp [lookupA] at h
  | cons e t ih =>
    obtain ⟨a, b⟩ := e
    by_cases he : a = k
    · subst he
      simp only [lookupA, if_pos rfl] at h
      simp only [eq_self_iff_true, if_true, Option.some.injEq] at h
      subst h
      exact List.mem_cons_self _ _
    · simp only [lookupA, if_neg he] at h
      exact List.mem_cons_of_mem _ (ih h)

theorem localHistOK_of_check (st : WState)
    (h1 : (st.txi.all fun kv => kv.2.all fun av =>
      decide (kv.1 ∈ (lookupA st.historyLocal av.1).getD [])) = true)
    (h2 : (st.txo.all fun kv => kv.2.all fun av =>
      decide (kv.1 ∈ (lookupA st.historyLocal av.1).getD [])) = true) :
    localHistOK st := by
  intro t a hant
  rcases hant with hant | hant
  · cases hl : lookupA st.txi t with
    | none =>
      rw [hl] at hant
      simp [keysA] at hant
    | some d =>
      rw [hl] at hant
      simp only [Option.getD_some] at hant
      rcases List.mem_map.mp hant with ⟨av, havmem, haveq⟩
      have hrow := List.all_eq_true.mp h1 (t, d) (lookupA_mem _ _ _ hl)
      have hcell := List.all_eq_true.mp hrow av havmem
      rw [← haveq]
      simpa using hcell
  · cases hl : lookupA st.txo t with
    | none =>
      rw [hl] at hant
      simp [keysA] at hant
    | some d =>
      rw [hl] at hant
      simp only [Option.getD_some] at hant
      rcases List.mem_map.mp hant with ⟨av, havmem, haveq⟩
      have hrow := List.all_eq_true.mp h2 (t, d) (lookupA_mem _ _ _ hl)
      have hcell := List.all_eq_true.mp hrow av havmem
      rw [← haveq]
      simpa using hcell

/-- Counterexample to **C2** as stated: after the successful mutating
sequence "ingest `t1` paying owned address `A`, then `clear_history`", the
txid `t1` is still in `history_local["A"]` while `txi`/`txo` no longer
mention it, so `history_local["A"] = {t | A ∈ keys(txi[t]) ∪ keys(txo[t])}`
fails — `clear_history` resets the index maps but not `_history_local`. -/
theorem historyLocal_equality_counterexample :
    "t1" ∈ (lookupA egClearSt.historyLocal "A").getD [] ∧
    lookupA egClearSt.txi "t1" = none ∧ lookupA egClearSt.txo "t1" = none ∧
    ¬ (∀ t, t ∈ (lookupA egClearSt.historyLocal "A").getD [] ↔
        ("A" ∈ keysA ((lookupA egClearSt.txi t).getD []) ∨
         "A" ∈ keysA ((lookupA egClearSt.txo t).getD []))) := by
  refine ⟨by decide, by decide, by decide, fun hall => ?_⟩
  have h := (hall "t1").mp (by decide)
  revert h
  decide

/-- **C2 (amended).** After each mutating operation that returns success —
`add_transaction`, `remove_transaction`, `receive_history_callback`,
`clear_history` — the containment
`history_local[a] ⊇ {t | a ∈ keys(txi[t]) ∪ keys(txo[t])}` still holds
(together with duplicate-freeness of the index keys) whenever it held
before; the reverse containment can fail, since `clear_history` leaves
`_history_local` populated and a re-add can leave stale entries. -/
theorem localHistContainment_preserved (st : WState) (hok : idxOK st) :
    (∀ txHash tx au, idxOK (addTransaction st txHash tx au).1) ∧
    (∀ txHash, idxOK (removeTransaction st txHash)) ∧
    (∀ addr hist fees, idxOK (receiveHistoryCallback st addr hist fees).1) ∧
    idxOK (clearHistory st) :=
  ⟨fun txHash tx au => addTransaction_idxOK st txHash tx au hok,
   fun txHash => removeTransaction_idxOK st txHash hok,
   fun addr hist fees => receiveHistoryCallback_idxOK st addr hist fees hok,
   clearHistory_idxOK st⟩

/-- Witness for the amended C2 at the one-coinbase-transaction wallet. -/
theorem localHistContainment_witness :
    idxOK (clearHistory egStX) ∧ idxOK (removeTransaction egStX "X") := by
  have h := localHistContainment_preserved egStX
    ⟨by decide, by decide, localHistOK_of_check egStX (by decide) (by decide)⟩
  exact ⟨h.2.2.2, h.2.1 "X"⟩

theorem lookupA_append_left {α β : Type} [DecidableEq α] (l l2 : List (α × β)) (k : α)
    (v : β) (h : lookupA l k = some v) : lookupA (l ++ l2) k = some v := by
  induction l with
  | nil => simp [lookupA] at h
  | cons e t ih =>
    obtain ⟨a, b⟩ := e
    by_cases he : a = k
    · subst he
      simp only [lookupA, if_pos rfl] at h ⊢
      exact h
    · simp only [lookupA, if_neg he] at h
      simp only [List.cons_append, lookupA, if_neg he]
      exact ih h

theorem lookupA_append_right {α β : Type} [DecidableEq α] (l l2 : List (α × β)) (k : α)
    (h : lookupA l k = none) : lookupA (l ++ l2) k = lookupA l2 k := by
  induction l with
  | nil => simp
  | cons e t ih =>
    obtain ⟨a, b⟩ := e
    by_cases he : a = k
    · subst he
      simp [lookupA] at h
    · simp only [lookupA, if_neg he] at h
      simp only [List.cons_append, lookupA, if_neg he]
      exact ih h

theorem setA_append_left {α β : Type} [DecidableEq α] (l l2 : List (α × β)) (k : α)
    (v : β) (h : k ∈ keysA l) : setA (l ++ l2) k v = setA l k v ++ l2 := by
  induction l with
  | nil => simp [keysA] at h
  | cons e t ih =>
    obtain ⟨a, b⟩ := e
    by_cases he : a = k
    · subst he
      simp [setA]
    · simp only [keysA, List.map_cons, List.mem_cons] at h
      rcases h with h | h

      · exact absurd h.symm he
      · simp [setA, he, ih h, keysA]

theorem popA_append_left {α β : Type} [DecidableEq α] (l l2 : List (α × β)) (k : α)
    (h : k ∈ keysA l) : popA (l ++ l2) k = popA l k ++ l2 := by
  induction l with
  | nil => simp [keysA] at h
  | cons e t ih =>
    obtain ⟨a, b⟩ := e
    by_cases he : a = k
    · subst he
      simp [popA]
    · simp only [keysA, List.map_cons, List.mem_cons] at h
      rcases h with h | h
      · exact absurd h.symm he
      · simp [popA, he, ih h, keysA]

theorem popA_append_right {α β : Type} [DecidableEq α] (l l2 : List (α × β)) (k : α)
    (h : lookupA l k = none) : popA (l ++ l2) k = l ++ popA l2 k := by
  induction l with
  | nil => simp
  | cons e t ih =>
    obtain ⟨a, b⟩ := e
    by_cases he : a = k
    · subst he
      simp [lookupA] at h
    · simp only [lookupA, if_neg he] at h
      simp [popA, he, ih h]

theorem setA_append_last {α β : Type} [DecidableEq α] (l : List (α × β)) (k : α)
    (v w : β) (h : lookupA l k = none) : setA (l ++ [(k, v)]) k w = l ++ [(k, w)] := by
  induction l with
  | nil => simp [setA]
  | cons e t ih =>
    obtain ⟨a, b⟩ := e
    by_cases he : a = k
    · subst he
      simp [lookupA] at h
    · simp only [lookupA, if_neg he] at h
      simp [setA, he, ih h]

theorem popA_setA_self {α β : Type} [DecidableEq α] (l : List (α × β)) (k : α)
    (v : β) : popA (setA l k v) k = popA l k := by
  induction l with
  | nil => simp [setA, popA]
  | cons e t ih =>
    obtain ⟨a, b⟩ := e
    by_cases he : a = k
    · subst he
      simp [setA, popA]
    · simp [setA, popA, he, ih]

theorem map_if_not_mem {α β : Type} [DecidableEq α] (l : List (α × β)) (k : α)
    (v : β) (h : k ∉ keysA l) :
    (l.map fun hs => if hs.1 = k then (k, v) else hs) = l := by
  induction l with
  | nil => simp
  | cons e t ih =>
    simp only [keysA, List.map_cons, List.mem_cons] at h
    push_neg at h
    simp only [List.map_cons, if_neg (Ne.symm h.1), ih (by simpa [keysA] using h.2)]

theorem setA_map_of_nodup {α β : Type} [DecidableEq α] (l : List (α × β)) (k : α)
    (v : β) (hnd : (keysA l).Nodup) (hk : k ∈ keysA l) :
    setA l k v = l.map fun hs => if hs.1 = k then (k, v) else hs := by
  induction l with
  | nil => simp [keysA] at hk
  | cons e t ih =>
    obtain ⟨a, b⟩ := e
    simp only [keysA, List.map_cons, List.nodup_cons] at hnd
    by_cases he : a = k
    · subst he
      have hmap := map_if_not_mem t a v hnd.1
      simp [setA, hmap]
    · simp only [keysA, List.map_cons, List.mem_cons] at hk
      rcases hk with hk | hk
      · exact absurd hk.symm he
      · simp only [setA, if_neg he, List.map_cons, if_neg he]
        rw [ih hnd.2 hk]

theorem lookupA_of_mem_nodup {α β : Type} [DecidableEq α] (l : List (α × β))
    (e : α × β) (hnd : (keysA l).Nodup) (he : e ∈ l) : lookupA l e.1 = some e.2 := by
  induction l with
  | nil => simp at he
  | cons f t ih =>
    obtain ⟨a, b⟩ := f
    simp only [keysA, List.map_cons, List.nodup_cons] at hnd
    rcases List.mem_cons.mp he with heq | hm
    · subst heq
      simp [lookupA]
    · by_cases hk : a = e.1
      · subst hk
        exact absurd (show e.1 ∈ t.map Prod.fst from List.mem_map.mpr ⟨e, hm, rfl⟩) hnd.1
      · simp only [lookupA, if_neg hk]
        exact ih hnd.2 hm

theorem keysA_mapAdds (t : String) (ins : List TxIn)
    (m : List (String × List (Nat × String))) : keysA (mapAdds t ins m) = keysA m := by
  induction m with
  | nil => simp [mapAdds]
  | cons e l ih => simpa [mapAdds, keysA] using ih

theorem lookupA_mapAdds (t : String) (ins : List TxIn)
    (m : List (String × List (Nat × String))) (h : String) :
    lookupA (mapAdds t ins m) h =
      (lookupA m h).map fun sub => sub ++ addsFor t ins h := by
  induction m with
  | nil => simp [mapAdds, lookupA]
  | cons e l ih =>
    obtain ⟨a, b⟩ := e
    by_cases he : a = h
    · subst he
      simp [mapAdds, lookupA]
    · simpa [mapAdds, lookupA, he] using ih

theorem popA_mapAdds (t : String) (ins : List TxIn)
    (m : List (String × List (Nat × String))) (k : String) :
    popA (mapAdds t ins m) k = mapAdds t ins (popA m k) := by
  induction m with
  | nil => simp [mapAdds, popA]
  | cons e l ih =>
    obtain ⟨a, b⟩ := e
    by_cases he : a = k
    · subst he
      simp [mapAdds, popA]
    · simpa [mapAdds, popA, he] using ih

theorem filter_popA_of_false {α β : Type} [DecidableEq α]
    (l : List (α × β)) (k : α) (c1 c2 : α × β → Bool)
    (hnd : (keysA l).Nodup)
    (hfalse : ∀ hs ∈ l, hs.1 = k → c1 hs = false)
    (hagree : ∀ hs ∈ l, ¬ hs.1 = k → c1 hs = c2 hs) :
    l.filter c1 = (popA l k).filter c2 := by
  induction l with
  | nil => simp [popA]
  | cons e t ih =>
    obtain ⟨a, b⟩ := e
    simp only [keysA, List.map_cons, List.nodup_cons] at hnd
    by_cases he : a = k
    · subst he
      rw [List.filter_cons_of_neg (by simpa using hfalse (a, b) (List.mem_cons_self _ _) rfl)]
      simp only [popA, if_pos rfl]
      apply List.filter_congr
      intro hs hhs
      exact (hagree hs (List.mem_cons_of_mem _ hhs)
        (fun hk => hnd.1 (List.mem_map.mpr ⟨hs, hhs, hk⟩))).symm ▸ rfl
    · simp only [popA, if_neg he]
      have hh := hagree (a, b) (List.mem_cons_self _ _) he
      cases hc : c1 (a, b)
      · rw [List.filter_cons_of_neg (by simp [hc]),
          List.filter_cons_of_neg (by simp [← hh, hc])]
        exact ih hnd.2 (fun hs hhs => hfalse hs (List.mem_cons_of_mem _ hhs))
          (fun hs hhs => hagree hs (List.mem_cons_of_mem _ hhs))
      · rw [List.filter_cons_of_pos (by simp [hc]),
          List.filter_cons_of_pos (by simp [← hh, hc])]
        rw [ih hnd.2 (fun hs hhs => hfalse hs (List.mem_cons_of_mem _ hhs))
          (fun hs hhs => hagree hs (List.mem_cons_of_mem _ hhs))]

theorem addsFor_cons_pos (t : String) (i : TxIn) (rest : List TxIn) (h : String)
    (hcb : ¬ i.typ = "coinbase") (hh : i.prevoutHash = h) :
    addsFor t (i :: rest) h = (i.prevoutN, t) :: addsFor t rest h := by
  simp [addsFor, List.filter_cons, hcb, hh]

theorem addsFor_cons_neg (t : String) (i : TxIn) (rest : List TxIn) (h : String)
    (hne : i.typ = "coinbase" ∨ ¬ i.prevoutHash = h) :
    addsFor t (i :: rest) h = addsFor t rest h := by
  rcases hne with hcb | hh
  · simp [addsFor, List.filter_cons, hcb]
  · by_cases hcb : i.typ = "coinbase"
    · simp [addsFor, List.filter_cons, hcb]
    · simp [addsFor, List.filter_cons, hcb, hh]

theorem addsFor_ne_nil (t : String) (ins : List TxIn) (h : String) (i : TxIn)
    (hi : i ∈ ins) (hcb : ¬ i.typ = "coinbase") (hh : i.prevoutHash = h) :
    ¬ addsFor t ins h = [] := by
  intro hnil
  have hmem : i ∈ ins.filter fun j => decide (¬ j.typ = "coinbase" ∧ j.prevoutHash = h) :=
    List.mem_filter.mpr ⟨hi, by simp [hcb, hh]⟩
  have h2 : (i.prevoutN, t) ∈ addsFor t ins h := by
    unfold addsFor
    exact List.mem_map.mpr ⟨i, hmem, rfl⟩
  rw [hnil] at h2
  simp at h2

theorem exists_of_addsFor_ne_nil (t : String) (ins : List TxIn) (h : String)
    (hne : ¬ addsFor t ins h = []) :
    ∃ i ∈ ins, ¬ i.typ = "coinbase" ∧ i.prevoutHash = h := by
  induction ins with
  | nil => simp [addsFor] at hne
  | cons j rest ih =>
    by_cases hc : ¬ j.typ = "coinbase" ∧ j.prevoutHash = h
    · exact ⟨j, List.mem_cons_self _ _, hc⟩
    · rw [addsFor_cons_neg t j rest h (by tauto)] at hne
      rcases ih hne with ⟨i, hi, hp⟩
      exact ⟨i, List.mem_cons_of_mem _ hi, hp⟩

theorem outpointKeys_cons_pos (i : TxIn) (rest : List TxIn)
    (hcb : ¬ i.typ = "coinbase") :
    outpointKeys (i :: rest) = (i.prevoutHash, i.prevoutN) :: outpointKeys rest := by
  simp [outpointKeys, List.filter_cons, hcb]

theorem outpointKeys_cons_cb (i : TxIn) (rest : List TxIn)
    (hcb : i.typ = "coinbase") :
    outpointKeys (i :: rest) = outpointKeys rest := by
  simp [outpointKeys, List.filter_cons, hcb]

theorem soGet_snd (so : List (String × List (Nat × String))) (h : String) :
    (soGet so h).2 = (lookupA so h).getD [] := by
  unfold soGet
  cases hl : lookupA so h
  · simp
  · simp

theorem soTouchStep_cases (so : List (String × List (Nat × String))) (i : TxIn) :
    soTouchStep so i = so ∨
    (soTouchStep so i = so ++ [(i.prevoutHash, [])] ∧
      lookupA so i.prevoutHash = none ∧ ¬ i.typ = "coinbase") := by
  unfold soTouchStep
  by_cases hcb : i.typ = "coinbase"
  · simp [hcb]
  · rw [if_neg hcb]
    unfold soGet
    cases hl : lookupA so i.prevoutHash
    · exact Or.inr ⟨rfl, rfl, hcb⟩
    · exact Or.inl rfl

theorem lookupA_touchFold_pres (ins : List TxIn)
    (so : List (String × List (Nat × String))) (h : String) (v : List (Nat × String))
    (hl : lookupA so h = some v) : lookupA (ins.foldl soTouchStep so) h = some v :=
  foldl_preserve (fun s => lookupA s h = some v) soTouchStep ins so
    (fun s i _ hp => by
      rcases soTouchStep_cases s i with hc | ⟨hc, _, _⟩
      · rw [hc]; exact hp
      · rw [hc]; exact lookupA_append_left _ _ _ _ hp) hl

theorem lookupA_touchFold (ins : List TxIn)
    (so : List (String × List (Nat × String))) (h : String) :
    lookupA (ins.foldl soTouchStep so) h = lookupA so h ∨
    (lookupA so h = none ∧ lookupA (ins.foldl soTouchStep so) h = some []) := by
  refine foldl_preserve (fun s => lookupA s h = lookupA so h ∨
    (lookupA so h = none ∧ lookupA s h = some [])) soTouchStep ins so ?_ (Or.inl rfl)
  intro s i _ hp
  rcases soTouchStep_cases s i with hc | ⟨hc, hn, _⟩
  · rw [hc]; exact hp
  · rw [hc]
    by_cases hh : h = i.prevoutHash
    · subst hh
      have h2 : lookupA (s ++ [(i.prevoutHash, [])]) i.prevoutHash = some [] := by
        rw [lookupA_append_right _ _ _ hn]
        simp [lookupA]
      refine Or.inr ⟨?_, h2⟩
      rcases hp with hp | hp
      · rw [← hp]; exact hn
      · exact hp.1
    · cases hls : lookupA s h
      · rw [lookupA_append_right _ _ _ hls]
        have h3 : lookupA [(i.prevoutHash, ([] : List (Nat × String)))] h = none := by
          have hne : ¬ i.prevoutHash = h := fun hq => hh hq.symm
          simp [lookupA, hne]
        rw [h3]
        rw [hls] at hp
        exact hp
      · rw [lookupA_append_left _ _ _ _ hls]
        rw [hls] at hp
        exact hp

theorem keysA_touchFold_nodup (ins : List TxIn)
    (so : List (String × List (Nat × String))) (hnd : (keysA so).Nodup) :
    (keysA (ins.foldl soTouchStep so)).Nodup := by
  refine foldl_preserve (fun s => (keysA s).Nodup) soTouchStep ins so ?_ hnd
  intro s i _ hp
  rcases soTouchStep_cases s i with hc | ⟨hc, hn, _⟩
  · rw [hc]; exact hp
  · rw [hc]
    have hmem : i.prevoutHash ∉ keysA s := (lookupA_none_iff_not_mem_keysA s _).mp hn
    simp only [keysA, List.map_append, List.map_cons, List.map_nil]
    rw [List.nodup_append]
    refine ⟨hp, List.nodup_singleton _, ?_⟩
    intro a ha hb
    rw [List.mem_singleton] at hb
    subst hb
    exact hmem ha

theorem touchFold_decomp (ins : List TxIn) :
    ∀ so, ∃ F, ins.foldl soTouchStep so = so ++ F ∧
      ∀ e ∈ F, e.2 = ([] : List (Nat × String)) ∧
        ∃ i ∈ ins, ¬ i.typ = "coinbase" ∧ i.prevoutHash = e.1 := by
  induction ins with
  | nil => exact fun so => ⟨[], by simp, by simp⟩
  | cons j rest ih =>
    intro so
    rcases ih (soTouchStep so j) with ⟨F, hF, hprop⟩
    rcases soTouchStep_cases so j with hc | ⟨hc, hn, hcb⟩
    · refine ⟨F, by rw [List.foldl_cons, hc]; rw [hc] at hF; exact hF, ?_⟩
      intro e heF
      rcases hprop e heF with ⟨h1, i, hi, hp⟩
      exact ⟨h1, i, List.mem_cons_of_mem _ hi, hp⟩
    · rw [hc] at hF
      refine ⟨(j.prevoutHash, []) :: F, by rw [List.foldl_cons, hc, hF]; simp, ?_⟩
      intro e heF
      rcases List.mem_cons.mp heF with heq | hm
      · subst heq
        exact ⟨rfl, j, List.mem_cons_self _ _, hcb, rfl⟩
      · rcases hprop e hm with ⟨h1, i, hi, hp⟩
        exact ⟨h1, i, List.mem_cons_of_mem _ hi, hp⟩

theorem touch_pres_unspent (so : List (String × List (Nat × String))) (i : TxIn)
    (h : String) (pn : Nat) (hu : lookupA ((lookupA so h).getD []) pn = none) :
    lookupA ((lookupA (soTouchStep so i) h).getD []) pn = none := by
  rcases soTouchStep_cases so i with hc | ⟨hc, hn, _⟩
  · rw [hc]; exact hu
  · rw [hc]
    by_cases hh : h = i.prevoutHash
    · subst hh
      rw [lookupA_append_right _ _ _ hn]
      simp [lookupA]
    · cases hls : lookupA so h
      · rw [lookupA_append_right _ _ _ hls]
        have h3 : lookupA [(i.prevoutHash, ([] : List (Nat × String)))] h = none := by
          have hne : ¬ i.prevoutHash = h := fun hq => hh hq.symm
          simp [lookupA, hne]
        rw [h3]
        simp [lookupA]
      · rw [lookupA_append_left _ _ _ _ hls]
        rw [hls] at hu
        exact hu

theorem getConflictingLoop_touch (trans : List (String × Tx)) (ins : List TxIn) :
    ∀ so acc, (∀ i ∈ ins, ¬ i.typ = "coinbase" →
      lookupA ((lookupA so i.prevoutHash).getD []) i.prevoutN = none) →
    getConflictingLoop trans ins so acc = (ins.foldl soTouchStep so, some acc) := by
  induction ins with
  | nil => intro so acc _; rfl
  | cons i rest ih =>
    intro so acc hP
    by_cases hcb : i.typ = "coinbase"
    · simp only [getConflictingLoop, if_pos hcb, List.foldl_cons]
      rw [show soTouchStep so i = so from by simp [soTouchStep, hcb]]
      exact ih so acc (fun j hj => hP j (List.mem_cons_of_mem _ hj))
    · simp only [getConflictingLoop, if_neg hcb, List.foldl_cons]
      have hl : lookupA (soGet so i.prevoutHash).2 i.prevoutN = none := by
        rw [soGet_snd]
        exact hP i (List.mem_cons_self _ _) hcb
      rw [hl]
      have hts : soTouchStep so i = (soGet so i.prevoutHash).1 := by
        simp [soTouchStep, hcb]
      rw [← hts]
      exact ih (soTouchStep so i) acc
        (fun j hj hjcb => touch_pres_unspent so i _ _
          (hP j (List.mem_cons_of_mem _ hj) hjcb))

theorem getConflicting_isolated (st : WState) (txHash : String) (tx : Tx)
    (hP : ∀ i ∈ tx.ins, ¬ i.typ = "coinbase" →
      lookupA ((lookupA st.spentOutpoints i.prevoutHash).getD []) i.prevoutN = none) :
    getConflicting st txHash tx =
      ({ st with spentOutpoints := tx.ins.foldl soTouchStep st.spentOutpoints },
        some []) := by
  simp only [getConflicting]
  rw [getConflictingLoop_touch st.transactions tx.ins st.spentOutpoints [] hP]
  simp

theorem map_congr_mem {α β : Type} (l : List α) (f g : α → β)
    (h : ∀ a ∈ l, f a = g a) : l.map f = l.map g := by
  induction l with
  | nil => rfl
  | cons a t ih =>
    simp only [List.map_cons, h a (List.mem_cons_self _ _)]
    rw [ih (fun b hb => h b (List.mem_cons_of_mem _ hb))]

theorem mem_outpointKeys (ins : List TxIn) (j : TxIn) (hj : j ∈ ins)
    (hcb : ¬ j.typ = "coinbase") :
    (j.prevoutHash, j.prevoutN) ∈ outpointKeys ins := by
  unfold outpointKeys
  exact List.mem_map.mpr ⟨j, List.mem_filter.mpr ⟨hj, by simp [hcb]⟩, rfl⟩

theorem mapAdds_nil (t : String) (m : List (String × List (Nat × String))) :
    mapAdds t [] m = m := by
  simp [mapAdds, addsFor]

theorem mapAdds_congr (t : String) (ins ins' : List TxIn)
    (m : List (String × List (Nat × String)))
    (h : ∀ hs ∈ m, addsFor t ins hs.1 = addsFor t ins' hs.1) :
    mapAdds t ins m = mapAdds t ins' m := by
  unfold mapAdds
  apply map_congr_mem
  intro hs hhs
  rw [h hs hhs]

theorem soSetFold_mapAdds (txHash : String) (ins : List TxIn) :
    ∀ m : List (String × List (Nat × String)), (keysA m).Nodup →
    (outpointKeys ins).Nodup →
    (∀ i ∈ ins, ¬ i.typ = "coinbase" → ∃ sub,
      lookupA m i.prevoutHash = some sub ∧ lookupA sub i.prevoutN = none) →
    ins.foldl (soSetStep txHash) m = mapAdds txHash ins m := by
  induction ins with
  | nil =>
    intro m _ _ _
    rw [mapAdds_nil]
    rfl
  | cons i rest ih =>
    intro m hnd hpk hsub
    by_cases hcb : i.typ = "coinbase"
    · rw [List.foldl_cons, show soSetStep txHash m i = m from by simp [soSetStep, hcb]]
      rw [ih m hnd (by rwa [outpointKeys_cons_cb i rest hcb] at hpk)
        (fun j hj => hsub j (List.mem_cons_of_mem _ hj))]
      exact mapAdds_congr txHash rest (i :: rest) m
        (fun hs _ => (addsFor_cons_neg txHash i rest hs.1 (Or.inl hcb)).symm)
    · rcases hsub i (List.mem_cons_self _ _) hcb with ⟨sub, hlm, hlpn⟩
      have hstep : soSetStep txHash m i =
          setA m i.prevoutHash (sub ++ [(i.prevoutN, txHash)]) := by
        simp only [soSetStep, if_neg hcb]
        unfold soGet
        rw [hlm]
        dsimp only
        rw [setA_lookup_none sub i.prevoutN txHash hlpn]
      have hmem : i.prevoutHash ∈ keysA m := by
        rw [← lookupA_isSome_iff_mem_keysA, hlm]
        rfl
      have hnd' : (keysA (setA m i.prevoutHash (sub ++ [(i.prevoutN, txHash)]))).Nodup :=
        keysA_setA_nodup _ _ _ hnd
      rw [outpointKeys_cons_pos i rest hcb, List.nodup_cons] at hpk
      have hsub' : ∀ j ∈ rest, ¬ j.typ = "coinbase" → ∃ s2,
          lookupA (setA m i.prevoutHash (sub ++ [(i.prevoutN, txHash)]))
            j.prevoutHash = some s2 ∧ lookupA s2 j.prevoutN = none := by
        intro j hj hjcb
        rcases hsub j (List.mem_cons_of_mem _ hj) hjcb with ⟨s2, hl2, hn2⟩
        by_cases hph : j.prevoutHash = i.prevoutHash
        · refine ⟨sub ++ [(i.prevoutN, txHash)], by rw [hph, lookupA_setA_self], ?_⟩
          rw [hph] at hl2
          rw [hlm] at hl2
          have hs2 : sub = s2 := Option.some.inj hl2
          have hpn : ¬ j.prevoutN = i.prevoutN := by
            intro hq
            apply hpk.1
            have := mem_outpointKeys rest j hj hjcb
            rw [hph, hq] at this
            exact this
          rw [lookupA_append_right _ _ _ (hs2 ▸ hn2)]
          have hpn' : ¬ i.prevoutN = j.prevoutN := fun hq => hpn hq.symm
          simp [lookupA, hpn']
        · refine ⟨s2, ?_, hn2⟩
          rw [lookupA_setA_ne m i.prevoutHash j.prevoutHash _ hph]
          exact hl2
      rw [List.foldl_cons, hstep, ih _ hnd' hpk.2 hsub']
      rw [setA_map_of_nodup m i.prevoutHash _ hnd hmem]
      unfold mapAdds
      rw [List.map_map]
      apply map_congr_mem
      intro hs hhs
      simp only [Function.comp]
      by_cases hph : hs.1 = i.prevoutHash
      · rw [if_pos hph]
        dsimp only
        have hs2 : hs.2 = sub := by
          have hl := lookupA_of_mem_nodup m hs hnd hhs
          rw [hph, hlm] at hl
          exact (Option.some.inj hl).symm
        rw [hs2, hph, addsFor_cons_pos txHash i rest i.prevoutHash hcb rfl]
        simp
      · rw [if_neg hph]
        rw [addsFor_cons_neg txHash i rest hs.1 (Or.inr (fun hq => hph hq.symm))]

theorem isEmpty_false_of_ne_nil {α : Type} (l : List α) (h : ¬ l = []) :
    l.isEmpty = false := by
  cases l
  · exact absurd rfl h
  · rfl

theorem soRemoveFold_mapAdds (txHash : String) (ins : List TxIn) :
    ∀ m E : List (String × List (Nat × String)), (keysA m).Nodup →
    (outpointKeys ins).Nodup →
    (∀ i ∈ ins, ¬ i.typ = "coinbase" → ∃ sub,
      lookupA m i.prevoutHash = some sub ∧ lookupA sub i.prevoutN = none) →
    ins.foldl removeSOStep (mapAdds txHash ins m ++ E) =
      m.filter (soKeep txHash ins) ++ E := by
  induction ins with
  | nil =>
    intro m E _ _ _
    rw [mapAdds_nil]
    show m ++ E = m.filter (soKeep txHash []) ++ E
    rw [List.filter_eq_self.mpr]
    intro hs _
    simp [soKeep, addsFor]
  | cons i rest ih =>
    intro m E hnd hpk hsub
    by_cases hcb : i.typ = "coinbase"
    · rw [List.foldl_cons, show removeSOStep (mapAdds txHash (i :: rest) m ++ E) i =
        mapAdds txHash (i :: rest) m ++ E from by simp [removeSOStep, hcb]]
      rw [mapAdds_congr txHash (i :: rest) rest m
        (fun hs _ => addsFor_cons_neg txHash i rest hs.1 (Or.inl hcb))]
      rw [ih m E hnd (by rwa [outpointKeys_cons_cb i rest hcb] at hpk)
        (fun j hj => hsub j (List.mem_cons_of_mem _ hj))]
      congr 1
      apply List.filter_congr
      intro hs _
      simp [soKeep, addsFor_cons_neg txHash i rest hs.1 (Or.inl hcb)]
    · rcases hsub i (List.mem_cons_self _ _) hcb with ⟨sub, hlm, hlpn⟩
      rw [outpointKeys_cons_pos i rest hcb, List.nodup_cons] at hpk
      have hmemm : i.prevoutHash ∈ keysA m := by
        rw [← lookupA_isSome_iff_mem_keysA, hlm]
        rfl
      have hadds : addsFor txHash (i :: rest) i.prevoutHash =
          (i.prevoutN, txHash) :: addsFor txHash rest i.prevoutHash :=
        addsFor_cons_pos txHash i rest i.prevoutHash hcb rfl
      have hlook : lookupA (mapAdds txHash (i :: rest) m ++ E) i.prevoutHash =
          some (sub ++ addsFor txHash (i :: rest) i.prevoutHash) := by
        apply lookupA_append_left
        rw [lookupA_mapAdds, hlm]
        rfl
      have hsg : soGet (mapAdds txHash (i :: rest) m ++ E) i.prevoutHash =
          (mapAdds txHash (i :: rest) m ++ E,
            sub ++ addsFor txHash (i :: rest) i.prevoutHash) := by
        unfold soGet
        rw [hlook]
      have hpop : popA (sub ++ addsFor txHash (i :: rest) i.prevoutHash) i.prevoutN =
          sub ++ addsFor txHash rest i.prevoutHash := by
        rw [hadds, popA_append_right _ _ _ hlpn]
        congr 1
        simp [popA]
      have hrm : removeSOStep (mapAdds txHash (i :: rest) m ++ E) i =
          if (sub ++ addsFor txHash rest i.prevoutHash).isEmpty then
            popA (setA (mapAdds txHash (i :: rest) m ++ E) i.prevoutHash
              (sub ++ addsFor txHash rest i.prevoutHash)) i.prevoutHash
          else setA (mapAdds txHash (i :: rest) m ++ E) i.prevoutHash
            (sub ++ addsFor txHash rest i.prevoutHash) := by
        simp only [removeSOStep, if_neg hcb]
        rw [hsg]
        dsimp only
        rw [hpop]
      have hmemL : i.prevoutHash ∈ keysA (mapAdds txHash (i :: rest) m) := by
        rw [keysA_mapAdds]
        exact hmemm
      rw [List.foldl_cons, hrm]
      by_cases hemp : (sub ++ addsFor txHash rest i.prevoutHash).isEmpty
      · have hsub0 : sub = [] ∧ addsFor txHash rest i.prevoutHash = [] := by
          have h0 : sub ++ addsFor txHash rest i.prevoutHash = [] := by
            cases hq : sub ++ addsFor txHash rest i.prevoutHash
            · rfl
            · rw [hq] at hemp
              simp at hemp
          exact List.append_eq_nil.mp h0
        rw [if_pos hemp, popA_setA_self, popA_append_left _ _ _ hmemL, popA_mapAdds]
        have hnomem : i.prevoutHash ∉ keysA (popA m i.prevoutHash) :=
          (lookupA_none_iff_not_mem_keysA _ _).mp (lookupA_popA_self_of_nodup m _ hnd)
        rw [mapAdds_congr txHash (i :: rest) rest (popA m i.prevoutHash)
          (fun hs hhs => addsFor_cons_neg txHash i rest hs.1 (Or.inr (fun hq =>
            hnomem (by
              have hx : hs.1 ∈ keysA (popA m i.prevoutHash) :=
                List.mem_map.mpr ⟨hs, hhs, rfl⟩
              rw [← hq] at hx
              exact hx))))]
        have hsubpop : ∀ j ∈ rest, ¬ j.typ = "coinbase" → ∃ s2,
            lookupA (popA m i.prevoutHash) j.prevoutHash = some s2 ∧
            lookupA s2 j.prevoutN = none := by
          intro j hj hjcb
          rcases hsub j (List.mem_cons_of_mem _ hj) hjcb with ⟨s2, hl2, hn2⟩
          have hph : ¬ j.prevoutHash = i.prevoutHash := by
            intro hq
            exact addsFor_ne_nil txHash rest i.prevoutHash j hj hjcb hq hsub0.2
          refine ⟨s2, ?_, hn2⟩
          rw [lookupA_popA_ne m i.prevoutHash j.prevoutHash hph]
          exact hl2
        rw [ih (popA m i.prevoutHash) E (keysA_popA_nodup m _ hnd) hpk.2 hsubpop]
        congr 1
        refine (filter_popA_of_false m i.prevoutHash (soKeep txHash (i :: rest))
          (soKeep txHash rest) hnd ?_ ?_).symm
        · intro hs hhs hph
          have hs2 : hs.2 = sub := by
            have hl := lookupA_of_mem_nodup m hs hnd hhs
            rw [hph, hlm] at hl
            exact (Option.some.inj hl).symm
          have hne : ¬ addsFor txHash (i :: rest) hs.1 = [] := by
            rw [hph, hadds]
            simp
          simp [soKeep, hs2, hsub0.1, hne]
        · intro hs _ hph
          simp [soKeep, addsFor_cons_neg txHash i rest hs.1
            (Or.inr (fun hq => hph hq.symm))]
      · rw [if_neg hemp, setA_append_left _ _ _ _ hmemL]
        have hsetm : setA (mapAdds txHash (i :: rest) m) i.prevoutHash
            (sub ++ addsFor txHash rest i.prevoutHash) = mapAdds txHash rest m := by
          rw [setA_map_of_nodup _ _ _ (by rw [keysA_mapAdds]; exact hnd) hmemL]
          unfold mapAdds
          rw [List.map_map]
          apply map_congr_mem
          intro hs hhs
          simp only [Function.comp]
          by_cases hph : hs.1 = i.prevoutHash
          · rw [if_pos hph]
            have hs2 : hs.2 = sub := by
              have hl := lookupA_of_mem_nodup m hs hnd hhs
              rw [hph, hlm] at hl
              exact (Option.some.inj hl).symm
            rw [hs2, hph]
          · rw [if_neg hph]
            rw [addsFor_cons_neg txHash i rest hs.1 (Or.inr (fun hq => hph hq.symm))]
        rw [hsetm, ih m E hnd hpk.2 (fun j hj => hsub j (List.mem_cons_of_mem _ hj))]
        congr 1
        apply List.filter_congr
        intro hs hhs
        by_cases hph : hs.1 = i.prevoutHash
        · have hs2 : hs.2 = sub := by
            have hl := lookupA_of_mem_nodup m hs hnd hhs
            rw [hph, hlm] at hl
            exact (Option.some.inj hl).symm
          by_cases hsubnil : sub = []
          · have hrne : ¬ addsFor txHash rest i.prevoutHash = [] := by
              intro hq
              rw [hsubnil, hq] at hemp
              simp at hemp
            have hine : ¬ addsFor txHash (i :: rest) hs.1 = [] := by
              rw [hph, hadds]
              simp
            have hrne' : ¬ addsFor txHash rest hs.1 = [] := by
              rw [hph]
              exact hrne
            simp only [soKeep, hs2, hsubnil]
            rw [isEmpty_false_of_ne_nil _ hrne', isEmpty_false_of_ne_nil _ hine]
          · simp only [soKeep, hs2]
            rw [isEmpty_false_of_ne_nil sub hsubnil]
            simp
        · simp [soKeep, addsFor_cons_neg txHash i rest hs.1
            (Or.inr (fun hq => hph hq.symm))]

theorem addTxToLocalHistory_so (st : WState) (t : String) :
    (addTxToLocalHistory st t).spentOutpoints = st.spentOutpoints := rfl

theorem addTxToLocalHistory_transactions (st : WState) (t : String) :
    (addTxToLocalHistory st t).transactions = st.transactions := rfl

theorem addTxToLocalHistory_fees (st : WState) (t : String) :
    (addTxToLocalHistory st t).txFees = st.txFees := rfl

theorem addTxToLocalHistory_history (st : WState) (t : String) :
    (addTxToLocalHistory st t).history = st.history := rfl

theorem removeTxFromLocalHistory_txi (st : WState) (t : String) :
    (removeTxFromLocalHistory st t).txi = st.txi := rfl

theorem removeTxFromLocalHistory_txo (st : WState) (t : String) :
    (removeTxFromLocalHistory st t).txo = st.txo := rfl

theorem removeTxFromLocalHistory_so (st : WState) (t : String) :
    (removeTxFromLocalHistory st t).spentOutpoints = st.spentOutpoints := rfl

theorem removeTxFromLocalHistory_transactions (st : WState) (t : String) :
    (removeTxFromLocalHistory st t).transactions = st.transactions := rfl

theorem removeTxFromLocalHistory_fees (st : WState) (t : String) :
    (removeTxFromLocalHistory st t).txFees = st.txFees := rfl

theorem removeTxFromLocalHistory_history (st : WState) (t : String) :
    (removeTxFromLocalHistory st t).history = st.history := rfl

theorem so_addValueFromPrevOutput (st : WState) (t ser ph : String) (pn : Nat) :
    (addValueFromPrevOutput st t ser ph pn).spentOutpoints = st.spentOutpoints := by
  simp only [addValueFromPrevOutput]
  repeat' split
  all_goals rfl

theorem txo_addValueFromPrevOutput (st : WState) (t ser ph : String) (pn : Nat) :
    (addValueFromPrevOutput st t ser ph pn).txo = st.txo := by
  simp only [addValueFromPrevOutput]
  repeat' split
  all_goals rfl

theorem fees_addValueFromPrevOutput (st : WState) (t ser ph : String) (pn : Nat) :
    (addValueFromPrevOutput st t ser ph pn).txFees = st.txFees := by
  simp only [addValueFromPrevOutput]
  repeat' split
  all_goals rfl

theorem so_addInputStep (t : String) (st : WState) (i : TxIn) :
    (addInputStep t st i).spentOutpoints = soSetStep t st.spentOutpoints i := by
  by_cases hcb : i.typ = "coinbase"
  · simp [addInputStep, soSetStep, hcb]
  · simp only [addInputStep, soSetStep, if_neg hcb]
    rw [so_addValueFromPrevOutput]

theorem txo_addInputStep (t : String) (st : WState) (i : TxIn) :
    (addInputStep t st i).txo = st.txo := by
  by_cases hcb : i.typ = "coinbase"
  · simp [addInputStep, hcb]
  · simp only [addInputStep, if_neg hcb]
    rw [txo_addValueFromPrevOutput]

theorem fees_addInputStep (t : String) (st : WState) (i : TxIn) :
    (addInputStep t st i).txFees = st.txFees := by
  by_cases hcb : i.typ = "coinbase"
  · simp [addInputStep, hcb]
  · simp only [addInputStep, if_neg hcb]
    rw [fees_addValueFromPrevOutput]

theorem so_addInputsLoop (ins : List TxIn) :
    ∀ (st : WState) (t : String),
    (addInputsLoop st t ins).spentOutpoints =
      ins.foldl (soSetStep t) st.spentOutpoints := by
  induction ins with
  | nil => intro st t; rfl
  | cons i rest ih =>
    intro st t
    show (addInputsLoop (addInputStep t st i) t rest).spentOutpoints =
      rest.foldl (soSetStep t) (soSetStep t st.spentOutpoints i)
    rw [ih (addInputStep t st i) t, so_addInputStep]

theorem txo_addInputsLoop (st : WState) (t : String) (ins : List TxIn) :
    (addInputsLoop st t ins).txo = st.txo := by
  unfold addInputsLoop
  exact foldl_preserve (fun s => s.txo = st.txo) (addInputStep t) ins st
    (fun s i _ hp => by
      show (addInputStep t s i).txo = st.txo
      rw [txo_addInputStep]; exact hp) rfl

theorem fees_addInputsLoop (st : WState) (t : String) (ins : List TxIn) :
    (addInputsLoop st t ins).txFees = st.txFees := by
  unfold addInputsLoop
  exact foldl_preserve (fun s => s.txFees = st.txFees) (addInputStep t) ins st
    (fun s i _ hp => by
      show (addInputStep t s i).txFees = st.txFees
      rw [fees_addInputStep]; exact hp) rfl

theorem fees_addOneOutput (st : WState) (t : String) (cb : Bool) (n : Nat) (o : TxOut) :
    (addOneOutput st t cb n o).txFees = st.txFees := by
  simp only [addOneOutput]
  repeat' split
  all_goals rfl

theorem fees_outsFold (st : WState) (t : String) (cb : Bool) (l : List (Nat × TxOut)) :
    (l.foldl (addOutputStep t cb) st).txFees = st.txFees := by
  exact foldl_preserve (fun s => s.txFees = st.txFees) (addOutputStep t cb) l st
    (fun s p _ hp => by
      show (addOneOutput s t cb p.1 p.2).txFees = st.txFees
      rw [fees_addOneOutput]; exact hp) rfl

theorem fees_addIndexPhase (st : WState) (t : String) (tx : Tx) (cb : Bool) :
    (addIndexPhase st t tx cb).txFees = st.txFees := by
  simp only [addIndexPhase]
  show (addTxToLocalHistory _ t).txFees = st.txFees
  rw [addTxToLocalHistory_fees, fees_outsFold]
  show (addInputsLoop _ t tx.ins).txFees = st.txFees
  rw [fees_addInputsLoop]

theorem fees_removeTransaction (st : WState) (t : String) :
    (removeTransaction st t).txFees = st.txFees := by
  simp only [removeTransaction]
  repeat' split
  all_goals rw [removeTxFromLocalHistory_fees]

theorem txi_removeTransaction (st : WState) (t : String) :
    (removeTransaction st t).txi = popA st.txi t := by
  simp only [removeTransaction]
  repeat' split
  all_goals rw [removeTxFromLocalHistory_txi]

theorem txo_removeTransaction (st : WState) (t : String) :
    (removeTransaction st t).txo = popA st.txo t := by
  simp only [removeTransaction]
  repeat' split
  all_goals rw [removeTxFromLocalHistory_txo]

theorem txiP_addValueFromPrevOutput (st : WState) (t ser ph : String) (pn : Nat)
    (base : List (String × List (String × List (String × Int))))
    (hbase : lookupA base t = none) (h : ∃ R, st.txi = base ++ [(t, R)]) :
    ∃ R2, (addValueFromPrevOutput st t ser ph pn).txi = base ++ [(t, R2)] := by
  rcases h with ⟨R, h⟩
  simp only [addValueFromPrevOutput]
  split
  · exact ⟨R, h⟩
  · split
    · dsimp only
      rw [h, setA_append_last base t _ _ hbase]
      exact ⟨_, rfl⟩
    · exact ⟨R, h⟩

theorem txiP_addInputStep (t : String) (st : WState) (i : TxIn)
    (base : List (String × List (String × List (String × Int))))
    (hbase : lookupA base t = none) (h : ∃ R, st.txi = base ++ [(t, R)]) :
    ∃ R2, (addInputStep t st i).txi = base ++ [(t, R2)] := by
  by_cases hcb : i.typ = "coinbase"
  · simpa [addInputStep, hcb] using h
  · simp only [addInputStep, if_neg hcb]
    exact txiP_addValueFromPrevOutput _ t _ _ _ base hbase h

theorem txiP_addInputsLoop (st : WState) (t : String) (ins : List TxIn)
    (base : List (String × List (String × List (String × Int))))
    (hbase : lookupA base t = none) (h : ∃ R, st.txi = base ++ [(t, R)]) :
    ∃ R2, (addInputsLoop st t ins).txi = base ++ [(t, R2)] := by
  unfold addInputsLoop
  exact foldl_preserve (fun s => ∃ R, s.txi = base ++ [(t, R)]) (addInputStep t) ins st
    (fun s i _ hp => txiP_addInputStep t s i base hbase hp) h

theorem addOneOutput_isolated (st : WState) (txHash : String) (cb : Bool) (n : Nat)
    (o : TxOut)
    (baseI : List (String × List (String × List (String × Int))))
    (baseO : List (String × List (String × List (Nat × Int × Bool))))
    (soMid : List (String × List (Nat × String)))
    (T0 : List (String × Tx)) (F0 : List (String × Int))
    (H0 : List (String × List (String × Int)))
    (hbO : lookupA baseO txHash = none)
    (hsoMid : lookupA soMid txHash = none)
    (hP : (∃ R, st.txi = baseI ++ [(txHash, R)]) ∧
      (∃ Ro, st.txo = baseO ++ [(txHash, Ro)]) ∧
      (st.spentOutpoints = soMid ∨ st.spentOutpoints = soMid ++ [(txHash, [])]) ∧
      st.transactions = T0 ∧ st.txFees = F0 ∧ st.history = H0) :
    (∃ R, (addOneOutput st txHash cb n o).txi = baseI ++ [(txHash, R)]) ∧
    (∃ Ro, (addOneOutput st txHash cb n o).txo = baseO ++ [(txHash, Ro)]) ∧
    ((addOneOutput st txHash cb n o).spentOutpoints = soMid ∨
      (addOneOutput st txHash cb n o).spentOutpoints = soMid ++ [(txHash, [])]) ∧
    (addOneOutput st txHash cb n o).transactions = T0 ∧
    (addOneOutput st txHash cb n o).txFees = F0 ∧
    (addOneOutput st txHash cb n o).history = H0 := by
  obtain ⟨⟨R, hI⟩, ⟨Ro, hO⟩, hSO, hT, hF, hH⟩ := hP
  simp only [addOneOutput]
  split
  · exact ⟨⟨R, hI⟩, ⟨Ro, hO⟩, hSO, hT, hF, hH⟩
  · split
    · rcases hSO with hso | hso
      · have hnone : lookupA st.spentOutpoints txHash = none := by
          rw [hso]
          exact hsoMid
        have hsg : soGet st.spentOutpoints txHash =
            (st.spentOutpoints ++ [(txHash, [])], []) := by
          unfold soGet
          rw [hnone]
        rw [hsg]
        simp only [lookupA]
        refine ⟨⟨R, hI⟩, ?_, Or.inr (by rw [hso]), hT, hF, hH⟩
        dsimp only
        rw [hO, setA_append_last baseO txHash _ _ hbO]
        exact ⟨_, rfl⟩
      · have hsome : lookupA st.spentOutpoints txHash = some [] := by
          rw [hso, lookupA_append_right _ _ _ hsoMid]
          simp [lookupA]
        have hsg : soGet st.spentOutpoints txHash = (st.spentOutpoints, []) := by
          unfold soGet
          rw [hsome]
        rw [hsg]
        simp only [lookupA]
        refine ⟨⟨R, hI⟩, ?_, Or.inr hso, hT, hF, hH⟩
        dsimp only
        rw [hO, setA_append_last baseO txHash _ _ hbO]
        exact ⟨_, rfl⟩
    · exact ⟨⟨R, hI⟩, ⟨Ro, hO⟩, hSO, hT, hF, hH⟩

theorem outsFold_isolated (st : WState) (txHash : String) (cb : Bool)
    (l : List (Nat × TxOut))
    (baseI : List (String × List (String × List (String × Int))))
    (baseO : List (String × List (String × List (Nat × Int × Bool))))
    (soMid : List (String × List (Nat × String)))
    (T0 : List (String × Tx)) (F0 : List (String × Int))
    (H0 : List (String × List (String × Int)))
    (hbO : lookupA baseO txHash = none)
    (hsoMid : lookupA soMid txHash = none)
    (hP : (∃ R, st.txi = baseI ++ [(txHash, R)]) ∧
      (∃ Ro, st.txo = baseO ++ [(txHash, Ro)]) ∧
      (st.spentOutpoints = soMid ∨ st.spentOutpoints = soMid ++ [(txHash, [])]) ∧
      st.transactions = T0 ∧ st.txFees = F0 ∧ st.history = H0) :
    (∃ R, (l.foldl (addOutputStep txHash cb) st).txi = baseI ++ [(txHash, R)]) ∧
    (∃ Ro, (l.foldl (addOutputStep txHash cb) st).txo = baseO ++ [(txHash, Ro)]) ∧
    ((l.foldl (addOutputStep txHash cb) st).spentOutpoints = soMid ∨
      (l.foldl (addOutputStep txHash cb) st).spentOutpoints =
        soMid ++ [(txHash, [])]) ∧
    (l.foldl (addOutputStep txHash cb) st).transactions = T0 ∧
    (l.foldl (addOutputStep txHash cb) st).txFees = F0 ∧
    (l.foldl (addOutputStep txHash cb) st).history = H0 := by
  exact foldl_preserve (fun s =>
    (∃ R, s.txi = baseI ++ [(txHash, R)]) ∧
    (∃ Ro, s.txo = baseO ++ [(txHash, Ro)]) ∧
    (s.spentOutpoints = soMid ∨ s.spentOutpoints = soMid ++ [(txHash, [])]) ∧
    s.transactions = T0 ∧ s.txFees = F0 ∧ s.history = H0)
    (addOutputStep txHash cb) l st
    (fun s p _ hp =>
      addOneOutput_isolated s txHash cb p.1 p.2 baseI baseO soMid T0 F0 H0
        hbO hsoMid hp) hP

theorem addIndexPhase_isolated (st : WState) (txHash : String) (tx : Tx) (cb : Bool)
    (hti : lookupA st.txi txHash = none) (hto : lookupA st.txo txHash = none)
    (htr : lookupA st.transactions txHash = none)
    (hsoT : lookupA st.spentOutpoints txHash = none)
    (hnd : (keysA st.spentOutpoints).Nodup)
    (hpk : (outpointKeys tx.ins).Nodup)
    (hsub : ∀ i ∈ tx.ins, ¬ i.typ = "coinbase" → ∃ sub,
      lookupA st.spentOutpoints i.prevoutHash = some sub ∧
      lookupA sub i.prevoutN = none) :
    ∃ R Ro,
      (addIndexPhase st txHash tx cb).txi = st.txi ++ [(txHash, R)] ∧
      (addIndexPhase st txHash tx cb).txo = st.txo ++ [(txHash, Ro)] ∧
      ((addIndexPhase st txHash tx cb).spentOutpoints =
          mapAdds txHash tx.ins st.spentOutpoints ∨
        (addIndexPhase st txHash tx cb).spentOutpoints =
          mapAdds txHash tx.ins st.spentOutpoints ++ [(txHash, [])]) ∧
      (addIndexPhase st txHash tx cb).transactions =
        st.transactions ++ [(txHash, tx)] ∧
      (addIndexPhase st txHash tx cb).txFees = st.txFees ∧
      (addIndexPhase st txHash tx cb).history = st.history := by
  simp only [addIndexPhase]
  set S1 := ({ st with txi := setA st.txi txHash [] } : WState) with hS1
  set S2 := addInputsLoop S1 txHash tx.ins with hS2
  set S3 := ({ S2 with txo := setA S2.txo txHash [] } : WState) with hS3
  set S4 := tx.outs.enum.foldl (addOutputStep txHash cb) S3 with hS4
  have hsoMid : lookupA (mapAdds txHash tx.ins st.spentOutpoints) txHash = none := by
    rw [lookupA_none_iff_not_mem_keysA, keysA_mapAdds]
    exact (lookupA_none_iff_not_mem_keysA _ _).mp hsoT
  have h2txi : ∃ R, S2.txi = st.txi ++ [(txHash, R)] := by
    rw [hS2]
    refine txiP_addInputsLoop S1 txHash tx.ins st.txi hti ⟨[], ?_⟩
    rw [hS1]
    dsimp only
    exact setA_lookup_none _ _ _ hti
  have h2so : S2.spentOutpoints = mapAdds txHash tx.ins st.spentOutpoints := by
    rw [hS2, so_addInputsLoop, hS1]
    dsimp only
    exact soSetFold_mapAdds txHash tx.ins st.spentOutpoints hnd hpk hsub
  have h2txo : S2.txo = st.txo := by
    rw [hS2, txo_addInputsLoop, hS1]
  have h2trans : S2.transactions = st.transactions := by
    rw [hS2, txns_addInputsLoop, hS1]
  have h2fees : S2.txFees = st.txFees := by
    rw [hS2, fees_addInputsLoop, hS1]
  have h2hist : S2.history = st.history := by
    rw [hS2]
    have := frame_history (addInputsLoop_frame S1 txHash tx.ins)
    rw [this, hS1]
  have h4 := outsFold_isolated S3 txHash cb tx.outs.enum st.txi st.txo
    (mapAdds txHash tx.ins st.spentOutpoints) st.transactions st.txFees st.history
    hto hsoMid
    ⟨by rw [hS3]; dsimp only; exact h2txi,
     ⟨[], by rw [hS3]; dsimp only; rw [h2txo]; exact setA_lookup_none _ _ _ hto⟩,
     Or.inl (by rw [hS3]; dsimp only; exact h2so),
     by rw [hS3]; dsimp only; exact h2trans,
     by rw [hS3]; dsimp only; exact h2fees,
     by rw [hS3]; dsimp only; exact h2hist⟩
  rw [← hS4] at h4
  obtain ⟨⟨R, h4i⟩, ⟨Ro, h4o⟩, h4so, h4t, h4f, h4h⟩ := h4
  refine ⟨R, Ro, ?_, ?_, ?_, ?_, ?_, ?_⟩
  · show (addTxToLocalHistory S4 txHash).txi = st.txi ++ [(txHash, R)]
    rw [addTxToLocalHistory_txi]
    exact h4i
  · show (addTxToLocalHistory S4 txHash).txo = st.txo ++ [(txHash, Ro)]
    rw [addTxToLocalHistory_txo]
    exact h4o
  · show (addTxToLocalHistory S4 txHash).spentOutpoints = _ ∨
      (addTxToLocalHistory S4 txHash).spentOutpoints = _
    rw [addTxToLocalHistory_so]
    exact h4so
  · show setA (addTxToLocalHistory S4 txHash).transactions txHash tx =
      st.transactions ++ [(txHash, tx)]
    rw [addTxToLocalHistory_transactions, h4t]
    exact setA_lookup_none _ _ _ htr
  · show (addTxToLocalHistory S4 txHash).txFees = st.txFees
    rw [addTxToLocalHistory_fees]
    exact h4f
  · show (addTxToLocalHistory S4 txHash).history = st.history
    rw [addTxToLocalHistory_history]
    exact h4h

theorem lookupA_eq_none_of_all_ne {α β : Type} [DecidableEq α] (l : List (α × β))
    (k : α) (h : ∀ e ∈ l, ¬ e.1 = k) : lookupA l k = none := by
  induction l with
  | nil => rfl
  | cons e t ih =>
    obtain ⟨a, b⟩ := e
    have ha : ¬ a = k := h (a, b) (List.mem_cons_self _ _)
    simp only [lookupA, if_neg ha]
    exact ih (fun e he => h e (List.mem_cons_of_mem _ he))

theorem touchFold_mem_isSome (ins : List TxIn) :
    ∀ so : List (String × List (Nat × String)), ∀ i ∈ ins, ¬ i.typ = "coinbase" →
    (lookupA (ins.foldl soTouchStep so) i.prevoutHash).isSome = true := by
  induction ins with
  | nil => intro so i hi; simp at hi
  | cons j rest ih =>
    intro so i hi hcb
    rcases List.mem_cons.mp hi with heq | hm
    · subst heq
      show (lookupA (rest.foldl soTouchStep (soTouchStep so i)) i.prevoutHash).isSome = true
      have h1 : (lookupA (soTouchStep so i) i.prevoutHash).isSome = true := by
        unfold soTouchStep
        rw [if_neg hcb]
        unfold soGet
        cases hl : lookupA so i.prevoutHash
        · rw [lookupA_append_right _ _ _ hl]
          simp [lookupA]
        · simp [hl]
      refine foldl_preserve
        (fun s => (lookupA s i.prevoutHash).isSome = true) soTouchStep rest
        (soTouchStep so i) ?_ h1
      intro s k _ hp
      rcases soTouchStep_cases s k with hc | ⟨hc, _, _⟩
      · rw [hc]; exact hp
      · rw [hc]
        cases hl : lookupA s i.prevoutHash
        · rw [hl] at hp; simp at hp
        · rw [lookupA_append_left _ _ _ _ hl]; rfl
    · show (lookupA (rest.foldl soTouchStep (soTouchStep so j)) i.prevoutHash).isSome
        = true
      exact ih (soTouchStep so j) i hm hcb

theorem so_removeTransaction_known (st : WState) (t : String) (tx : Tx)
    (htx : lookupA st.transactions t = some tx) :
    (removeTransaction st t).spentOutpoints =
      (if (soGet (removeSpentOutpointsKnown st.spentOutpoints tx.ins) t).2.isEmpty then
        popA (soGet (removeSpentOutpointsKnown st.spentOutpoints tx.ins) t).1 t
      else (soGet (removeSpentOutpointsKnown st.spentOutpoints tx.ins) t).1) := by
  simp only [removeTransaction]
  rw [htx, removeTxFromLocalHistory_so]

theorem addTransaction_isolated_eq (st : WState) (txHash : String) (tx : Tx)
    (au : Bool) (txin0 : TxIn) (rest0 : List TxIn)
    (hcomp : tx.isComplete = true) (hins0 : tx.ins = txin0 :: rest0)
    (hguard : au = true ∨ (tx.ins.any fun i => isMineO st (getTxinAddress st i)) = true ∨
      (tx.outs.any fun o => isMineO st (getTxoutAddress o)) = true)
    (hP : ∀ i ∈ tx.ins, ¬ i.typ = "coinbase" →
      lookupA ((lookupA st.spentOutpoints i.prevoutHash).getD []) i.prevoutN = none) :
    addTransaction st txHash tx au =
      (addIndexPhase
        { st with spentOutpoints := tx.ins.foldl soTouchStep st.spentOutpoints }
        txHash tx (decide (txin0.typ = "coinbase")), AddTxRes.done true) := by
  unfold addTransaction
  rw [if_neg (by simp [hcomp])]
  rw [hins0] at hguard ⊢
  dsimp only
  rw [if_neg (by
    rintro ⟨hau, hin, hout⟩
    rcases hguard with h | h | h
    · simp [h] at hau
    · exact hin h
    · exact hout h)]
  rw [getConflicting_isolated st txHash tx hP]
  dsimp only
  rw [show addTransactionResolved
      { st with spentOutpoints := tx.ins.foldl soTouchStep st.spentOutpoints }
      txHash tx (decide (txin0.typ = "coinbase")) (getTxHeight st txHash).height [] =
    (addIndexPhase
      { st with spentOutpoints := tx.ins.foldl soTouchStep st.spentOutpoints }
      txHash tx (decide (txin0.typ = "coinbase")), AddTxRes.done true) from by
    simp [addTransactionResolved]]
  rw [hins0]

/-- Counterexample to **C6** as stated: the tx `T2` spends `X:0`, which is
not recorded in `spent_outpoints` (the submap for `X` exists but is empty),
no spender of `T2` is recorded and `T2` is unknown — yet after
`add_transaction` then `remove_transaction` the persisted spent-outpoints
blob lost the empty `X -> {}` submap, so the serialized states differ:
the removal cleanup pops submaps that become (or already were) empty. -/
theorem addRemove_roundtrip_counterexample :
    (egTxT.ins.all fun i => decide
      (lookupA ((lookupA egStX.spentOutpoints i.prevoutHash).getD [])
        i.prevoutN = none)) = true ∧
    ((lookupA egStX.spentOutpoints "T2").getD []).isEmpty = true ∧
    memA egStX.transactions "T2" = false ∧
    memA egStX.txi "T2" = false ∧ memA egStX.txo "T2" = false ∧
    (addTransaction egStX "T2" egTxT false).2 = AddTxRes.done true ∧
    serializedState egRoundSt ≠ serializedState egStX := by
  refine ⟨by decide, by decide, by decide, by decide, by decide, by decide, ?_⟩
  decide

/-- **C6 (amended).** For a transaction `T` that is isolated in the
strengthened sense — no input outpoint is recorded in `spent_outpoints`,
each input's prevout hash is absent from `spent_outpoints` or has a
non-empty submap, no input spends `txid` itself, the spent outpoints are
pairwise distinct, `spent_outpoints[txid]` is absent, and `txid` is new to
`transactions`/`txi`/`txo` (with duplicate-free spent-outpoints keys) —
a successful `add_transaction(txid, T)` followed by
`remove_transaction(txid)` restores the serialized engine state
byte-for-byte.  Without the strengthening, pre-existing *empty* submaps
touched by the call are popped by the removal cleanup and the blobs
differ. -/
theorem addRemove_roundtrip (st : WState) (txHash : String) (tx : Tx) (au : Bool)
    (hiso : isolatedTx st txHash tx)
    (hres : (addTransaction st txHash tx au).2 = AddTxRes.done true) :
    serializedState (removeTransaction (addTransaction st txHash tx au).1 txHash) =
      serializedState st := by
  obtain ⟨hins, hpk, hsoT, ht, hti, hto, hnd⟩ := hiso
  have hP : ∀ i ∈ tx.ins, ¬ i.typ = "coinbase" →
      lookupA ((lookupA st.spentOutpoints i.prevoutHash).getD []) i.prevoutN = none :=
    fun i hi hcb => (hins i hi hcb).1
  have hcomp : tx.isComplete = true := by
    by_contra hq
    unfold addTransaction at hres
    rw [if_pos hq] at hres
    simp at hres
  obtain ⟨txin0, rest0, hins0⟩ : ∃ a l, tx.ins = a :: l := by
    cases hq : tx.ins with
    | nil =>
      unfold addTransaction at hres
      rw [if_neg (by simp [hcomp]), hq] at hres
      simp at hres
    | cons a l => exact ⟨a, l, rfl⟩
  have hguard : au = true ∨
      (tx.ins.any fun i => isMineO st (getTxinAddress st i)) = true ∨
      (tx.outs.any fun o => isMineO st (getTxoutAddress o)) = true := by
    by_contra hq
    push_neg at hq
    have h2 := hq.2.1
    rw [hins0] at h2
    unfold addTransaction at hres
    rw [if_neg (by simp [hcomp]), hins0] at hres
    dsimp only at hres
    rw [if_pos ⟨hq.1, h2, hq.2.2⟩] at hres
    simp at hres
  rw [addTransaction_isolated_eq st txHash tx au txin0 rest0 hcomp hins0 hguard hP]
  dsimp only
  clear hres
  obtain ⟨F, hMF, hFprop⟩ := touchFold_decomp tx.ins st.spentOutpoints
  have hMnd : (keysA (tx.ins.foldl soTouchStep st.spentOutpoints)).Nodup :=
    keysA_touchFold_nodup tx.ins st.spentOutpoints hnd
  have hMT : lookupA (tx.ins.foldl soTouchStep st.spentOutpoints) txHash = none := by
    rw [hMF, lookupA_append_right _ _ _ hsoT]
    apply lookupA_eq_none_of_all_ne
    intro e he
    rcases hFprop e he with ⟨_, i, hi, hicb, hiph⟩
    rw [← hiph]
    exact (hins i hi hicb).2.2
  have hMsub : ∀ i ∈ tx.ins, ¬ i.typ = "coinbase" → ∃ sub,
      lookupA (tx.ins.foldl soTouchStep st.spentOutpoints) i.prevoutHash = some sub ∧
      lookupA sub i.prevoutN = none := by
    intro i hi hicb
    have hSome := touchFold_mem_isSome tx.ins st.spentOutpoints i hi hicb
    rcases lookupA_touchFold tx.ins st.spentOutpoints i.prevoutHash with
      hcase | ⟨_, hsome2⟩
    · cases hls : lookupA st.spentOutpoints i.prevoutHash with
      | none =>
        rw [hls] at hcase
        rw [hcase] at hSome
        simp at hSome
      | some sub =>
        refine ⟨sub, by rw [hcase, hls], ?_⟩
        have h1 := (hins i hi hicb).1
        rw [hls] at h1
        simpa using h1
    · exact ⟨[], hsome2, rfl⟩
  obtain ⟨R, Ro, hAi, hAo, hAso, hAt, hAf, hAh⟩ := addIndexPhase_isolated
    { st with spentOutpoints := tx.ins.foldl soTouchStep st.spentOutpoints }
    txHash tx (decide (txin0.typ = "coinbase")) hti hto ht hMT hMnd hpk hMsub
  set stAdd := addIndexPhase
    { st with spentOutpoints := tx.ins.foldl soTouchStep st.spentOutpoints }
    txHash tx (decide (txin0.typ = "coinbase")) with hstAdd
  dsimp only at hAi hAo hAso hAt hAf hAh
  have htx2 : lookupA stAdd.transactions txHash = some tx := by
    rw [hAt, lookupA_append_right _ _ _ ht]
    simp [lookupA]
  have hfilter : (tx.ins.foldl soTouchStep st.spentOutpoints).filter
      (soKeep txHash tx.ins) = st.spentOutpoints := by
    rw [hMF, List.filter_append]
    have h1 : st.spentOutpoints.filter (soKeep txHash tx.ins) = st.spentOutpoints := by
      rw [List.filter_eq_self]
      intro e he
      by_cases hq : addsFor txHash tx.ins e.1 = []
      · simp [soKeep, hq]
      · rcases exists_of_addsFor_ne_nil txHash tx.ins e.1 hq with ⟨i, hi, hicb, hiph⟩
        have hle : lookupA st.spentOutpoints e.1 = some e.2 :=
          lookupA_of_mem_nodup _ e hnd he
        rcases (hins i hi hicb).2.1 with hd | hd
        · rw [hiph, hle] at hd
          simp at hd
        · rw [hiph, hle] at hd
          simp only [Option.getD_some] at hd
          simp [soKeep, isEmpty_false_of_ne_nil _ hd]
    have h2 : F.filter (soKeep txHash tx.ins) = [] := by
      rw [List.filter_eq_nil]
      intro e he
      rcases hFprop e he with ⟨henil, i, hi, hicb, hiph⟩
      have hne := addsFor_ne_nil txHash tx.ins e.1 i hi hicb hiph
      simp [soKeep, henil, isEmpty_false_of_ne_nil _ hne]
    rw [h1, h2, List.append_nil]
  have hrem_so : (removeTransaction stAdd txHash).spentOutpoints =
      st.spentOutpoints := by
    rw [so_removeTransaction_known stAdd txHash tx htx2]
    rcases hAso with hA | hA
    · have hclean : removeSpentOutpointsKnown stAdd.spentOutpoints tx.ins =
          st.spentOutpoints := by
        show tx.ins.foldl removeSOStep stAdd.spentOutpoints = st.spentOutpoints
        rw [hA]
        have hB := soRemoveFold_mapAdds txHash tx.ins
          (tx.ins.foldl soTouchStep st.spentOutpoints) [] hMnd hpk hMsub
        simp only [List.append_nil] at hB
        rw [hB, hfilter]
      rw [hclean]
      have hsg : soGet st.spentOutpoints txHash =
          (st.spentOutpoints ++ [(txHash, [])], []) := by
        unfold soGet
        rw [hsoT]
      rw [hsg]
      dsimp only
      rw [if_pos (show ([] : List (Nat × String)).isEmpty = true from rfl)]
      exact popA_append_last _ _ _ hsoT
    · have hclean : removeSpentOutpointsKnown stAdd.spentOutpoints tx.ins =
          st.spentOutpoints ++ [(txHash, [])] := by
        show tx.ins.foldl removeSOStep stAdd.spentOutpoints =
          st.spentOutpoints ++ [(txHash, [])]
        rw [hA]
        have hB := soRemoveFold_mapAdds txHash tx.ins
          (tx.ins.foldl soTouchStep st.spentOutpoints) [(txHash, [])] hMnd hpk hMsub
        rw [hB, hfilter]
      rw [hclean]
      have hlk : lookupA (st.spentOutpoints ++ [(txHash, [])]) txHash = some [] := by
        rw [lookupA_append_right _ _ _ hsoT]
        simp [lookupA]
      have hsg : soGet (st.spentOutpoints ++ [(txHash, [])]) txHash =
          (st.spentOutpoints ++ [(txHash, [])], []) := by
        unfold soGet
        rw [hlk]
      rw [hsg]
      dsimp only
      rw [if_pos (show ([] : List (Nat × String)).isEmpty = true from rfl)]
      exact popA_append_last _ _ _ hsoT
  have e1 : (removeTransaction stAdd txHash).transactions = st.transactions := by
    rw [removeTransaction_transactions, hAt, popA_append_last _ _ _ ht]
  have e2 : (removeTransaction stAdd txHash).txi = st.txi := by
    rw [txi_removeTransaction, hAi, popA_append_last _ _ _ hti]
  have e3 : (removeTransaction stAdd txHash).txo = st.txo := by
    rw [txo_removeTransaction, hAo, popA_append_last _ _ _ hto]
  have e4 : (removeTransaction stAdd txHash).txFees = st.txFees := by
    rw [fees_removeTransaction, hAf]
  have e5 : (removeTransaction stAdd txHash).history = st.history := by
    rw [frame_history (removeTransaction_frame stAdd txHash), hAh]
  unfold serializedState
  rw [e1, e2, e3, e4, e5, hrem_so]

/-- Witness for the amended C6: `T8` spends the never-seen outpoint `Q:0`
and pays the owned address of the fresh wallet; the roundtrip restores the
serialized state. -/
theorem addRemove_roundtrip_witness :
    isolatedTx egBase "T8" egC6Tx ∧
    serializedState
      (removeTransaction (addTransaction egBase "T8" egC6Tx true).1 "T8") =
      serializedState egBase :=
  ⟨by unfold isolatedTx; decide,
   addRemove_roundtrip egBase "T8" egC6Tx true (by unfold isolatedTx; decide)
     (by decide)⟩

end ElectrumSync
